import Mathlib

/-!
cedar: a double-array trie.

Shallow embedding of the public API of the `cedar` package (`api.go`) together
with the slot/block machinery it drives.  Go `int` is modelled by `Int`, a
`byte` by `Fin 256`, a slice by a `List`; an index that is out of range (a Go
run-time panic) makes the operation return `none`.
-/

namespace CedarTrie

/-- A key byte / child label. -/
abbrev Byte := Fin 256

/-- The errors of the package. -/
inductive Err where
  | ErrNoPath
  | ErrNoValue
  | ErrInvalidKey
  | ErrInvalidValue
  deriving DecidableEq, Repr

/-- Modelled from the spec: the constant `ValueLimit` is not declared in `api.go`;
the spec calls it a sentinel, conventionally `INT_MAX`.  Go `int` is 64 bits wide. -/
def ValueLimit : Int := 2 ^ 63 - 1

/-- Modelled from the spec: the slot type is not declared in `api.go`.  `api.go`
reads the fields `Value` and `Check`; an occupied slot has `Check ≥ 0`. -/
structure Node where
  Value : Int
  Check : Int
  deriving DecidableEq, Repr

/-- Modelled from the spec: the method `base()` is not declared in `api.go`.  A slot
keeps either a value (`Value ≥ 0`) or its negative-encoded branching base in the
same field, so that the base of an internal node is `-(Value + 1)`. -/
def Node.base (n : Node) : Int := -(n.Value + 1)

/-- Modelled from the spec: the per-slot `child` and `sibling` bytes. -/
structure Ninfo where
  Sibling : Byte
  Child : Byte
  deriving DecidableEq, Repr

/-- Modelled from the spec: the per-block record (`prev`, `next`, `num`, `reject`,
`trial`, `ehead`). -/
structure Block where
  Prev : Int
  Next : Int
  Num : Int
  Reject : Int
  Trial : Int
  Ehead : Int
  deriving DecidableEq, Repr

/-- Modelled from the spec: the trie state, the slot arrays, the block table, the
three class heads and the scalars `api.go` reads (`Size`, `Capacity`). -/
structure Cedar where
  Array : List Node
  Ninfos : List Ninfo
  Blocks : List Block
  BheadF : Int
  BheadC : Int
  BheadO : Int
  Capacity : Int
  Size : Int
  Ordered : Bool
  MaxTrial : Int
  deriving DecidableEq, Repr

/-- Read of `xs[i]`; `none` is the run-time panic of an index out of range. -/
def idx {α : Type} (xs : List α) (i : Int) : Option α :=
  if i < 0 then none else xs[i.toNat]?

/-- Write of `xs[i] = v`; `none` is the run-time panic of an index out of range. -/
def upd {α : Type} (xs : List α) (i : Int) (v : α) : Option (List α) :=
  if i < 0 then none else if i.toNat < xs.length then some (xs.set i.toNat v) else none

/-- The Go conversion `byte(x)` of an `int`: the low eight bits. -/
def toByte (x : Int) : Byte := ⟨(x % 256).toNat, by omega⟩

/-- The Go conversion `int(b)` of a `byte`. -/
def ofByte (b : Byte) : Int := (b.val : Int)

/-- The slot `da.Array[i]`. -/
def Cedar.node (da : Cedar) (i : Int) : Option Node := idx da.Array i

/-- The record `da.Ninfos[i]`. -/
def Cedar.ninfo (da : Cedar) (i : Int) : Option Ninfo := idx da.Ninfos i

/-- The loop of `Jump`: `to` is the named result, which the loop overwrites at
every byte; a failed step returns the node reached so far with `ErrNoPath`. -/
def jumpLoop (da : Cedar) : List Byte → Int → Int → Option (Int × Option Err)
  | [], _, to_ => some (to_, none)
  | b :: rest, from_, _ =>
    match da.node from_ with
    | none => none
    | some nf =>
      if nf.Value ≥ 0 then some (from_, some Err.ErrNoPath)
      else
        let to_ := Int.xor nf.base (ofByte b)
        match da.node to_ with
        | none => none
        | some nt =>
          if nt.Check ≠ from_ then some (from_, some Err.ErrNoPath)
          else jumpLoop da rest to_ to_

/-- `Jump` of `api.go`: travel from `from` along `path`. -/
def Jump (da : Cedar) (path : List Byte) (from_ : Int) : Option (Int × Option Err) :=
  jumpLoop da path from_ 0

/-- The upward loop of `Key`, with the labels appended so far (last byte of the key
first).  The Go loop runs while `id > 0`; `fuel` bounds the number of iterations. -/
def keyLoop (da : Cedar) : Nat → Int → List Byte → Option (Option (Int × List Byte))
  | 0, id, key => if id > 0 then none else some (some (id, key))
  | fuel + 1, id, key =>
    if id > 0 then
      match da.node id with
      | none => none
      | some n =>
        let from_ := n.Check
        if from_ < 0 then some none
        else
          match da.node from_ with
          | none => none
          | some nf =>
            let char := toByte (Int.xor nf.base id)
            keyLoop da fuel from_ (if char ≠ 0 then key ++ [char] else key)
    else some (some (id, key))

/-- `Key` of `api.go`.  The result is `none` when the loop has not finished within
`fuel` iterations or an index is out of range. -/
def Key (da : Cedar) (fuel : Nat) (id : Int) : Option (List Byte × Option Err) :=
  match keyLoop da fuel id [] with
  | none => none
  | some none => some ([], some Err.ErrNoPath)
  | some (some (id', key)) =>
    if id' ≠ 0 ∨ key.length = 0 then some ([], some Err.ErrInvalidKey)
    else some (key.reverse, none)

/-- `Value` of `api.go`. -/
def Value (da : Cedar) (id : Int) : Option (Int × Option Err) :=
  match da.node id with
  | none => none
  | some n =>
    if n.Value ≥ 0 then some (n.Value, none)
    else
      match da.node n.base with
      | none => none
      | some nt =>
        if nt.Check = id ∧ nt.Value ≥ 0 then some (nt.Value, none)
        else some (0, some Err.ErrNoValue)

/-- `Get` of `api.go`: `Jump` from the root, then `Value`. -/
def Get (da : Cedar) (key : List Byte) : Option (Int × Option Err) :=
  match Jump da key 0 with
  | none => none
  | some (_, some err) => some (0, some err)
  | some (to_, none) => Value da to_

/-! ## Slot and block storage -/

/-- The record `da.Blocks[i]`. -/
def Cedar.block (da : Cedar) (i : Int) : Option Block := idx da.Blocks i

/-- Assignment `da.Array[i] = n`. -/
def Cedar.setNode (da : Cedar) (i : Int) (n : Node) : Option Cedar :=
  (upd da.Array i n).map fun a => { da with Array := a }

/-- Assignment `da.Array[i].Value = v`. -/
def Cedar.setValue (da : Cedar) (i : Int) (v : Int) : Option Cedar :=
  (da.node i).bind fun n => da.setNode i { n with Value := v }

/-- Assignment `da.Array[i].Check = c`. -/
def Cedar.setCheck (da : Cedar) (i : Int) (c : Int) : Option Cedar :=
  (da.node i).bind fun n => da.setNode i { n with Check := c }

/-- Assignment `da.Ninfos[i] = x`. -/
def Cedar.setNinfo (da : Cedar) (i : Int) (x : Ninfo) : Option Cedar :=
  (upd da.Ninfos i x).map fun a => { da with Ninfos := a }

/-- Assignment `da.Ninfos[i].Sibling = c`. -/
def Cedar.setSibling (da : Cedar) (i : Int) (c : Byte) : Option Cedar :=
  (da.ninfo i).bind fun x => da.setNinfo i { x with Sibling := c }

/-- Assignment `da.Ninfos[i].Child = c`. -/
def Cedar.setChildOf (da : Cedar) (i : Int) (c : Byte) : Option Cedar :=
  (da.ninfo i).bind fun x => da.setNinfo i { x with Child := c }

/-- Assignment `da.Blocks[i] = b`. -/
def Cedar.setBlock (da : Cedar) (i : Int) (b : Block) : Option Cedar :=
  (upd da.Blocks i b).map fun a => { da with Blocks := a }

/-- The three occupancy classes of blocks: `FULL`, `CLOSED`, `OPEN`. -/
inductive Cls where
  | F
  | C
  | O
  deriving DecidableEq, Repr

/-- The head of a class list; block id `0` stands for the empty list. -/
def Cedar.head (da : Cedar) : Cls → Int
  | Cls.F => da.BheadF
  | Cls.C => da.BheadC
  | Cls.O => da.BheadO

/-- Assignment to the head of a class list. -/
def Cedar.setHead (da : Cedar) (c : Cls) (v : Int) : Cedar :=
  match c with
  | Cls.F => { da with BheadF := v }
  | Cls.C => { da with BheadC := v }
  | Cls.O => { da with BheadO := v }

/-- A place that holds a label: the `Child` byte or the `Sibling` byte of a slot
(the Go code keeps a pointer to such a byte while it walks a child ring). -/
inductive Loc where
  | child (i : Int)
  | sibling (i : Int)
  deriving DecidableEq, Repr

/-- Read through a label pointer. -/
def Cedar.readLoc (da : Cedar) : Loc → Option Byte
  | Loc.child i => (da.ninfo i).map fun x => x.Child
  | Loc.sibling i => (da.ninfo i).map fun x => x.Sibling

/-- Write through a label pointer. -/
def Cedar.writeLoc (da : Cedar) (l : Loc) (c : Byte) : Option Cedar :=
  match l with
  | Loc.child i => da.setChildOf i c
  | Loc.sibling i => da.setSibling i c

/-- Modelled from the spec: a fresh trie.  Slot 0 is the root with check `-1`; its
branching base is `1` (the test file finds the node of `"/"`, byte 47, at slot 46).
The other 255 slots of block 0 form its empty ring: `Value` is the negated previous
and `Check` the negated next empty slot. -/
def New : Cedar :=
  { Array := { Value := -2, Check := -1 } ::
      (List.range 255).map fun j =>
        let i : Int := (j : Int) + 1
        { Value := if i = 1 then -255 else -(i - 1),
          Check := if i = 255 then -1 else -(i + 1) }
    Ninfos := List.replicate 256 { Sibling := 0, Child := 0 }
    Blocks := [{ Prev := 0, Next := 0, Num := 255, Reject := 257, Trial := 0, Ehead := 1 }]
    BheadF := 0
    BheadC := 0
    BheadO := 0
    Capacity := 256
    Size := 256
    Ordered := true
    MaxTrial := 1 }

/-! ## Block class lists -/

/-- Modelled from the spec: unlink block `bi` from the cyclic doubly-linked class
list `c`; `last` says that it is the only member. -/
def popBlock (da : Cedar) (bi : Int) (c : Cls) (last : Bool) : Option Cedar :=
  if last then some (da.setHead c 0)
  else do
    let b ← da.block bi
    let p ← da.block b.Prev
    let da1 ← da.setBlock b.Prev { p with Next := b.Next }
    let n ← da1.block b.Next
    let da2 ← da1.setBlock b.Next { n with Prev := b.Prev }
    if bi = da2.head c then some (da2.setHead c b.Next) else some da2

/-- Modelled from the spec: link block `bi` at the head of the class list `c`;
`empty` says that the list has no member yet. -/
def pushBlock (da : Cedar) (bi : Int) (c : Cls) (empty : Bool) : Option Cedar :=
  if empty then do
    let b ← da.block bi
    let da1 ← da.setBlock bi { b with Prev := bi, Next := bi }
    some (da1.setHead c bi)
  else do
    let h := da.head c
    let hb ← da.block h
    let tail := hb.Prev
    let b ← da.block bi
    let da1 ← da.setBlock bi { b with Prev := tail, Next := h }
    let hb1 ← da1.block h
    let da2 ← da1.setBlock h { hb1 with Prev := bi }
    let tb ← da2.block tail
    let da3 ← da2.setBlock tail { tb with Next := bi }
    some (da3.setHead c bi)

/-- Modelled from the spec: move block `bi` from class list `cin` to class list
`cout`. -/
def transferBlock (da : Cedar) (bi : Int) (cin cout : Cls) : Option Cedar := do
  let b ← da.block bi
  let da1 ← popBlock da bi cin (bi = b.Next)
  let b1 ← da1.block bi
  pushBlock da1 bi cout (da1.head cout = 0 ∧ b1.Num ≠ 0)

/-- Modelled from the spec: growth.  Append one block of 256 fresh empty slots wired
into a new empty ring and place the block at the head of `OPEN`; the result is the
new state and the id of the new block. -/
def addBlock (da : Cedar) : Option (Cedar × Int) :=
  let s := da.Size
  let ring : List Node := (List.range 256).map fun j =>
    let i : Int := s + (j : Int)
    { Value := if j = 0 then -(s + 255) else -(i - 1),
      Check := if j = 255 then -s else -(i + 1) }
  let da1 : Cedar :=
    { da with
      Array := da.Array ++ ring
      Ninfos := da.Ninfos ++ List.replicate 256 { Sibling := 0, Child := 0 }
      Blocks := da.Blocks ++
        [{ Prev := 0, Next := 0, Num := 256, Reject := 257, Trial := 0, Ehead := s }]
      Capacity := da.Capacity + 256 }
  (pushBlock da1 (s / 256) Cls.O (da1.BheadO = 0)).map fun da2 =>
    ({ da2 with Size := s + 256 }, s / 256)

/-! ## Empty-slot rings and the allocator -/

/-- Modelled from the spec: `find_place` for a single label.  Take the `ehead` of
the first `OPEN` block, otherwise of the first `CLOSED` block, otherwise grow. -/
def findPlace (da : Cedar) : Option (Cedar × Int) :=
  if da.BheadO ≠ 0 then (da.block da.BheadO).map fun b => (da, b.Ehead)
  else if da.BheadC ≠ 0 then (da.block da.BheadC).map fun b => (da, b.Ehead)
  else (addBlock da).map fun r => (r.1, r.2 * 256)

/-- Are all the slots `base XOR ℓ`, `ℓ` in `child`, empty (negative check)? -/
def allEmpty (da : Cedar) (base : Int) : List Byte → Option Bool
  | [] => some true
  | c :: cs =>
    match da.node (Int.xor base (ofByte c)) with
    | none => none
    | some n => if n.Check < 0 then allEmpty da base cs else some false

/-- Walk the empty ring of a block from its `ehead`: the first empty slot `e` such
that the base `e XOR child[0]` has all its label slots empty, `some none` when the
walk comes back to `ehead`. -/
def scanRing (da : Cedar) (child : List Byte) (c0 : Byte) (ehead : Int) :
    Nat → Int → Option (Option Int)
  | 0, _ => none
  | fuel + 1, e =>
    match allEmpty da (Int.xor e (ofByte c0)) child with
    | none => none
    | some true => some (some e)
    | some false =>
      match da.node e with
      | none => none
      | some n =>
        let e' := -n.Check
        if e' = ehead then some none else scanRing da child c0 ehead fuel e'

/-- The loop of `find_place` over the `OPEN` list, from block `bi` to the last
block `bz`.  A block that cannot take the labels gets its `reject` bound lowered
and its `trial` count raised; when the count reaches `MaxTrial` the block moves to
`CLOSED`. -/
def findPlacesLoop (child : List Byte) (c0 : Byte) (bz : Int) :
    Nat → Cedar → Int → Option (Cedar × Option Int)
  | 0, _, _ => none
  | fuel + 1, da, bi =>
    match da.block bi with
    | none => none
    | some b =>
      let nc : Int := child.length
      match (if b.Num ≥ nc ∧ nc < b.Reject then scanRing da child c0 b.Ehead 257 b.Ehead
             else some none) with
      | none => none
      | some (some e) => (da.setBlock bi { b with Ehead := e }).map fun d => (d, some e)
      | some none =>
        let b1 : Block := { b with Reject := nc, Trial := b.Trial + 1 }
        match da.setBlock bi b1 with
        | none => none
        | some da1 =>
          match (if b1.Trial = da.MaxTrial then transferBlock da1 bi Cls.O Cls.C
                 else some da1) with
          | none => none
          | some da2 =>
            if bi = bz then some (da2, none)
            else findPlacesLoop child c0 bz fuel da2 b.Next

/-- Modelled from the spec: `find_place` for two or more labels.  Scan the `OPEN`
blocks for an empty slot `e` whose base `e XOR child[0]` is free for every label;
when no block has one, grow.  The result is `e`. -/
def findPlaces (da : Cedar) (child : List Byte) : Option (Cedar × Int) :=
  match child with
  | [] => none
  | c0 :: _ =>
    if da.BheadO ≠ 0 then
      match da.block da.BheadO with
      | none => none
      | some hb =>
        match findPlacesLoop child c0 hb.Prev (da.Blocks.length + 1) da da.BheadO with
        | none => none
        | some (da1, some e) => some (da1, e)
        | some (da1, none) => (addBlock da1).map fun r => (r.1, r.2 * 256)
    else (addBlock da).map fun r => (r.1, r.2 * 256)

/-- Modelled from the spec: `reserve` of one slot.  The slot `e = base XOR label`
(a freshly found place when the parent has no base yet, `base < 0`) is unlinked
from the empty ring of its block, `num` is decremented and the class of the block
updated; the slot becomes a child of `from` without a value.  A parent without a
base gets the base `e XOR label`. -/
def popEnode (da : Cedar) (base : Int) (label : Byte) (from_ : Int) : Option (Cedar × Int) := do
  let (da0, e) ← if base < 0 then findPlace da else some (da, Int.xor base (ofByte label))
  let bi := e / 256
  let n ← da0.node e
  let b ← da0.block bi
  let b1 : Block := { b with Num := b.Num - 1 }
  let da1 ← da0.setBlock bi b1
  let da2 ←
    if b1.Num = 0 then
      (if bi ≠ 0 then transferBlock da1 bi Cls.C Cls.F else some da1)
    else do
      let d1 ← da1.setCheck (-n.Value) n.Check
      let d2 ← d1.setValue (-n.Check) n.Value
      let d3 ← if e = b1.Ehead then d2.setBlock bi { b1 with Ehead := -n.Check } else some d2
      if bi ≠ 0 ∧ b1.Num = 1 ∧ b1.Trial ≠ da.MaxTrial then transferBlock d3 bi Cls.O Cls.C
      else some d3
  let da3 ← da2.setNode e { Value := ValueLimit, Check := from_ }
  let da4 ← if base < 0 then da3.setValue from_ (-(Int.xor e (ofByte label)) - 1) else some da3
  some (da4, e)

/-- Modelled from the spec: release of slot `e` to the empty ring of its block.
`num` is incremented, the slot is linked after `ehead` (its `Value` is the negated
previous and its `Check` the negated next empty slot) or becomes the `ehead` of a
block that was full, the class of the block is updated, the cached `reject` bound
of the block is reset and the labels of the slot are cleared. -/
def pushEnode (da : Cedar) (e : Int) : Option Cedar :=
  (da.block (e / 256)).bind fun b =>
    (if b.Num + 1 = 1 then
        (da.setBlock (e / 256) { b with Num := b.Num + 1, Ehead := e }).bind fun d1 =>
          (d1.setNode e { Value := -e, Check := -e }).bind fun d2 =>
            if e / 256 ≠ 0 then transferBlock d2 (e / 256) Cls.F Cls.C else some d2
      else
        (da.node b.Ehead).bind fun np =>
          (da.setNode e { Value := -b.Ehead, Check := - -np.Check }).bind fun d1 =>
            (d1.setCheck b.Ehead (-e)).bind fun d2 =>
              (d2.setValue (-np.Check) (-e)).bind fun d3 =>
                (d3.setBlock (e / 256) { b with Num := b.Num + 1 }).bind fun d4 =>
                  (if (b.Num + 1 = 2 ∨ b.Trial = da.MaxTrial) ∧ e / 256 ≠ 0 then
                      transferBlock d4 (e / 256) Cls.C Cls.O
                    else some d4).bind fun d5 =>
                    (d5.block (e / 256)).bind fun b2 =>
                      d5.setBlock (e / 256) { b2 with Trial := 0 }).bind fun da2 =>
      (da2.block (e / 256)).bind fun b3 =>
        (da2.setBlock (e / 256) { b3 with Reject := 257 }).bind fun da3 =>
          da3.setNinfo e { Sibling := 0, Child := 0 }

/-! ## Child rings -/

/-- The walk of `pushSibling` along the ring while the labels are smaller than
`label` (only when the trie is ordered). -/
def pushSiblingWalk (da : Cedar) (base : Int) (label : Byte) : Nat → Loc → Option Loc
  | 0, _ => none
  | fuel + 1, l =>
    match da.readLoc l with
    | none => none
    | some c =>
      if da.Ordered ∧ c ≠ 0 ∧ c < label then
        pushSiblingWalk da base label fuel (Loc.sibling (Int.xor base (ofByte c)))
      else some l

/-- Modelled from the spec: insertion of `label` into the child ring of `from`, whose
children live at `base XOR ℓ`.  The ring is kept in ascending label order; a label
that is not greater than the first one becomes the new first child. -/
def pushSibling (da : Cedar) (from_ base : Int) (label : Byte) (hasChild : Bool) :
    Option Cedar := do
  let c0 ← da.readLoc (Loc.child from_)
  let keepOrder : Bool := if da.Ordered then decide (label > c0) else decide (c0 = 0)
  let l ←
    if hasChild ∧ keepOrder then
      pushSiblingWalk da base label 257 (Loc.sibling (Int.xor base (ofByte c0)))
    else some (Loc.child from_)
  let c ← da.readLoc l
  let da1 ← da.setSibling (Int.xor base (ofByte label)) c
  da1.writeLoc l label

/-- The walk of `popSibling` to the place that holds `label`.  A ring has at most 256
labels: a walk that has not met `label` within 257 steps never meets it, and the
result is `none`. -/
def popSiblingWalk (da : Cedar) (base : Int) (label : Byte) : Nat → Loc → Option Loc
  | 0, _ => none
  | fuel + 1, l =>
    match da.readLoc l with
    | none => none
    | some c =>
      if c ≠ label then popSiblingWalk da base label fuel (Loc.sibling (Int.xor base (ofByte c)))
      else some l

/-- Modelled from the spec: removal of `label` from the child ring of `from`, the
inverse of `pushSibling`.  The place that holds `label` takes the sibling of the
removed child. -/
def popSibling (da : Cedar) (from_ base : Int) (label : Byte) : Option Cedar := do
  let l ← popSiblingWalk da base label 257 (Loc.child from_)
  let c ← da.readLoc l
  let x ← da.ninfo (Int.xor base (ofByte c))
  da.writeLoc l x.Sibling

/-- The labels of a ring from label `c` on, as long as `p` holds. -/
def ringWhile (da : Cedar) (base : Int) (p : Byte → Bool) :
    Nat → Byte → List Byte → Option (Byte × List Byte)
  | 0, _, _ => none
  | fuel + 1, c, acc =>
    if c ≠ 0 ∧ p c then
      match da.ninfo (Int.xor base (ofByte c)) with
      | none => none
      | some x => ringWhile da base p fuel x.Sibling (acc ++ [c])
    else some (c, acc)

/-- Modelled from the spec: collect the labels of the child ring of a parent with
first label `c` and base `base`, in ring order, with the new `label` added at its
place when `flag` is set. -/
def setChild (da : Cedar) (base : Int) (c : Byte) (label : Byte) (flag : Bool) :
    Option (List Byte) := do
  let (c1, acc1) ←
    if c = 0 then (da.ninfo (Int.xor base (ofByte c))).map fun x => (x.Sibling, [c])
    else some (c, [])
  let (c2, acc2) ←
    if da.Ordered then ringWhile da base (fun x => decide (x ≤ label)) 257 c1 acc1
    else some (c1, acc1)
  let acc3 := if flag then acc2 ++ [label] else acc2
  let (_, acc4) ← ringWhile da base (fun _ => true) 257 c2 acc3
  some acc4

/-- The loop that re-parents the grandchildren: from label `c` on, every child of
the moved node (its children live at `base XOR ℓ`) gets the check `to`. -/
def fixChecks (base to_ : Int) : Nat → Cedar → Byte → Option Cedar
  | 0, _, _ => none
  | fuel + 1, da, c =>
    if c ≠ 0 then
      match da.setCheck (Int.xor base (ofByte c)) to_ with
      | none => none
      | some da1 =>
        match da1.ninfo (Int.xor base (ofByte c)) with
        | none => none
        | some x => fixChecks base to_ fuel da1 x.Sibling
    else some da

/-- The migration loop of the relocator over the labels of the new ring: reserve
the new slot, set its sibling, and for an existing child copy its value or base and
its first child label, re-parent its children and release the old slot.  The slot
of the new label `to_pn` has nothing to copy. -/
def resolveLoop (base base_ to_pn from_ : Int) : Cedar → List Byte → Option Cedar
  | da, [] => some da
  | da, c :: rest => do
    let (da1, to_) ← popEnode da base c from_
    let old := Int.xor base_ (ofByte c)
    let da2 ← da1.setSibling to_ (match rest with
      | [] => 0
      | c' :: _ => c')
    if old = to_pn then resolveLoop base base_ to_pn from_ da2 rest
    else do
      let n_ ← da2.node old
      let da3 ← da2.setValue to_ n_.Value
      let da4 ←
        if n_.Value < 0 ∧ c ≠ 0 then do
          let xi ← da3.ninfo old
          let d1 ← da3.setChildOf to_ xi.Child
          let s0 := Int.xor n_.base (ofByte xi.Child)
          let d2 ← d1.setCheck s0 to_
          let x ← d2.ninfo s0
          fixChecks n_.base to_ 257 d2 x.Sibling
        else some da3
      let da5 ← pushEnode da4 old
      resolveLoop base base_ to_pn from_ da5 rest

/-- Modelled from the spec: the relocator.  The target slot `base_n XOR label_n` of
the new label under parent `from_n` is occupied by an unrelated subtree: collect the
labels of `from_n` with the new label, find a place for all of them, give `from_n`
the new base and migrate the existing children.  The result is the slot of the new
label. -/
def resolve (da : Cedar) (from_n base_n : Int) (label_n : Byte) : Option (Cedar × Int) := do
  let to_pn := Int.xor base_n (ofByte label_n)
  let xn ← da.ninfo from_n
  let children ← setChild da base_n xn.Child label_n true
  match children with
  | [] => none
  | c0 :: _ =>
    let (da1, e) ← if children.length = 1 then findPlace da else findPlaces da children
    let base := Int.xor e (ofByte c0)
    let da2 ← if c0 = label_n then da1.setChildOf from_n label_n else some da1
    let da3 ← da2.setValue from_n (-base - 1)
    let da4 ← resolveLoop base base_n to_pn from_n da3 children
    some (da4, Int.xor base (ofByte label_n))

/-- Modelled from the spec: one step of path construction, the child of `from` with
the given label.  An uninhabited target slot (or a parent without a base) is
reserved and the label linked into the child ring; a target slot occupied by an
unrelated subtree calls the relocator; an existing child is returned as it is. -/
def follow (da : Cedar) (from_ : Int) (label : Byte) : Option (Cedar × Int) := do
  let nf ← da.node from_
  let base := nf.base
  let to_ := Int.xor base (ofByte label)
  let vacant ← if base < 0 then some true else (da.node to_).map fun n => decide (n.Check < 0)
  if vacant then do
    let hasChild ←
      if base ≥ 0 then do
        let x ← da.ninfo from_
        let n ← da.node (Int.xor base (ofByte x.Child))
        some (decide (n.Check = from_))
      else some false
    let (da1, t) ← popEnode da base label from_
    let da2 ← pushSibling da1 from_ (Int.xor t (ofByte label)) label hasChild
    some (da2, t)
  else do
    let nt ← da.node to_
    if nt.Check ≠ from_ then resolve da from_ base label else some (da, to_)

/-- Modelled from the spec: the path-constructing lookup `get(key, from)`.  Walk the
key byte by byte; a node on the way that carries its value in place first moves it
to a value slot (child labelled 0).  At the end an internal node is followed to its
value slot.  The result is the slot whose `Value` field belongs to the key. -/
def get (da : Cedar) : List Byte → Int → Option (Cedar × Int)
  | [], from_ =>
    match da.node from_ with
    | none => none
    | some nf => if nf.Value < 0 then follow da from_ 0 else some (da, from_)
  | b :: rest, from_ =>
    match da.node from_ with
    | none => none
    | some nf =>
      match (if nf.Value ≥ 0 ∧ nf.Value ≠ ValueLimit then
               (follow da from_ 0).bind fun r => r.1.setValue r.2 nf.Value
             else some da) with
      | none => none
      | some da1 =>
        match follow da1 from_ b with
        | none => none
        | some (da2, t) => get da2 rest t

/-! ## The mutating operations of `api.go` -/

/-- `Insert` of `api.go`: reject a value outside `[0, ValueLimit)`, otherwise write
the value through the pointer that `get` returns. -/
def Insert (da : Cedar) (key : List Byte) (value : Int) : Option (Cedar × Option Err) :=
  if value < 0 ∨ value ≥ ValueLimit then some (da, some Err.ErrInvalidValue)
  else
    match get da key 0 with
    | none => none
    | some (da1, p) => (da1.setValue p value).map fun d => (d, none)

/-- Addition of two Go `int`s: the sum modulo `2 ^ 64`, read as a signed number. -/
def wrapAdd (x y : Int) : Int := (x + y + 2 ^ 63) % 2 ^ 64 - 2 ^ 63

/-- `Update` of `api.go`.  The lookup `get` runs first; a slot that holds
`ValueLimit` takes `value` as it is, any other slot is increased by `value` when the
sum stays inside `[0, ValueLimit)`. -/
def Update (da : Cedar) (key : List Byte) (value : Int) : Option (Cedar × Option Err) :=
  match get da key 0 with
  | none => none
  | some (da1, p) =>
    match da1.node p with
    | none => none
    | some n =>
      if n.Value = ValueLimit then (da1.setValue p value).map fun d => (d, none)
      else if wrapAdd n.Value value < 0 ∨ wrapAdd n.Value value ≥ ValueLimit then
        some (da1, some Err.ErrInvalidValue)
      else (da1.setValue p (wrapAdd n.Value value)).map fun d => (d, none)

/-- The upward loop of `Delete` (`for to > 0`); `fuel` bounds the number of
iterations. -/
def deleteLoop : Nat → Cedar → Int → Option Cedar
  | 0, da, to_ => if to_ > 0 then none else some da
  | fuel + 1, da, to_ =>
    if to_ > 0 then
      match da.node to_ with
      | none => none
      | some nt =>
        let from_ := nt.Check
        match da.node from_ with
        | none => none
        | some nf =>
          let base := nf.base
          let label := toByte (Int.xor to_ base)
          match da.ninfo to_ with
          | none => none
          | some xt =>
            match (if xt.Sibling ≠ 0 then some true
                   else (da.ninfo from_).map fun xf => decide (xf.Child ≠ label)) with
            | none => none
            | some true => (popSibling da from_ base label).bind fun da1 => pushEnode da1 to_
            | some false =>
              match pushEnode da to_ with
              | none => none
              | some da1 =>
                match (if from_ = 0 then da1.setChildOf from_ 0 else some da1) with
                | none => none
                | some da2 => deleteLoop fuel da2 from_
    else some da

/-- `Delete` of `api.go`.  The result is `none` when the loop has not finished
within `fuel` iterations or an index is out of range. -/
def Delete (fuel : Nat) (da : Cedar) (key : List Byte) : Option (Cedar × Option Err) :=
  match Jump da key 0 with
  | none => none
  | some (_, some _) => some (da, some Err.ErrNoPath)
  | some (to_, none) =>
    match da.node to_ with
    | none => none
    | some nt =>
      match (if nt.Value < 0 then
               (da.node nt.base).map fun nb => if nb.Check = to_ then nt.base else to_
             else some to_) with
      | none => none
      | some to1 => (deleteLoop fuel da to1).map fun d => (d, none)

/-! ## Well-formed states -/

/-- The labels of a child ring from label `c` on, up to the end marker 0; the
children live at `base XOR ℓ`. -/
def ringFrom (da : Cedar) (base : Int) : Nat → Byte → Option (List Byte)
  | 0, c => if c = 0 then some [] else none
  | fuel + 1, c =>
    if c = 0 then some []
    else
      match da.ninfo (Int.xor base (ofByte c)) with
      | none => none
      | some x => (ringFrom da base fuel x.Sibling).map fun l => c :: l

/-- The child ring of the parent `p`: its first label `Child`, then the `Sibling`
of each child in turn.  A first label 0 is a child only when the value slot
`base XOR 0` belongs to `p`. -/
def ring (da : Cedar) (p : Int) : Option (List Byte) :=
  match da.node p, da.ninfo p with
  | some np, some xp =>
    if xp.Child = 0 then
      match da.node np.base with
      | none => some []
      | some nb =>
        if nb.Check = p then
          (da.ninfo np.base).bind fun x =>
            (ringFrom da np.base 256 x.Sibling).map fun l => 0 :: l
        else some []
    else ringFrom da np.base 256 xp.Child
  | _, _ => none

/-- Invariants 1 and 2 of the data model at slot `s`: an occupied slot has a
parent that is an internal node, its label is a byte, and the label is in the
child ring of the parent. -/
def childOkAt (da : Cedar) (s : Int) (ns : Node) : Bool :=
  if ns.Check < 0 then true
  else
    match da.node ns.Check with
    | none => false
    | some np =>
      decide (np.Value < 0) && decide (0 ≤ Int.xor s np.base) &&
        decide (Int.xor s np.base < 256) &&
        (match ring da ns.Check with
          | some l => decide (toByte (Int.xor s np.base) ∈ l)
          | none => false)

/-- Invariants 1 and 2 of the data model at slot `s`, if there is such a slot. -/
def childOk (da : Cedar) (s : Int) : Bool :=
  match da.node s with
  | none => true
  | some ns => childOkAt da s ns

/-- Invariant 4 of the data model at the head `h` of an empty ring: `h` is an
empty slot other than the root, and its next link is an empty slot. -/
def ringHeadOk (da : Cedar) (h : Int) : Bool :=
  match da.node h with
  | none => false
  | some nh =>
    decide (0 < h) && decide (nh.Check < 0) &&
      (match da.node (-nh.Check) with
        | none => false
        | some nn => decide (nn.Check < 0))

/-! ## State predicates and sample states -/

/-- Invariant 6 of the data model, as far as `Key` needs it: the root slot is not
the child of any slot (its check is negative). -/
def RootIsNoChild (da : Cedar) : Prop := ∀ n ∈ da.node 0, n.Check < 0

/-- Invariant 2 of the data model at the parent `p`, the other way round: every
label of the child ring of an occupied internal node (or of the root) is the label
of a child. -/
def ringOkAt (da : Cedar) (p : Int) (np : Node) : Bool :=
  if np.Value < 0 ∧ (np.Check ≥ 0 ∨ p = 0) then
    match ring da p with
    | none => false
    | some l =>
      l.all fun c =>
        match da.node (Int.xor np.base (ofByte c)) with
        | none => false
        | some nc => decide (nc.Check = p)
  else true

/-- Invariant 2 of the data model at the parent `p`, the other way round, if there is
such a slot. -/
def ringOk (da : Cedar) (p : Int) : Bool :=
  match da.node p with
  | none => true
  | some np => ringOkAt da p np

/-- The check `f s n` of every slot `n` of the list `l`, whose first slot has the
index `i`: one pass over the slots. -/
def allFrom (f : Int → Node → Bool) : Nat → List Node → Bool
  | _, [] => true
  | i, n :: rest => f (i : Int) n && allFrom f (i + 1) rest

/-- Invariant 5 of the data model, as far as the class lists are walked: the links
of every block and the three class heads are block ids. -/
def linksOk (da : Cedar) : Bool :=
  (da.Blocks.all fun b =>
    decide (0 ≤ b.Prev) && decide (b.Prev < da.Blocks.length) &&
      decide (0 ≤ b.Next) && decide (b.Next < da.Blocks.length)) &&
    decide (0 ≤ da.BheadF) && decide (da.BheadF < da.Blocks.length) &&
    decide (0 ≤ da.BheadC) && decide (da.BheadC < da.Blocks.length) &&
    decide (0 ≤ da.BheadO) && decide (da.BheadO < da.Blocks.length)

/-- The number `i` is a block id of a table of `n` blocks. -/
def InRange (n : Nat) (i : Int) : Prop := 0 ≤ i ∧ i < n

/-- The links of every block and the three class heads are block ids. -/
def LinksP (da : Cedar) : Prop :=
  (∀ b ∈ da.Blocks, InRange da.Blocks.length b.Prev ∧ InRange da.Blocks.length b.Next) ∧
    InRange da.Blocks.length da.BheadF ∧ InRange da.Blocks.length da.BheadC ∧
    InRange da.Blocks.length da.BheadO

/-- The three arrays have matching sizes: one `Ninfo` per slot and one block per
256 slots. -/
def SizesOk (da : Cedar) : Prop :=
  da.Ninfos.length = da.Array.length ∧ da.Array.length ≤ 256 * da.Blocks.length

/-- The block table of `da'` has the `Num` and `Ehead` fields of the one of `da`. -/
def CoreLe (da da' : Cedar) : Prop :=
  ∀ j b', da'.block j = some b' → ∃ b0, da.block j = some b0 ∧ b0.Num = b'.Num ∧
    b0.Ehead = b'.Ehead

/-- The state `da'` has the slot arrays of `da` and a block table with the same
`Num` and `Ehead` fields. -/
def SameSlots (da da' : Cedar) : Prop :=
  da'.Array = da.Array ∧ da'.Ninfos = da.Ninfos ∧ CoreLe da da'

/-- The `ehead` of every block with empty slots heads an empty ring. -/
def HeadsOk (da : Cedar) : Prop :=
  ∀ b ∈ da.Blocks, b.Num ≠ 0 → ringHeadOk da b.Ehead = true

/-- The effect on the slot array of the release of the slot `e`: `e` becomes
empty, every other occupied slot and the root are kept as they are, and an empty
slot stays empty. -/
structure Step (cur cur' : Cedar) (e : Int) : Prop where
  len : cur'.Array.length = cur.Array.length
  gone : ∃ n', cur'.node e = some n' ∧ n'.Check < 0
  keep : ∀ s n, s ≠ e → cur.node s = some n → (n.Check ≥ 0 ∨ s = 0) → cur'.node s = some n
  neg : ∀ s n, cur.node s = some n → n.Check < 0 → s ≠ 0 →
    ∃ n', cur'.node s = some n' ∧ n'.Check < 0 ∧ (n'.Check = n.Check ∨ n'.Check = -e)

/-- The slots that the loop of `Delete` releases when it starts at the slot `t`,
judged on the state before the call: `t` itself, and the parent of a released slot
that has no sibling and is the first label of its parent, as long as the parent is
not the root. -/
inductive Rel (da : Cedar) (t : Int) : Int → Prop
  | first : Rel da t t
  | up (s : Int) (ns nf : Node) (xt xf : Ninfo) :
      Rel da t s → 0 < s → da.node s = some ns → da.node ns.Check = some nf →
      da.ninfo s = some xt → da.ninfo ns.Check = some xf → xt.Sibling = 0 →
      xf.Child = toByte (Int.xor s nf.base) → 0 < ns.Check → Rel da t ns.Check

/-- The chain of parents from the slot `to` up to the root. -/
def ChainUp (da : Cedar) : Int → List Int → Prop
  | to_, [] => to_ = 0
  | to_, p :: rest => 0 < to_ ∧ (∃ nt, da.node to_ = some nt ∧ nt.Check = p) ∧ ChainUp da p rest

/-- The state `cur` inside the loop of `Delete` on the state `da`, after the
release of the slots `done`. -/
structure LoopInv (da cur : Cedar) (done : List Int) : Prop where
  len : cur.Array.length = da.Array.length
  keep : ∀ s n, s ∉ done → da.node s = some n → (n.Check ≥ 0 ∨ s = 0) → cur.node s = some n
  gone : ∀ s ∈ done, ∃ n, cur.node s = some n ∧ n.Check < 0
  neg : ∀ s n, da.node s = some n → n.Check < 0 → s ≠ 0 →
    ∃ n', cur.node s = some n' ∧ n'.Check < 0
  pos : ∀ s ∈ done, 0 < s
  heads : HeadsOk cur

/-- The slot array `da'` after `Delete` on the state `da`, started at the slot `t`:
an occupied slot is kept as it is unless the loop released it, and an empty slot
stays empty. -/
structure Final (da da' : Cedar) (t : Int) : Prop where
  len : da'.Array.length = da.Array.length
  keep : ∀ s n, da.node s = some n → (n.Check ≥ 0 ∨ s = 0) →
    da'.node s = some n ∨ (Rel da t s ∧ 0 < s ∧ ∃ n', da'.node s = some n' ∧ n'.Check < 0)
  neg : ∀ s n, da.node s = some n → n.Check < 0 → s ≠ 0 →
    ∃ n', da'.node s = some n' ∧ n'.Check < 0

/-- The slot `t` at which the loop of `Delete` starts for a key whose node is `to`
(with slot record `nt`): the node itself when it holds the value in place, its
value slot `base XOR 0` when the node is internal. -/
def DeleteStart (da : Cedar) (to_ : Int) (nt : Node) (t : Int) : Prop :=
  (t = to_ ∧ nt.Value ≥ 0) ∨
    (t = nt.base ∧ nt.Value < 0 ∧ ∃ nb, da.node nt.base = some nb ∧ nb.Check = to_)

/-- The invariants of the data model that `Delete` relies on: the root is no
child (6), the `ehead` of every block with empty slots heads an empty ring (4),
every occupied slot is in the child ring of its parent (1, 2), the child rings hold
children only (2), the links of the class lists are block ids (5) and the arrays
have matching sizes. -/
structure WellFormed (da : Cedar) : Prop where
  root : RootIsNoChild da
  heads : HeadsOk da
  children : ∀ s : Nat, s < da.Array.length → childOk da (s : Int) = true
  rings : ∀ p : Nat, p < da.Array.length → ringOk da (p : Int) = true
  links : linksOk da = true
  sizes : SizesOk da

/-- The state after `Insert("abc", 1)` on a fresh trie. -/
def sampleABC : Cedar := ((Insert New [97, 98, 99] 1).map fun r => r.1).getD New

/-- The state after `Insert("a", 3)` on a fresh trie. -/
def sampleA : Cedar := ((Insert New [97] 3).map fun r => r.1).getD New

/-- The state after `Insert("abc", 1)`, `Delete("ab")`, `Insert("pq", 1)` and
`Insert("sta", 1)` on a fresh trie. -/
def sampleOrphan : Cedar :=
  ((((Delete 3 sampleABC [97, 98]).bind fun r => Insert r.1 [112, 113] 1).bind
    fun r => Insert r.1 [115, 116, 97] 1).map fun r => r.1).getD New

/-- The state after `Insert("ab", 1)` on a fresh trie. -/
def sampleAB : Cedar := ((Insert New [97, 98] 1).map fun r => r.1).getD New

/-- The state after `Insert("ab", 1)` and `Insert("abc", 2)` on a fresh trie. -/
def samplePrefix : Cedar := ((Insert sampleAB [97, 98, 99] 2).map fun r => r.1).getD New


/-! ## The read-only operations of `api.go` -/

/-- The statement `num--` on a Go `int`. -/
def decr (num : Int) : Int := wrapAdd num (-1)

/-- The loop of `PrefixMatch`: one `Jump` of a single byte per iteration, from the
node reached so far; `ids` are the matches appended so far. -/
def prefixMatchLoop (da : Cedar) : List Byte → Int → Int → List Int → Option (List Int)
  | [], _, _, ids => some ids
  | b :: rest, from_, num, ids =>
    match Jump da [b] from_ with
    | none => none
    | some (_, some _) => some ids
    | some (to_, none) =>
      match Value da to_ with
      | none => none
      | some (_, none) =>
        if decr num = 0 then some (ids ++ [to_])
        else prefixMatchLoop da rest to_ (decr num) (ids ++ [to_])
      | some (_, some _) => prefixMatchLoop da rest to_ num ids

/-- `PrefixMatch` of `api.go`. -/
def PrefixMatch (da : Cedar) (key : List Byte) (num : Int) : Option (List Int) :=
  prefixMatchLoop da key 0 num []

/-- The downward loop of `begin` (`for c != 0`): `from` moves to its first child as
long as the child label `c` of `from` is not 0; `fuel` bounds the number of
iterations. -/
def beginLoop (da : Cedar) : Nat → Int → Byte → Option Int
  | 0, from_, c => if c ≠ 0 then none else some from_
  | fuel + 1, from_, c =>
    if c ≠ 0 then
      match da.node from_ with
      | none => none
      | some nf =>
        let to_ := Int.xor nf.base (ofByte c)
        match da.ninfo to_ with
        | none => none
        | some xt => beginLoop da fuel to_ xt.Child
    else some from_

/-- The function `begin` of `api.go`; its error result is always `nil` and is left
out. -/
def begin (da : Cedar) (fuel : Nat) (from_ : Int) : Option Int :=
  match da.ninfo from_ with
  | none => none
  | some xf =>
    match beginLoop da fuel from_ xf.Child with
    | none => none
    | some f =>
      match da.node f with
      | none => none
      | some nf => if nf.base > 0 then some nf.base else some f

/-- The upward loop of `next` (`for c == 0 && from != root && check >= 0`); the
result is the node `from` at which the loop stops and its sibling label `c`. -/
def nextLoop (da : Cedar) (root : Int) : Nat → Int → Byte → Option (Int × Byte)
  | 0, from_, c =>
    if c = 0 ∧ from_ ≠ root then
      match da.node from_ with
      | none => none
      | some nf => if nf.Check ≥ 0 then none else some (from_, c)
    else some (from_, c)
  | fuel + 1, from_, c =>
    if c = 0 ∧ from_ ≠ root then
      match da.node from_ with
      | none => none
      | some nf =>
        if nf.Check ≥ 0 then
          match da.ninfo nf.Check with
          | none => none
          | some xp => nextLoop da root fuel nf.Check xp.Sibling
        else some (from_, c)
    else some (from_, c)

/-- The function `next` of `api.go`: the node after `from` in the subtree of `root`,
or `ErrNoPath` at the end of the iteration. -/
def next (da : Cedar) (fuel : Nat) (from_ root from0 : Int) : Option (Int × Option Err) :=
  match da.ninfo from_ with
  | none => none
  | some xf =>
    match nextLoop da root fuel from_ xf.Sibling with
    | none => none
    | some (f, c) =>
      if f = root then some (0, some Err.ErrNoPath)
      else
        match da.node f with
        | none => none
        | some nf =>
          if nf.Check < 0 then some (0, some Err.ErrNoPath)
          else
            match da.node nf.Check with
            | none => none
            | some np =>
              let f1 := Int.xor np.base (ofByte c)
              if f1 = from0 then some (0, some Err.ErrNoPath)
              else (begin da fuel f1).map fun t => (t, none)

/-- The loop of `PrefixPredict`: `from` is appended, then `next` gives the node of
the following iteration.  `fuel` bounds the number of iterations of this loop,
`inner` those of each loop of `next` and `begin`. -/
def prefixPredictLoop (da : Cedar) (root from0 : Int) (inner : Nat) :
    Nat → Int → Int → List Int → Option (List Int)
  | 0, _, _, _ => none
  | fuel + 1, from_, num, ids =>
    if decr num = 0 then some (ids ++ [from_])
    else
      match next da inner from_ root from0 with
      | none => none
      | some (_, some _) => some (ids ++ [from_])
      | some (f, none) =>
        prefixPredictLoop da root from0 inner fuel f (decr num) (ids ++ [from_])

/-- `PrefixPredict` of `api.go`.  The result is `none` when a loop has not finished
within `fuel` iterations or an index is out of range. -/
def PrefixPredict (da : Cedar) (fuel : Nat) (key : List Byte) (num : Int) :
    Option (List Int) :=
  match Jump da key 0 with
  | none => none
  | some (_, some _) => some []
  | some (root, none) =>
    match begin da fuel root with
    | none => none
    | some from0 => prefixPredictLoop da root from0 fuel fuel from0 num []

/-- The loop of `Status` over the slots `i < Size`, with the counts so far. -/
def statusLoop (da : Cedar) : Nat → Int → Int → Int → Option (Int × Int)
  | 0, _, keys, nodes => some (keys, nodes)
  | k + 1, i, keys, nodes =>
    match da.node i with
    | none => none
    | some n =>
      if n.Check ≥ 0 then
        statusLoop da k (i + 1) (if n.Value ≥ 0 then keys + 1 else keys) (nodes + 1)
      else statusLoop da k (i + 1) keys nodes

/-- `Status` of `api.go`: the numbers of keys and of occupied slots, the size and the
capacity. -/
def Status (da : Cedar) : Option (Int × Int × Int × Int) :=
  (statusLoop da da.Size.toNat 0 0 0).map fun r => (r.1, r.2, da.Size, da.Capacity)

/-- The state after the calls `Insert(k, v)` for the pairs `(k, v)` of `kvs`, in
order; `none` when a call fails or does not return. -/
def insertAll : Cedar → List (List Byte × Int) → Option Cedar
  | da, [] => some da
  | da, (k, v) :: rest =>
    match Insert da k v with
    | some (da1, none) => insertAll da1 rest
    | _ => none

/-- The state after the calls `Delete(k)` for the keys `k` of `ks`, in order, whatever
error they return; `none` when a call does not return. -/
def deleteAll (fuel : Nat) : Cedar → List (List Byte) → Option Cedar
  | da, [] => some da
  | da, k :: rest =>
    match Delete fuel da k with
    | some (da1, _) => deleteAll fuel da1 rest
    | none => none

/-- Addition of two Go `int`s of width `w`: the sum modulo `2 ^ w`, read as a signed
number.  `wrapAdd` is the case `w = 64`. -/
def wrapAddW (w : Nat) (x y : Int) : Int := (x + y + 2 ^ (w - 1)) % 2 ^ w - 2 ^ (w - 1)

/-- The maximum signed `int` of width `w`, the value of `ValueLimit` on a platform
with `w`-bit `int`s. -/
def maxInt (w : Nat) : Int := 2 ^ (w - 1) - 1

/-- The loop of `PrefixMatch` without its counter `num`: the ids it appends when it
is not stopped by the limit. -/
def matchWalk (da : Cedar) : List Byte → Int → Option (List Int)
  | [], _ => some []
  | b :: rest, from_ =>
    match Jump da [b] from_ with
    | none => none
    | some (_, some _) => some []
    | some (to_, none) =>
      match Value da to_ with
      | none => none
      | some (_, none) => (matchWalk da rest to_).map fun l => to_ :: l
      | some (_, some _) => matchWalk da rest to_

/-- The match of the prefix `q[0:i]`, in the words of the description of
`PrefixMatch`: the id `Jump(q[0:i], 0)` when the jump succeeds and `Value` of the
reached id succeeds, and no id otherwise (`none` is a run-time panic). -/
def matchAt (da : Cedar) (q : List Byte) (i : Nat) : Option (Option Int) :=
  match Jump da (q.take i) 0 with
  | none => none
  | some (_, some _) => some none
  | some (id, none) =>
    match Value da id with
    | none => none
    | some (_, none) => some (some id)
    | some (_, some _) => some none

/-- The matches of the prefixes `q[0:i]` for the lengths `i` of a list, in the order
of the list. -/
def matchesOf (da : Cedar) (q : List Byte) : List Nat → Option (List Int)
  | [] => some []
  | i :: rest =>
    match matchAt da q i with
    | none => none
    | some none => matchesOf da q rest
    | some (some id) => (matchesOf da q rest).map fun l => id :: l

/-- The result of `PrefixMatch(q, 0)` as its description states it: the matches of
the prefixes `q[0:i]` in increasing `i`, for `i` in `1..len(q)`. -/
def prefixMatchSpec (da : Cedar) (q : List Byte) : Option (List Int) :=
  matchesOf da q (List.range' 1 q.length)

/-- Every slot that `Jump` and `Value` read is a slot of the array: the root is, and
so is every slot `base XOR b` of a slot that holds a base. -/
def Closed (da : Cedar) : Prop :=
  (∃ n0, da.node 0 = some n0) ∧
    ∀ (s : Int) (n : Node), da.node s = some n → n.Value < 0 →
      ∀ b : Byte, ∃ n', da.node (Int.xor n.base (ofByte b)) = some n'

/-- The base that the slot `n` holds is below `len`, the length of the array. -/
def alignedAt (len : Int) (_ : Int) (n : Node) : Bool :=
  decide (n.Value < 0 → n.base < len)

/-- The state after `Insert("", 5)` on a fresh trie. -/
def sampleEmptyKey : Cedar := ((Insert New [] 5).map fun r => r.1).getD New

/-- A state of two slots whose root is its own child under the label 1 (its check is
0, its base is 1) and keeps the value 5 of the empty key in its value slot 1. -/
def sampleRootLoop : Cedar :=
  { Array := [{ Value := -2, Check := 0 }, { Value := 5, Check := 0 }]
    Ninfos := [{ Sibling := 0, Child := 0 }, { Sibling := 0, Child := 0 }]
    Blocks := [{ Prev := 0, Next := 0, Num := 0, Reject := 257, Trial := 0, Ehead := 0 }]
    BheadF := 0
    BheadC := 0
    BheadO := 0
    Capacity := 2
    Size := 2
    Ordered := true
    MaxTrial := 1 }

/-- The state after `Insert("a", 3)` and `Delete("a")` on a fresh trie. -/
def sampleDeleted : Cedar := ((Delete 2 sampleA [97]).map fun r => r.1).getD New

/-- The counts of `Status` over a list of slots, in one pass. -/
def countSlots : List Node → Int → Int → Int × Int
  | [], keys, nodes => (keys, nodes)
  | n :: rest, keys, nodes =>
    if n.Check ≥ 0 then countSlots rest (if n.Value ≥ 0 then keys + 1 else keys) (nodes + 1)
    else countSlots rest keys nodes

/-- The state after `Insert("a", 7)` and `Insert("a\x00b", 8)` on a fresh trie. -/
def sampleAlias : Cedar := (insertAll New [([97], 7), ([97, 0, 98], 8)]).getD New

/-- The state after `Delete("a")` and `Delete("a\x00b")` on `sampleAlias`. -/
def sampleAliasDeleted : Cedar := (deleteAll 5 sampleAlias [[97], [97, 0, 98]]).getD New
/-! ## Theorems -/

set_option maxRecDepth 200000

/-! ### Paths: `Jump` and `Key` -/

theorem idx_nonneg {α : Type} {xs : List α} {i : Int} {x : α} (h : idx xs i = some x) :
    0 ≤ i := by
  unfold idx at h
  by_cases hi : i < 0
  · simp [hi] at h
  · omega

theorem xor_ofNat (m n : Nat) : Int.xor (m : Int) (n : Int) = ((m ^^^ n : Nat) : Int) := rfl

theorem toByte_ofByte (b : Byte) : toByte (ofByte b) = b := by
  apply Fin.ext
  simp only [toByte, ofByte]
  have := b.isLt
  omega

/-- The label of a child is recovered from the base of its parent and its slot. -/
theorem toByte_xor_child (base : Int) (hb : 0 ≤ base) (b : Byte) :
    toByte (Int.xor base (Int.xor base (ofByte b))) = b := by
  obtain ⟨n, rfl⟩ := Int.eq_ofNat_of_zero_le hb
  have : Int.xor (n : Int) (Int.xor (n : Int) (ofByte b)) = ofByte b := by
    simp only [ofByte, xor_ofNat, Nat.xor_cancel_left]
  rw [this, toByte_ofByte]

/-- One step of `jumpLoop`, read from a successful result. -/
theorem jumpLoop_cons_ok {da : Cedar} {b : Byte} {rest : List Byte} {f t0 id : Int}
    (h : jumpLoop da (b :: rest) f t0 = some (id, none)) :
    ∃ nf nt, da.node f = some nf ∧ nf.Value < 0 ∧
      da.node (Int.xor nf.base (ofByte b)) = some nt ∧ nt.Check = f ∧
      jumpLoop da rest (Int.xor nf.base (ofByte b)) (Int.xor nf.base (ofByte b)) =
        some (id, none) := by
  simp only [jumpLoop] at h
  cases hf : da.node f with
  | none => simp [hf] at h
  | some nf =>
    simp only [hf] at h
    by_cases hv : nf.Value ≥ 0
    · simp [hv] at h
    · simp only [hv, if_false] at h
      cases ht : da.node (Int.xor nf.base (ofByte b)) with
      | none => simp [ht] at h
      | some nt =>
        simp only [ht] at h
        by_cases hc : nt.Check ≠ f
        · simp [hc] at h
        · simp only [hc, if_false] at h
          exact ⟨nf, nt, rfl, by omega, ht, by simpa using hc, h⟩

/-- A successful `jumpLoop` along `init ++ [b]` is a successful one along `init`
followed by one step. -/
theorem jumpLoop_snoc_ok {da : Cedar} {b : Byte} :
    ∀ (init : List Byte) {f id : Int},
      jumpLoop da (init ++ [b]) f f = some (id, none) →
      ∃ p nf nt, jumpLoop da init f f = some (p, none) ∧ da.node p = some nf ∧
        nf.Value < 0 ∧ id = Int.xor nf.base (ofByte b) ∧ da.node id = some nt ∧
        nt.Check = p
  | [], f, id, h => by
    obtain ⟨nf, nt, hf, hv, ht, hc, hr⟩ := jumpLoop_cons_ok h
    simp only [jumpLoop, Option.some.injEq, Prod.mk.injEq, and_true] at hr
    exact ⟨f, nf, nt, rfl, hf, hv, hr.symm, hr ▸ ht, hc⟩
  | c :: init, f, id, h => by
    obtain ⟨nf, nt, hf, hv, ht, hc, hr⟩ := jumpLoop_cons_ok h
    obtain ⟨p, nf', nt', h1, h2, h3, h4, h5, h6⟩ := jumpLoop_snoc_ok init hr
    refine ⟨p, nf', nt', ?_, h2, h3, h4, h5, h6⟩
    simp only [jumpLoop, hf, ht]
    have hv' : ¬ nf.Value ≥ 0 := by omega
    simp [hv', hc, h1]

/-- Walking up from the node that `Jump` reaches along a key without byte 0 collects
the bytes of the key, last byte first, and stops at the root. -/
theorem keyLoop_of_jumpLoop {da : Cedar} (hroot : RootIsNoChild da) (k : List Byte) :
    ∀ (id : Int), jumpLoop da k 0 0 = some (id, none) → (∀ b ∈ k, b ≠ 0) →
      ∀ (fuel : Nat) (acc : List Byte), k.length ≤ fuel →
        keyLoop da fuel id acc = some (some (0, acc ++ k.reverse)) := by
  induction k using List.reverseRecOn with
  | nil =>
    intro id h _ fuel acc _
    simp only [jumpLoop, Option.some.injEq, Prod.mk.injEq, and_true] at h
    subst h
    cases fuel <;> simp [keyLoop]
  | append_singleton init b ih =>
    intro id h hnz fuel acc hlen
    obtain ⟨p, nf, nt, h1, h2, h3, h4, h5, h6⟩ := jumpLoop_snoc_ok init h
    have hp : 0 ≤ p := idx_nonneg h2
    have hid : 0 ≤ id := idx_nonneg h5
    have hid0 : id ≠ 0 := by
      intro h0
      rw [h0] at h5
      have := hroot nt (by simpa using h5)
      omega
    have hb : b ≠ 0 := hnz b (by simp)
    cases fuel with
    | zero => simp at hlen
    | succ fuel =>
      have hpos : id > 0 := by omega
      have hchar : toByte (Int.xor nf.base id) = b := by
        rw [h4]
        exact toByte_xor_child nf.base (by unfold Node.base; omega) b
      have hnp : ¬ nt.Check < 0 := by omega
      simp only [keyLoop, hpos, if_true, h5, hnp, if_false, h6 ▸ h2]
      rw [h6] at hnp
      simp only [hchar, hb, ne_eq, not_false_eq_true, if_true]
      rw [h6, ih p h1 (fun c hc => hnz c (by simp [hc])) fuel (acc ++ [b])
        (by simp at hlen; omega)]
      simp

/-! ### Reads and writes -/

theorem idx_upd_self {α : Type} {xs ys : List α} {i : Int} {v : α}
    (h : upd xs i v = some ys) : idx ys i = some v := by
  unfold upd at h
  by_cases hi : i < 0
  · simp [hi] at h
  · by_cases hl : i.toNat < xs.length
    · simp only [hi, hl, if_false, if_true, Option.some.injEq] at h
      subst h
      simp [idx, hi, hl]
    · simp [hi, hl] at h

theorem idx_upd_other {α : Type} {xs ys : List α} {i j : Int} {v : α}
    (h : upd xs i v = some ys) (hj : j ≠ i) : idx ys j = idx xs j := by
  unfold upd at h
  by_cases hi : i < 0
  · simp [hi] at h
  · by_cases hl : i.toNat < xs.length
    · simp only [hi, hl, if_false, if_true, Option.some.injEq] at h
      subst h
      unfold idx
      by_cases hj0 : j < 0
      · simp [hj0]
      · have : i.toNat ≠ j.toNat := by omega
        simp [hj0, List.getElem?_set_ne this]
    · simp [hi, hl] at h

theorem upd_length {α : Type} {xs ys : List α} {i : Int} {v : α}
    (h : upd xs i v = some ys) : ys.length = xs.length := by
  unfold upd at h
  by_cases hi : i < 0
  · simp [hi] at h
  · by_cases hl : i.toNat < xs.length
    · simp only [hi, hl, if_false, if_true, Option.some.injEq] at h
      subst h
      simp
    · simp [hi, hl] at h

theorem idx_lt_length {α : Type} {xs : List α} {i : Int} {x : α} (h : idx xs i = some x) :
    i.toNat < xs.length := by
  unfold idx at h
  by_cases hi : i < 0
  · simp [hi] at h
  · simp only [hi, if_false] at h
    exact (List.getElem?_eq_some.mp h).1

theorem idx_of_length_eq {α : Type} {xs ys : List α} {i : Int} {x : α}
    (hl : ys.length = xs.length) (h : idx xs i = some x) : ∃ y, idx ys i = some y := by
  have h1 := idx_lt_length h
  have h0 := idx_nonneg h
  unfold idx
  have : ¬ i < 0 := by omega
  simp only [this, if_false]
  have hlt : i.toNat < ys.length := by omega
  exact ⟨ys[i.toNat], List.getElem?_eq_getElem hlt⟩

/-- What a write to the slot array changes. -/
theorem setNode_spec {da da' : Cedar} {i : Int} {n : Node} (h : da.setNode i n = some da') :
    da'.node i = some n ∧ (∀ j, j ≠ i → da'.node j = da.node j) ∧
      da'.Array.length = da.Array.length ∧ da'.Ninfos = da.Ninfos ∧
      da'.Blocks = da.Blocks := by
  unfold Cedar.setNode at h
  cases hu : upd da.Array i n with
  | none => simp [hu] at h
  | some a =>
    simp only [hu, Option.map_some', Option.some.injEq] at h
    subst h
    exact ⟨idx_upd_self hu, fun j hj => idx_upd_other hu hj, upd_length hu, rfl, rfl⟩

theorem setCheck_spec {da da' : Cedar} {i c : Int} (h : da.setCheck i c = some da') :
    (∃ n, da.node i = some n ∧ da'.node i = some { n with Check := c }) ∧
      (∀ j, j ≠ i → da'.node j = da.node j) ∧
      da'.Array.length = da.Array.length ∧ da'.Ninfos = da.Ninfos ∧
      da'.Blocks = da.Blocks := by
  unfold Cedar.setCheck at h
  cases hn : da.node i with
  | none => simp [hn] at h
  | some n =>
    simp only [hn, Option.some_bind] at h
    obtain ⟨h1, h2, h3, h4, h5⟩ := setNode_spec h
    exact ⟨⟨n, rfl, h1⟩, h2, h3, h4, h5⟩

theorem setValue_spec {da da' : Cedar} {i v : Int} (h : da.setValue i v = some da') :
    (∃ n, da.node i = some n ∧ da'.node i = some { n with Value := v }) ∧
      (∀ j, j ≠ i → da'.node j = da.node j) ∧
      da'.Array.length = da.Array.length ∧ da'.Ninfos = da.Ninfos ∧
      da'.Blocks = da.Blocks := by
  unfold Cedar.setValue at h
  cases hn : da.node i with
  | none => simp [hn] at h
  | some n =>
    simp only [hn, Option.some_bind] at h
    obtain ⟨h1, h2, h3, h4, h5⟩ := setNode_spec h
    exact ⟨⟨n, rfl, h1⟩, h2, h3, h4, h5⟩

theorem setNinfo_spec {da da' : Cedar} {i : Int} {x : Ninfo} (h : da.setNinfo i x = some da') :
    da'.ninfo i = some x ∧ (∀ j, j ≠ i → da'.ninfo j = da.ninfo j) ∧
      da'.Array = da.Array ∧ da'.Blocks = da.Blocks := by
  unfold Cedar.setNinfo at h
  cases hu : upd da.Ninfos i x with
  | none => simp [hu] at h
  | some a =>
    simp only [hu, Option.map_some', Option.some.injEq] at h
    subst h
    exact ⟨idx_upd_self hu, fun j hj => idx_upd_other hu hj, rfl, rfl⟩

theorem setSibling_spec {da da' : Cedar} {i : Int} {c : Byte} (h : da.setSibling i c = some da') :
    (∀ j, j ≠ i → da'.ninfo j = da.ninfo j) ∧ da'.Array = da.Array ∧
      da'.Blocks = da.Blocks := by
  unfold Cedar.setSibling at h
  cases hn : da.ninfo i with
  | none => simp [hn] at h
  | some n =>
    simp only [hn, Option.some_bind] at h
    obtain ⟨_, h2, h3, h4⟩ := setNinfo_spec h
    exact ⟨h2, h3, h4⟩

theorem setChildOf_spec {da da' : Cedar} {i : Int} {c : Byte} (h : da.setChildOf i c = some da') :
    (∀ j, j ≠ i → da'.ninfo j = da.ninfo j) ∧ da'.Array = da.Array ∧
      da'.Blocks = da.Blocks := by
  unfold Cedar.setChildOf at h
  cases hn : da.ninfo i with
  | none => simp [hn] at h
  | some n =>
    simp only [hn, Option.some_bind] at h
    obtain ⟨_, h2, h3, h4⟩ := setNinfo_spec h
    exact ⟨h2, h3, h4⟩

/-! ### Blocks -/

theorem coreLe_refl (da : Cedar) : CoreLe da da := fun _ b' h => ⟨b', h, rfl, rfl⟩

theorem coreLe_trans {a b c : Cedar} (h1 : CoreLe a b) (h2 : CoreLe b c) : CoreLe a c := by
  intro j b' h
  obtain ⟨b0, hb0, e1, e2⟩ := h2 j b' h
  obtain ⟨b1, hb1, e3, e4⟩ := h1 j b0 hb0
  exact ⟨b1, hb1, by omega, by omega⟩

theorem setBlock_spec {da da' : Cedar} {i : Int} {b : Block} (h : da.setBlock i b = some da') :
    da'.block i = some b ∧ (∀ j, j ≠ i → da'.block j = da.block j) ∧
      da'.Array = da.Array ∧ da'.Ninfos = da.Ninfos := by
  unfold Cedar.setBlock at h
  cases hu : upd da.Blocks i b with
  | none => simp [hu] at h
  | some a =>
    simp only [hu, Option.map_some', Option.some.injEq] at h
    subst h
    exact ⟨idx_upd_self hu, fun j hj => idx_upd_other hu hj, rfl, rfl⟩

theorem setBlock_coreLe {da da' : Cedar} {i : Int} {b p : Block}
    (h : da.setBlock i b = some da') (hp : da.block i = some p) (hn : p.Num = b.Num)
    (he : p.Ehead = b.Ehead) : CoreLe da da' := by
  obtain ⟨h1, h2, _, _⟩ := setBlock_spec h
  intro j b' hb'
  by_cases hj : j = i
  · subst hj
    rw [h1] at hb'
    cases hb'
    exact ⟨p, hp, hn, he⟩
  · rw [h2 j hj] at hb'
    exact ⟨b', hb', rfl, rfl⟩

theorem setHead_fields (da : Cedar) (c : Cls) (v : Int) :
    (da.setHead c v).Array = da.Array ∧ (da.setHead c v).Ninfos = da.Ninfos ∧
      (da.setHead c v).Blocks = da.Blocks := by
  cases c <;> exact ⟨rfl, rfl, rfl⟩

theorem setHead_coreLe (da : Cedar) (c : Cls) (v : Int) : CoreLe da (da.setHead c v) := by
  intro j b' h
  have : (da.setHead c v).block j = da.block j := by
    unfold Cedar.block
    rw [(setHead_fields da c v).2.2]
  rw [this] at h
  exact ⟨b', h, rfl, rfl⟩

theorem sameSlots_refl (da : Cedar) : SameSlots da da := ⟨rfl, rfl, coreLe_refl da⟩

theorem sameSlots_trans {a b c : Cedar} (h1 : SameSlots a b) (h2 : SameSlots b c) :
    SameSlots a c :=
  ⟨h2.1.trans h1.1, h2.2.1.trans h1.2.1, coreLe_trans h1.2.2 h2.2.2⟩

theorem setBlock_sameSlots {da da' : Cedar} {i : Int} {b p : Block}
    (h : da.setBlock i b = some da') (hp : da.block i = some p) (hn : p.Num = b.Num)
    (he : p.Ehead = b.Ehead) : SameSlots da da' :=
  ⟨(setBlock_spec h).2.2.1, (setBlock_spec h).2.2.2, setBlock_coreLe h hp hn he⟩

theorem setHead_sameSlots (da : Cedar) (c : Cls) (v : Int) : SameSlots da (da.setHead c v) :=
  ⟨(setHead_fields da c v).1, (setHead_fields da c v).2.1, setHead_coreLe da c v⟩

theorem popBlock_sameSlots {da da' : Cedar} {bi : Int} {c : Cls} {last : Bool}
    (h : popBlock da bi c last = some da') : SameSlots da da' := by
  unfold popBlock at h
  cases last with
  | true =>
    simp only [if_true, Option.some.injEq] at h
    subst h
    exact setHead_sameSlots da c 0
  | false =>
    simp only [Bool.false_eq_true, if_false, bind, Option.bind_eq_some] at h
    obtain ⟨b, _, p, hp, da1, h1, n, hn, da2, h2, h3⟩ := h
    have s1 := setBlock_sameSlots h1 hp rfl rfl
    have s2 := setBlock_sameSlots h2 hn rfl rfl
    by_cases hh : bi = da2.head c
    · simp only [hh, if_true, Option.some.injEq] at h3
      subst h3
      exact sameSlots_trans (sameSlots_trans s1 s2) (setHead_sameSlots da2 c _)
    · simp only [hh, if_false, Option.some.injEq] at h3
      subst h3
      exact sameSlots_trans s1 s2

theorem pushBlock_sameSlots {da da' : Cedar} {bi : Int} {c : Cls} {empty : Bool}
    (h : pushBlock da bi c empty = some da') : SameSlots da da' := by
  unfold pushBlock at h
  cases empty with
  | true =>
    simp only [if_true, bind, Option.bind_eq_some, Option.some.injEq] at h
    obtain ⟨b, hb, da1, h1, h2⟩ := h
    subst h2
    exact sameSlots_trans (setBlock_sameSlots h1 hb rfl rfl) (setHead_sameSlots da1 c bi)
  | false =>
    simp only [Bool.false_eq_true, if_false, bind, Option.bind_eq_some,
      Option.some.injEq] at h
    obtain ⟨hb, _, b, hb', da1, h1, hb1, hhb1, da2, h2, tb, htb, da3, h3, h4⟩ := h
    subst h4
    exact sameSlots_trans (sameSlots_trans (sameSlots_trans (setBlock_sameSlots h1 hb' rfl rfl)
      (setBlock_sameSlots h2 hhb1 rfl rfl)) (setBlock_sameSlots h3 htb rfl rfl))
      (setHead_sameSlots da3 c bi)

theorem transferBlock_sameSlots {da da' : Cedar} {bi : Int} {cin cout : Cls}
    (h : transferBlock da bi cin cout = some da') : SameSlots da da' := by
  unfold transferBlock at h
  simp only [bind, Option.bind_eq_some] at h
  obtain ⟨b, _, da1, h1, b1, _, h2⟩ := h
  exact sameSlots_trans (popBlock_sameSlots h1) (pushBlock_sameSlots h2)

/-! ### Release of a slot -/

theorem ringHeadOk_iff {da : Cedar} {h : Int} :
    ringHeadOk da h = true ↔
      ∃ nh nn, da.node h = some nh ∧ 0 < h ∧ nh.Check < 0 ∧
        da.node (-nh.Check) = some nn ∧ nn.Check < 0 := by
  unfold ringHeadOk
  cases hn : da.node h with
  | none => simp
  | some nh =>
    cases hm : da.node (-nh.Check) with
    | none => simp [hm]
    | some nn => simp [hm, and_assoc]

theorem mem_blocks_iff {da : Cedar} {b : Block} :
    b ∈ da.Blocks ↔ ∃ j, da.block j = some b := by
  constructor
  · intro h
    obtain ⟨i, hi, rfl⟩ := List.mem_iff_getElem.mp h
    refine ⟨(i : Int), ?_⟩
    unfold Cedar.block idx
    simp [hi]
  · rintro ⟨j, hj⟩
    unfold Cedar.block idx at hj
    by_cases h0 : j < 0
    · simp [h0] at hj
    · simp only [h0, if_false] at hj
      exact List.mem_iff_getElem?.mpr ⟨_, hj⟩

theorem node_congr {da da' : Cedar} (h : da'.Array = da.Array) (s : Int) :
    da'.node s = da.node s := by
  unfold Cedar.node
  rw [h]

theorem ninfo_congr {da da' : Cedar} (h : da'.Ninfos = da.Ninfos) (s : Int) :
    da'.ninfo s = da.ninfo s := by
  unfold Cedar.ninfo
  rw [h]

/-- The release of `e` into a block that was full. -/
theorem step_fresh {cur d : Cedar} {e : Int} {ne : Node} (he : 0 < e)
    (hne : cur.node e = some ne) (hocc : ne.Check ≥ 0)
    (hlen : d.Array.length = cur.Array.length)
    (h1 : d.node e = some { Value := -e, Check := -e })
    (h2 : ∀ j, j ≠ e → d.node j = cur.node j) : Step cur d e := by
  refine ⟨hlen, ⟨_, h1, by simp; omega⟩, ?_, ?_⟩
  · intro s n hs hn _
    rw [h2 s hs]
    exact hn
  · intro s n hn hneg _
    have : s ≠ e := by
      intro h
      subst h
      rw [hne] at hn
      cases hn
      omega
    exact ⟨n, by rw [h2 s this]; exact hn, hneg, Or.inl rfl⟩

/-- The release of `e` into a ring: `e` is linked after the head `prev` of the ring. -/
theorem step_link {cur d1 d2 d3 : Cedar} {e prev : Int} {ne np nn : Node} (he : 0 < e)
    (hne : cur.node e = some ne) (hocc : ne.Check ≥ 0)
    (hp : cur.node prev = some np) (hp0 : 0 < prev) (hpc : np.Check < 0)
    (hn : cur.node (-np.Check) = some nn) (hnc : nn.Check < 0)
    (h1 : cur.setNode e { Value := -prev, Check := - -np.Check } = some d1)
    (h2 : d1.setCheck prev (-e) = some d2)
    (h3 : d2.setValue (-np.Check) (-e) = some d3) : Step cur d3 e := by
  obtain ⟨a1, a2, a3, _, _⟩ := setNode_spec h1
  obtain ⟨⟨m2, b0, b1⟩, b2, b3, _, _⟩ := setCheck_spec h2
  obtain ⟨⟨m3, c0, c1⟩, c2, c3, _, _⟩ := setValue_spec h3
  have hpe : prev ≠ e := by
    intro h; subst h; rw [hne] at hp; cases hp; omega
  have hnx : -np.Check ≠ e := by
    intro h; rw [h, hne] at hn; cases hn; omega
  -- the check of every slot after the three writes
  have key : ∀ s, (s = e → ∃ n', d3.node s = some n' ∧ n'.Check < 0) ∧
      (s ≠ e → ∀ n, cur.node s = some n →
        ∃ n', d3.node s = some n' ∧
          (n.Check < 0 → n'.Check < 0 ∧ (n'.Check = n.Check ∨ n'.Check = -e)) ∧
          (s ≠ prev → s ≠ -np.Check → n' = n)) := by
    intro s
    constructor
    · intro hs
      subst hs
      have e2 : d2.node s = some { Value := -prev, Check := - -np.Check } := by
        rw [b2 s (Ne.symm hpe)]; exact a1
      by_cases hx : s = -np.Check
      · rw [← hx] at c0 c1
        rw [e2] at c0
        cases c0
        exact ⟨_, c1, by simp; omega⟩
      · exact ⟨_, by rw [c2 s hx]; exact e2, by simp; omega⟩
    · intro hs n hsn
      have e1 : d1.node s = some n := by rw [a2 s hs]; exact hsn
      by_cases hsp : s = prev
      · subst hsp
        rw [e1] at b0
        cases b0
        by_cases hx : s = -np.Check
        · rw [← hx] at c0 c1
          rw [b1] at c0
          cases c0
          exact ⟨_, c1, fun _ => ⟨by simp; omega, Or.inr rfl⟩, fun h => absurd rfl h⟩
        · exact ⟨_, by rw [c2 s hx]; exact b1, fun _ => ⟨by simp; omega, Or.inr rfl⟩,
            fun h => absurd rfl h⟩
      · have e2 : d2.node s = some n := by rw [b2 s hsp]; exact e1
        by_cases hx : s = -np.Check
        · rw [← hx] at c0 c1
          rw [e2] at c0
          cases c0
          exact ⟨_, c1, fun h => ⟨by simpa using h, Or.inl rfl⟩, fun _ h => absurd hx h⟩
        · exact ⟨n, by rw [c2 s hx]; exact e2, fun h => ⟨h, Or.inl rfl⟩, fun _ _ => rfl⟩
  refine ⟨by omega, (key e).1 rfl, ?_, ?_⟩
  · intro s n hs hsn hocc'
    obtain ⟨n', hn', _, heq⟩ := (key s).2 hs n hsn
    have h1 : s ≠ prev := by
      intro h; subst h; rw [hp] at hsn; cases hsn
      rcases hocc' with h | h <;> omega
    have h2 : s ≠ -np.Check := by
      intro h; rw [h, hn] at hsn; cases hsn
      rcases hocc' with h' | h'
      · omega
      · omega
    rw [hn', heq h1 h2]
  · intro s n hsn hneg _
    have hs : s ≠ e := by
      intro h; subst h; rw [hne] at hsn; cases hsn; omega
    obtain ⟨n', hn', hc, _⟩ := (key s).2 hs n hsn
    exact ⟨n', hn', (hc hneg).1, (hc hneg).2⟩


theorem ringHeadOk_step {cur d : Cedar} {e h : Int} (hs : Step cur d e)
    (hh : ringHeadOk cur h = true) : ringHeadOk d h = true := by
  obtain ⟨nh, nn, h1, h2, h3, h4, h5⟩ := ringHeadOk_iff.mp hh
  obtain ⟨nh', e1, e2, e3⟩ := hs.neg h nh h1 h3 (by omega)
  apply ringHeadOk_iff.mpr
  rcases e3 with e3 | e3
  · obtain ⟨nn', f1, f2, _⟩ := hs.neg (-nh.Check) nn h4 h5 (by omega)
    exact ⟨nh', nn', e1, h2, e2, by rw [e3]; exact f1, f2⟩
  · obtain ⟨ng, g1, g2⟩ := hs.gone
    exact ⟨nh', ng, e1, h2, e2, by rw [e3]; simpa using g1, g2⟩

theorem ringHeadOk_congr {d d' : Cedar} (h : d'.Array = d.Array) (x : Int) :
    ringHeadOk d' x = ringHeadOk d x := by
  unfold ringHeadOk Cedar.node
  rw [h]

theorem step_congr {cur d d' : Cedar} {e : Int} (hs : Step cur d e) (h : d'.Array = d.Array) :
    Step cur d' e := by
  have hn : ∀ s, d'.node s = d.node s := node_congr h
  refine ⟨by rw [h]; exact hs.len, ?_, ?_, ?_⟩
  · obtain ⟨n', h1, h2⟩ := hs.gone
    exact ⟨n', by rw [hn]; exact h1, h2⟩
  · intro s n a b c
    rw [hn]
    exact hs.keep s n a b c
  · intro s n a b c
    obtain ⟨n', h1, h2⟩ := hs.neg s n a b c
    exact ⟨n', by rw [hn]; exact h1, h2⟩

theorem headsOk_sameSlots {d d' : Cedar} (hh : HeadsOk d) (hs : SameSlots d d') :
    HeadsOk d' := by
  intro b' hb' hnum
  obtain ⟨j, hj⟩ := mem_blocks_iff.mp hb'
  obtain ⟨b0, h0, e1, e2⟩ := hs.2.2 j b' hj
  rw [ringHeadOk_congr hs.1, ← e2]
  exact hh b0 (mem_blocks_iff.mpr ⟨j, h0⟩) (by omega)

/-- The block table after the write of block `bi`, where the new `ehead` heads an
empty ring and the other blocks are those of a state whose heads are in order. -/
theorem headsOk_setBlock {cur d d' : Cedar} {e bi : Int} {nb : Block} (hh : HeadsOk cur)
    (hs : Step cur d e) (hblk : d.Blocks = cur.Blocks)
    (hset : d.setBlock bi nb = some d')
    (hnew : nb.Num ≠ 0 → ringHeadOk d nb.Ehead = true) : HeadsOk d' := by
  obtain ⟨s1, s2, s3, _⟩ := setBlock_spec hset
  intro b' hb' hnum
  obtain ⟨j, hj⟩ := mem_blocks_iff.mp hb'
  rw [ringHeadOk_congr s3]
  by_cases hji : j = bi
  · subst hji
    rw [s1] at hj
    cases hj
    exact hnew hnum
  · rw [s2 j hji] at hj
    have : cur.block j = some b' := by
      unfold Cedar.block at hj ⊢
      rw [← hblk]
      exact hj
    exact ringHeadOk_step hs (hh b' (mem_blocks_iff.mpr ⟨j, this⟩) hnum)

theorem pushEnode_spec {cur cur' : Cedar} {e : Int} {ne : Node} (hh : HeadsOk cur)
    (he : 0 < e) (hne : cur.node e = some ne) (hocc : ne.Check ≥ 0)
    (h : pushEnode cur e = some cur') :
    Step cur cur' e ∧ HeadsOk cur' ∧ (∀ s, s ≠ e → cur'.ninfo s = cur.ninfo s) := by
  unfold pushEnode at h
  simp only [Option.bind_eq_some] at h
  obtain ⟨b, hb, da2, h2, b3, hb3, da3, h3, h4⟩ := h
  have mid : Step cur da2 e ∧ HeadsOk da2 ∧ da2.Ninfos = cur.Ninfos := by
    by_cases hnum : b.Num + 1 = 1
    · simp only [hnum, if_true, Option.bind_eq_some] at h2
      obtain ⟨d1, hd1, d2, hd2, h5⟩ := h2
      obtain ⟨_, _, a3, a4⟩ := setBlock_spec hd1
      obtain ⟨c1, c2, c3, c4, c5⟩ := setNode_spec hd2
      have hst : Step cur d2 e :=
        step_fresh he hne hocc (by rw [c3, a3]) c1
          (fun j hj => by rw [c2 j hj]; exact node_congr a3 j)
      have hh2 : HeadsOk d2 := by
        -- the heads of `d2`: block `e / 256` has the new head `e`
        intro b' hb' hn'
        obtain ⟨j, hj⟩ := mem_blocks_iff.mp hb'
        have hj1 : d1.block j = some b' := by
          unfold Cedar.block at hj ⊢
          rw [← c5]
          exact hj
        by_cases hji : j = e / 256
        · subst hji
          obtain ⟨s1, _, _, _⟩ := setBlock_spec hd1
          rw [s1] at hj1
          cases hj1
          apply ringHeadOk_iff.mpr
          exact ⟨_, _, c1, he, by simp; omega, by simpa using c1, by simp; omega⟩
        · obtain ⟨_, s2, _, _⟩ := setBlock_spec hd1
          rw [s2 j hji] at hj1
          exact ringHeadOk_step hst (hh b' (mem_blocks_iff.mpr ⟨j, hj1⟩) hn')
      have hs : SameSlots d2 da2 := by
        by_cases hz : e / 256 ≠ 0
        · simp only [hz, ne_eq, not_false_eq_true, if_true] at h5
          exact transferBlock_sameSlots h5
        · simp only [hz, if_false, Option.some.injEq] at h5
          subst h5
          exact sameSlots_refl _
      exact ⟨step_congr hst hs.1, headsOk_sameSlots hh2 hs, by rw [hs.2.1, c4, a4]⟩
    · simp only [hnum, if_false, Option.bind_eq_some] at h2
      obtain ⟨np, hnp, d1, hd1, d2, hd2, d3, hd3, d4, hd4, d5, hd5, b2, hb2, h6⟩ := h2
      have hb0 : b.Num ≠ 0 := by omega
      obtain ⟨nh, nn, r1, r2, r3, r4, r5⟩ :=
        ringHeadOk_iff.mp (hh b (mem_blocks_iff.mpr ⟨_, hb⟩) hb0)
      rw [hnp] at r1
      cases r1
      have hst : Step cur d3 e := step_link he hne hocc hnp r2 r3 r4 r5 hd1 hd2 hd3
      obtain ⟨_, _, _, n1, k1⟩ := setNode_spec hd1
      obtain ⟨_, _, _, n2, k2⟩ := setCheck_spec hd2
      obtain ⟨_, _, _, n3, k3⟩ := setValue_spec hd3
      have hh4 : HeadsOk d4 :=
        headsOk_setBlock hh hst (by rw [k3, k2, k1]) hd4
          (fun _ => ringHeadOk_step hst (hh b (mem_blocks_iff.mpr ⟨_, hb⟩) hb0))
      obtain ⟨_, _, a3, a4⟩ := setBlock_spec hd4
      have hs5 : SameSlots d4 d5 := by
        by_cases hz : (b.Num + 1 = 2 ∨ b.Trial = cur.MaxTrial) ∧ e / 256 ≠ 0
        · rw [if_pos hz] at hd5
          exact transferBlock_sameSlots hd5
        · rw [if_neg hz] at hd5
          cases hd5
          exact sameSlots_refl _
      have hs6 : SameSlots d5 da2 := setBlock_sameSlots h6 hb2 rfl rfl
      have hs := sameSlots_trans hs5 hs6
      exact ⟨step_congr hst (by rw [hs.1, a3]), headsOk_sameSlots hh4 hs,
        by rw [hs.2.1, a4, n3, n2, n1]⟩
  obtain ⟨m1, m2, m3⟩ := mid
  have hs3 : SameSlots da2 da3 := setBlock_sameSlots h3 hb3 rfl rfl
  obtain ⟨_, q2, q3, q4⟩ := setNinfo_spec h4
  have hh3 := headsOk_sameSlots m2 hs3
  refine ⟨step_congr m1 (by rw [q3, hs3.1]), ?_, ?_⟩
  · intro b' hb' hn'
    rw [ringHeadOk_congr q3]
    have : b' ∈ da3.Blocks := by rw [← q4]; exact hb'
    exact hh3 b' this hn'
  · intro s hs
    rw [q2 s hs, ninfo_congr hs3.2.1, ninfo_congr m3]
/-! ### The loop of `Delete` -/

theorem writeLoc_spec {da da' : Cedar} {l : Loc} {c : Byte} (h : da.writeLoc l c = some da') :
    da'.Array = da.Array ∧ da'.Blocks = da.Blocks := by
  cases l with
  | child i => exact ⟨(setChildOf_spec h).2.1, (setChildOf_spec h).2.2⟩
  | sibling i => exact ⟨(setSibling_spec h).2.1, (setSibling_spec h).2.2⟩

theorem popSibling_spec {da da' : Cedar} {f base : Int} {label : Byte}
    (h : popSibling da f base label = some da') :
    da'.Array = da.Array ∧ da'.Blocks = da.Blocks := by
  unfold popSibling at h
  simp only [bind, Option.bind_eq_some] at h
  obtain ⟨l, _, c, _, x, _, h4⟩ := h
  exact writeLoc_spec h4

theorem headsOk_congr {d d' : Cedar} (hh : HeadsOk d) (ha : d'.Array = d.Array)
    (hb : d'.Blocks = d.Blocks) : HeadsOk d' := by
  intro b hb' hn
  rw [ringHeadOk_congr ha]
  exact hh b (by rw [← hb]; exact hb') hn

theorem loopInv_congr {da cur cur' : Cedar} {done : List Int} (hi : LoopInv da cur done)
    (ha : cur'.Array = cur.Array) (hb : cur'.Blocks = cur.Blocks) : LoopInv da cur' done := by
  have hn : ∀ s, cur'.node s = cur.node s := node_congr ha
  refine ⟨by rw [ha]; exact hi.len, ?_, ?_, ?_, hi.pos, headsOk_congr hi.heads ha hb⟩
  · intro s n a b c
    rw [hn]; exact hi.keep s n a b c
  · intro s a
    obtain ⟨n, h1, h2⟩ := hi.gone s a
    exact ⟨n, by rw [hn]; exact h1, h2⟩
  · intro s n a b c
    obtain ⟨n', h1, h2⟩ := hi.neg s n a b c
    exact ⟨n', by rw [hn]; exact h1, h2⟩

theorem loopInv_step {da cur cur' : Cedar} {done : List Int} {e : Int}
    (hi : LoopInv da cur done) (hs : Step cur cur' e) (he : 0 < e) (hh : HeadsOk cur') :
    LoopInv da cur' (e :: done) := by
  refine ⟨by rw [hs.len]; exact hi.len, ?_, ?_, ?_, ?_, hh⟩
  · intro s n hs' hn ho
    simp only [List.mem_cons, not_or] at hs'
    exact hs.keep s n hs'.1 (hi.keep s n hs'.2 hn ho) ho
  · intro s hs'
    rcases List.mem_cons.mp hs' with h | h
    · subst h; exact hs.gone
    · obtain ⟨n, h1, h2⟩ := hi.gone s h
      obtain ⟨n', g1, g2, _⟩ := hs.neg s n h1 h2 (by have := hi.pos s h; omega)
      exact ⟨n', g1, g2⟩
  · intro s n hn hneg h0
    obtain ⟨n1, h1, h2⟩ := hi.neg s n hn hneg h0
    obtain ⟨n', g1, g2, _⟩ := hs.neg s n1 h1 h2 h0
    exact ⟨n', g1, g2⟩
  · intro s hs'
    rcases List.mem_cons.mp hs' with h | h
    · subst h; exact he
    · exact hi.pos s h

/-- An occupied slot of the current state, or its root, is a slot of the state
before the call. -/
theorem loopInv_back {da cur : Cedar} {done : List Int} (hi : LoopInv da cur done)
    {s : Int} {n' : Node} (hs : s ∉ done) (hn : cur.node s = some n')
    (ho : n'.Check ≥ 0 ∨ s = 0) : da.node s = some n' := by
  have hl : da.Array.length = cur.Array.length := hi.len.symm
  obtain ⟨n, hdn⟩ := idx_of_length_eq hl hn
  have hdn' : da.node s = some n := hdn
  by_cases hc : n.Check ≥ 0 ∨ s = 0
  · have := hi.keep s n hs hdn' hc
    rw [this] at hn
    cases hn
    exact hdn'
  · have h1 : n.Check < 0 := by
      by_contra h; exact hc (Or.inl (by omega))
    have h2 : s ≠ 0 := fun h => hc (Or.inr h)
    obtain ⟨m, hm, hm2⟩ := hi.neg s n hdn' h1 h2
    rw [hm] at hn
    cases hn
    rcases ho with ho | ho
    · omega
    · exact absurd ho h2

theorem final_of_loopInv {da cur : Cedar} {done : List Int} {t : Int}
    (hi : LoopInv da cur done) (hr : ∀ s ∈ done, Rel da t s) : Final da cur t := by
  refine ⟨hi.len, ?_, hi.neg⟩
  intro s n hn ho
  by_cases hs : s ∈ done
  · exact Or.inr ⟨hr s hs, hi.pos s hs, hi.gone s hs⟩
  · exact Or.inl (hi.keep s n hs hn ho)

theorem chainUp_nonneg {da : Cedar} {to_ : Int} {rest : List Int} (h : ChainUp da to_ rest) :
    0 ≤ to_ := by
  cases rest with
  | nil => simp only [ChainUp] at h; omega
  | cons p r => simp only [ChainUp] at h; omega

theorem deleteLoop_final (da : Cedar) (t : Int) :
    ∀ (rest : List Int) (to_ : Int) (done : List Int) (cur : Cedar) (fuel : Nat) (da' : Cedar),
      ChainUp da to_ rest → (done ++ to_ :: rest).Nodup → LoopInv da cur done →
      (0 < to_ → ∀ s, s ∉ done → cur.ninfo s = da.ninfo s) →
      (0 < to_ → Rel da t to_) → (∀ s ∈ done, Rel da t s) →
      deleteLoop fuel cur to_ = some da' → Final da da' t := by
  intro rest
  induction rest with
  | nil =>
    intro to_ done cur fuel da' hc _ hi _ _ hr hd
    simp only [ChainUp] at hc
    subst hc
    cases fuel <;> simp [deleteLoop] at hd <;> subst hd <;> exact final_of_loopInv hi hr
  | cons p rest ih =>
    intro to_ done cur fuel da' hc hnd hi hni hrt hr hd
    simp only [ChainUp] at hc
    obtain ⟨hpos, ⟨nt, hnt, hck⟩, hc'⟩ := hc
    have hp0 : 0 ≤ p := chainUp_nonneg hc'
    have hto : to_ ∉ done := by
      intro h
      have := List.nodup_append.mp hnd
      exact this.2.2 h (List.mem_cons_self _ _)
    have hpd : p ∉ done := by
      intro h
      have := List.nodup_append.mp hnd
      exact this.2.2 h (List.mem_cons_of_mem _ (List.mem_cons_self _ _))
    have hcn : cur.node to_ = some nt := hi.keep to_ nt hto hnt (Or.inl (by omega))
    cases fuel with
    | zero => simp [deleteLoop, hpos] at hd
    | succ fuel =>
      simp only [deleteLoop, hpos, gt_iff_lt, if_true, hcn, hck] at hd
      cases hnf : cur.node p with
      | none => simp [hnf] at hd
      | some nf =>
        simp only [hnf] at hd
        have hdnf : da.node p = some nf := by
          cases rest with
          | nil =>
            simp only [ChainUp] at hc'
            exact loopInv_back hi hpd hnf (Or.inr hc')
          | cons q r =>
            simp only [ChainUp] at hc'
            obtain ⟨_, ⟨np, hnp, hq⟩, hc''⟩ := hc'
            have hq0 : 0 ≤ q := chainUp_nonneg hc''
            have := hi.keep p np hpd hnp (Or.inl (by omega))
            rw [this] at hnf
            cases hnf
            exact hnp
        cases hxt : cur.ninfo to_ with
        | none => simp [hxt] at hd
        | some xt =>
          simp only [hxt] at hd
          have hdxt : da.ninfo to_ = some xt := by rw [← hni hpos to_ hto]; exact hxt
          -- the state after the release of `to_`
          have rel_step : ∀ c1 c2 : Cedar, c1.Array = cur.Array → c1.Blocks = cur.Blocks →
              pushEnode c1 to_ = some c2 →
              LoopInv da c2 (to_ :: done) ∧ (∀ s, s ≠ to_ → c2.ninfo s = c1.ninfo s) := by
            intro c1 c2 ha hb hpe
            have hi1 := loopInv_congr hi ha hb
            have hn1 : c1.node to_ = some nt := by rw [node_congr ha]; exact hcn
            obtain ⟨st, hh, hnn⟩ := pushEnode_spec hi1.heads hpos hn1 (by omega) hpe
            exact ⟨loopInv_step hi1 st hpos hh, hnn⟩
          have hrel : ∀ s ∈ to_ :: done, Rel da t s := by
            intro s hs
            rcases List.mem_cons.mp hs with h | h
            · subst h; exact hrt hpos
            · exact hr s h
          by_cases hsib : xt.Sibling ≠ 0
          · simp only [hsib, ne_eq, not_false_eq_true, if_true, Option.bind_eq_some] at hd
            obtain ⟨c1, hps, hpe⟩ := hd
            obtain ⟨a1, a2⟩ := popSibling_spec hps
            exact final_of_loopInv (rel_step c1 da' a1 a2 hpe).1 hrel
          · simp only [hsib, if_false] at hd
            cases hxf : cur.ninfo p with
            | none => simp [hxf] at hd
            | some xf =>
              simp only [hxf, Option.map_some'] at hd
              have hdxf : da.ninfo p = some xf := by rw [← hni hpos p hpd]; exact hxf
              by_cases hch : xf.Child ≠ toByte (Int.xor to_ nf.base)
              · simp only [hch, ne_eq, not_false_eq_true, decide_True,
                  Option.bind_eq_some] at hd
                obtain ⟨c1, hps, hpe⟩ := hd
                obtain ⟨a1, a2⟩ := popSibling_spec hps
                exact final_of_loopInv (rel_step c1 da' a1 a2 hpe).1 hrel
              · simp only [hch, decide_False] at hd
                cases hpe : pushEnode cur to_ with
                | none => simp [hpe] at hd
                | some c1 =>
                  simp only [hpe] at hd
                  obtain ⟨hi1, hnn⟩ := rel_step cur c1 rfl rfl hpe
                  cases hc2 : (if p = 0 then c1.setChildOf p 0 else some c1) with
                  | none => simp [hc2] at hd
                  | some c2 =>
                    simp only [hc2] at hd
                    have hc2a : c2.Array = c1.Array ∧ c2.Blocks = c1.Blocks ∧
                        (0 < p → c2 = c1) := by
                      by_cases hp : p = 0
                      · rw [if_pos hp] at hc2
                        obtain ⟨_, b1, b2⟩ := setChildOf_spec hc2
                        exact ⟨b1, b2, fun h => by omega⟩
                      · rw [if_neg hp] at hc2
                        cases hc2
                        exact ⟨rfl, rfl, fun _ => rfl⟩
                    have hi2 := loopInv_congr hi1 hc2a.1 hc2a.2.1
                    apply ih p (to_ :: done) c2 fuel da' hc' ?_ hi2 ?_ ?_ hrel hd
                    · have := List.nodup_middle.mp hnd
                      simpa using this
                    · intro hp s hs
                      simp only [List.mem_cons, not_or] at hs
                      rw [hc2a.2.2 hp, hnn s hs.1]
                      exact hni hpos s hs.2
                    · intro hp
                      have hsib0 : xt.Sibling = 0 := by simpa using hsib
                      have hch0 : xf.Child = toByte (Int.xor to_ nf.base) := by simpa using hch
                      have := Rel.up to_ nt nf xt xf (hrt hpos) hpos hnt (by rw [hck]; exact hdnf)
                        hdxt (by rw [hck]; exact hdxf) hsib0 hch0 (by rw [hck]; exact hp)
                      rw [hck] at this
                      exact this

/-! ### Paths are unique -/

theorem ofByte_nonneg (b : Byte) : 0 ≤ ofByte b := by
  unfold ofByte; omega

theorem xor_ofByte_inj {base : Int} (hb : 0 ≤ base) {b c : Byte}
    (h : Int.xor base (ofByte b) = Int.xor base (ofByte c)) : b = c := by
  obtain ⟨n, rfl⟩ := Int.eq_ofNat_of_zero_le hb
  simp only [ofByte, xor_ofNat] at h
  have h' : n ^^^ b.val = n ^^^ c.val := by exact_mod_cast h
  exact Fin.ext (Nat.xor_right_inj.mp h')

theorem xor_ofByte_eq_self {base : Int} (hb : 0 ≤ base) {b : Byte}
    (h : Int.xor base (ofByte b) = base) : b = 0 := by
  obtain ⟨n, rfl⟩ := Int.eq_ofNat_of_zero_le hb
  simp only [ofByte, xor_ofNat] at h
  have h' : n ^^^ b.val = n ^^^ 0 := by
    rw [Nat.xor_zero]; exact_mod_cast h
  exact Fin.ext (Nat.xor_right_inj.mp h')

theorem base_nonneg {n : Node} (h : n.Value < 0) : 0 ≤ n.base := by
  unfold Node.base; omega

theorem jumpLoop_nil_ok {da : Cedar} {f t0 id : Int}
    (h : jumpLoop da [] f t0 = some (id, none)) : id = t0 := by
  simp only [jumpLoop, Option.some.injEq, Prod.mk.injEq, and_true] at h
  exact h.symm

/-- A jump along `pre ++ suf` is a jump along `pre` followed by a jump along `suf`. -/
theorem jumpLoop_append_ok {da : Cedar} :
    ∀ (pre suf : List Byte) {f id : Int},
      jumpLoop da (pre ++ suf) f f = some (id, none) →
      ∃ x, jumpLoop da pre f f = some (x, none) ∧ jumpLoop da suf x x = some (id, none)
  | [], suf, f, id, h => ⟨f, rfl, h⟩
  | c :: pre, suf, f, id, h => by
    obtain ⟨nf, nt, hf, hv, ht, hc, hr⟩ := jumpLoop_cons_ok h
    obtain ⟨x, h1, h2⟩ := jumpLoop_append_ok pre suf hr
    refine ⟨x, ?_, h2⟩
    have hv' : ¬ nf.Value ≥ 0 := by omega
    simp [jumpLoop, hf, ht, hv', hc, h1]

/-- A jump along `pre` followed by a jump along `suf` is a jump along `pre ++ suf`. -/
theorem jumpLoop_append_mk {da : Cedar} :
    ∀ (pre suf : List Byte) {f x : Int} {r : Int × Option Err},
      jumpLoop da pre f f = some (x, none) → jumpLoop da suf x x = some r → suf ≠ [] →
      jumpLoop da (pre ++ suf) f f = some r
  | [], suf, f, x, r, h1, h2, _ => by
    have := jumpLoop_nil_ok h1
    subst this
    exact h2
  | c :: pre, suf, f, x, r, h1, h2, hs => by
    obtain ⟨nf, nt, hf, hv, ht, hc, hr⟩ := jumpLoop_cons_ok h1
    have := jumpLoop_append_mk pre suf hr h2 hs
    have hv' : ¬ nf.Value ≥ 0 := by omega
    simp [jumpLoop, hf, ht, hv', hc, this]

/-- A node that a jump from the root reaches along a non-empty path is not the
root. -/
theorem jump_pos {da : Cedar} (hroot : RootIsNoChild da) {init : List Byte} {b : Byte}
    {id : Int} (h : jumpLoop da (init ++ [b]) 0 0 = some (id, none)) : 0 < id := by
  obtain ⟨p, nf, nt, _, h2, _, _, h5, h6⟩ := jumpLoop_snoc_ok init h
  have hp : 0 ≤ p := idx_nonneg h2
  have hid : 0 ≤ id := idx_nonneg h5
  have : id ≠ 0 := by
    intro h0
    rw [h0] at h5
    have := hroot nt (by simpa using h5)
    omega
  omega

/-- Two paths from the root to the same node are the same path. -/
theorem jump_inj {da : Cedar} (hroot : RootIsNoChild da) (k1 : List Byte) :
    ∀ (k2 : List Byte) (x : Int), jumpLoop da k1 0 0 = some (x, none) →
      jumpLoop da k2 0 0 = some (x, none) → k1 = k2 := by
  induction k1 using List.reverseRecOn with
  | nil =>
    intro k2 x h1 h2
    have hx := jumpLoop_nil_ok h1
    rcases List.eq_nil_or_concat k2 with rfl | ⟨init2, b2, rfl⟩
    · rfl
    · rw [List.concat_eq_append] at h2
      have := jump_pos hroot h2
      omega
  | append_singleton init1 b1 ih =>
    intro k2 x h1 h2
    rcases List.eq_nil_or_concat k2 with rfl | ⟨init2, b2, rfl⟩
    · have hx := jumpLoop_nil_ok h2
      have := jump_pos hroot h1
      omega
    · rw [List.concat_eq_append] at h2 ⊢
      obtain ⟨p1, nf1, nt1, a1, a2, a3, a4, a5, a6⟩ := jumpLoop_snoc_ok init1 h1
      obtain ⟨p2, nf2, nt2, c1, c2, c3, c4, c5, c6⟩ := jumpLoop_snoc_ok init2 h2
      rw [a5] at c5
      cases c5
      have hp : p1 = p2 := by rw [← a6, ← c6]
      subst hp
      rw [a2] at c2
      cases c2
      have hi := ih init2 p1 a1 c1
      subst hi
      have hb : b1 = b2 := xor_ofByte_inj (base_nonneg a3) (by rw [← a4, ← c4])
      rw [hb]

/-- The chain of parents of a node reached from the root: every slot on it is
reached along a prefix of the path, and no slot occurs twice. -/
theorem chain_of_jump {da : Cedar} (hroot : RootIsNoChild da) (k : List Byte) :
    ∀ (id : Int), jumpLoop da k 0 0 = some (id, none) →
      ∃ rest, ChainUp da id rest ∧ (id :: rest).Nodup ∧ rest.length = k.length ∧
        ∀ x ∈ id :: rest, ∃ pre suf, k = pre ++ suf ∧ jumpLoop da pre 0 0 = some (x, none) := by
  induction k using List.reverseRecOn with
  | nil =>
    intro id h
    have := jumpLoop_nil_ok h
    subst this
    refine ⟨[], by simp [ChainUp], by simp, rfl, ?_⟩
    intro x hx
    simp only [List.mem_singleton] at hx
    subst hx
    exact ⟨[], [], rfl, rfl⟩
  | append_singleton init b ih =>
    intro id h
    obtain ⟨p, nf, nt, h1, h2, h3, h4, h5, h6⟩ := jumpLoop_snoc_ok init h
    obtain ⟨rest, hc, hnd, hlen, hmem⟩ := ih p h1
    have hpos := jump_pos hroot h
    refine ⟨p :: rest, ?_, ?_, by simp [hlen], ?_⟩
    · simp only [ChainUp]
      exact ⟨hpos, ⟨nt, h5, h6⟩, hc⟩
    · refine List.nodup_cons.mpr ⟨?_, hnd⟩
      intro hin
      obtain ⟨pre, suf, hk, hj⟩ := hmem id hin
      have := jump_inj hroot pre (init ++ [b]) id hj h
      rw [this] at hk
      have hl := congrArg List.length hk
      simp at hl
    · intro x hx
      rcases List.mem_cons.mp hx with hx | hx
      · subst hx
        exact ⟨init ++ [b], [], by simp, h⟩
      · obtain ⟨pre, suf, hk, hj⟩ := hmem x hx
        exact ⟨pre, suf ++ [b], by rw [hk]; simp, hj⟩

/-! ### Child rings of a well-formed state -/

theorem xor_label {base y : Int} (hb : 0 ≤ base) (hy : 0 ≤ y) (h0 : 0 ≤ Int.xor y base)
    (h1 : Int.xor y base < 256) : Int.xor base (ofByte (toByte (Int.xor y base))) = y := by
  obtain ⟨n, rfl⟩ := Int.eq_ofNat_of_zero_le hb
  obtain ⟨a, rfl⟩ := Int.eq_ofNat_of_zero_le hy
  rw [xor_ofNat] at h1 ⊢
  have hlt : a ^^^ n < 256 := by exact_mod_cast h1
  have : ofByte (toByte ((a ^^^ n : Nat) : Int)) = ((a ^^^ n : Nat) : Int) := by
    simp only [ofByte, toByte]
    omega
  rw [this, xor_ofNat, Nat.xor_comm a n, Nat.xor_cancel_left]

theorem childOk_of_node {da : Cedar} (hw : WellFormed da) {y : Int} {ny : Node}
    (hy : da.node y = some ny) : childOk da y = true := by
  have h0 := idx_nonneg hy
  have h1 := idx_lt_length hy
  have := hw.children y.toNat h1
  rwa [Int.toNat_of_nonneg h0] at this

/-- Invariants 1 and 2 at an occupied slot. -/
theorem child_facts {da : Cedar} (hw : WellFormed da) {y : Int} {ny : Node}
    (hy : da.node y = some ny) (ho : ny.Check ≥ 0) :
    ∃ np l, da.node ny.Check = some np ∧ np.Value < 0 ∧ 0 ≤ Int.xor y np.base ∧
      Int.xor y np.base < 256 ∧ ring da ny.Check = some l ∧
      toByte (Int.xor y np.base) ∈ l := by
  have h := childOk_of_node hw hy
  unfold childOk childOkAt at h
  have ho' : ¬ ny.Check < 0 := by omega
  simp only [hy, ho', if_false] at h
  cases hp : da.node ny.Check with
  | none => simp [hp] at h
  | some np =>
    simp only [hp, Bool.and_eq_true, decide_eq_true_eq] at h
    obtain ⟨⟨⟨a, b⟩, c⟩, d⟩ := h
    cases hr : ring da ny.Check with
    | none => simp [hr] at d
    | some l =>
      simp only [hr, decide_eq_true_eq] at d
      exact ⟨np, l, rfl, a, b, c, rfl, d⟩

theorem ringFrom_end (da : Cedar) (base : Int) (fuel : Nat) :
    ringFrom da base fuel 0 = some [] := by
  cases fuel <;> simp [ringFrom]

theorem ringFrom_succ (da : Cedar) (base : Int) (fuel : Nat) {c : Byte} (hc : c ≠ 0)
    {x : Ninfo} (hx : da.ninfo (Int.xor base (ofByte c)) = some x) :
    ringFrom da base (fuel + 1) c = (ringFrom da base fuel x.Sibling).map fun l => c :: l := by
  simp [ringFrom, hc, hx]

theorem xor_zero_byte {base : Int} (hb : 0 ≤ base) : Int.xor base (ofByte 0) = base := by
  obtain ⟨n, rfl⟩ := Int.eq_ofNat_of_zero_le hb
  show Int.xor (n : Int) ((0 : Nat) : Int) = n
  rw [xor_ofNat, Nat.xor_zero]

/-- The ring of a parent whose first label has no sibling is that one label. -/
theorem ring_single {da : Cedar} {x s : Int} {nf ns : Node} {xf xt : Ninfo} {lab : Byte}
    (hnf : da.node x = some nf) (hv : nf.Value < 0) (hxf : da.ninfo x = some xf)
    (hs : s = Int.xor nf.base (ofByte lab)) (hch : xf.Child = lab)
    (hns : da.node s = some ns) (hck : ns.Check = x) (hxt : da.ninfo s = some xt)
    (hsib : xt.Sibling = 0) : ring da x = some [lab] := by
  have hb := base_nonneg hv
  unfold ring
  simp only [hnf, hxf]
  by_cases hl : lab = 0
  · subst hl
    rw [xor_zero_byte hb] at hs
    subst hs
    simp only [hch, if_true, hns, hck, hxt, Option.some_bind, hsib, ringFrom_end,
      Option.map_some']
  · have : ¬ xf.Child = 0 := by rw [hch]; exact hl
    simp only [this, if_false]
    rw [hch, show (256 : Nat) = 255 + 1 from rfl, ringFrom_succ da nf.base 255 hl (hs ▸ hxt),
      hsib, ringFrom_end]
    rfl

/-- A child that is the first label of its parent and has no sibling is the only
child of its parent. -/
theorem sole_child {da : Cedar} (hw : WellFormed da) {x s y : Int} {nf ns ny : Node}
    {xf xt : Ninfo} (hns : da.node s = some ns) (hck : ns.Check = x)
    (hnf : da.node x = some nf) (hxt : da.ninfo s = some xt) (hxf : da.ninfo x = some xf)
    (hsib : xt.Sibling = 0) (hch : xf.Child = toByte (Int.xor s nf.base))
    (hny : da.node y = some ny) (hyc : ny.Check = x) : y = s := by
  have hx0 : 0 ≤ x := idx_nonneg hnf
  obtain ⟨np, l, a1, a2, a3, a4, a5, a6⟩ := child_facts hw hns (by omega)
  rw [hck, hnf] at a1
  cases a1
  obtain ⟨np', l', c1, c2, c3, c4, c5, c6⟩ := child_facts hw hny (by omega)
  rw [hyc, hnf] at c1
  cases c1
  rw [hck] at a5
  rw [hyc, a5] at c5
  cases c5
  have hb := base_nonneg a2
  have hs := xor_label hb (idx_nonneg hns) a3 a4
  have hy := xor_label hb (idx_nonneg hny) c3 c4
  have hr := ring_single hnf a2 hxf hs.symm hch hns hck hxt hsib
  rw [a5] at hr
  cases hr
  simp only [List.mem_singleton] at c6
  rw [← hy, c6, hs]

/-! ### The released slots lie on the chain -/

theorem chain_parent_mem {da : Cedar} :
    ∀ (rest : List Int) (t s : Int) (ns : Node), ChainUp da t rest → s ∈ t :: rest → 0 < s →
      da.node s = some ns → ns.Check ∈ rest
  | [], t, s, ns, hc, hs, hpos, _ => by
    simp only [ChainUp] at hc
    simp only [List.mem_singleton] at hs
    omega
  | p :: rest, t, s, ns, hc, hs, hpos, hns => by
    simp only [ChainUp] at hc
    obtain ⟨_, ⟨nt, hnt, hp⟩, hc'⟩ := hc
    rcases List.mem_cons.mp hs with h | h
    · subst h
      rw [hns] at hnt
      cases hnt
      rw [hp]
      exact List.mem_cons_self _ _
    · exact List.mem_cons_of_mem _ (chain_parent_mem rest p s ns hc' h hpos hns)

theorem rel_mem_chain {da : Cedar} {t : Int} {rest : List Int} (hc : ChainUp da t rest)
    {s : Int} (h : Rel da t s) : s ∈ t :: rest := by
  induction h with
  | first => exact List.mem_cons_self _ _
  | up s ns nf xt xf _ hpos hns _ _ _ _ _ _ ih =>
    exact List.mem_cons_of_mem _ (chain_parent_mem rest t s ns hc ih hpos hns)

/-- A released slot other than the first one has a released child that is alone in
its ring. -/
theorem rel_inv {da : Cedar} {t x : Int} (h : Rel da t x) (hx : x ≠ t) :
    ∃ s ns nf xt xf, Rel da t s ∧ 0 < s ∧ da.node s = some ns ∧ ns.Check = x ∧
      da.node x = some nf ∧ da.ninfo s = some xt ∧ da.ninfo x = some xf ∧
      xt.Sibling = 0 ∧ xf.Child = toByte (Int.xor s nf.base) := by
  cases h with
  | first => exact absurd rfl hx
  | up s ns nf xt xf h1 h2 h3 h4 h5 h6 h7 h8 h9 =>
    exact ⟨s, ns, nf, xt, xf, h1, h2, h3, rfl, h4, h5, h6, h7, h8⟩

/-! ### `Get` before and after `Delete` -/

theorem node_exists_of_len {da da' : Cedar} (hl : da'.Array.length = da.Array.length)
    {s : Int} {n : Node} (h : da.node s = some n) : ∃ n', da'.node s = some n' :=
  idx_of_length_eq hl h

/-- An occupied slot after the call, or the root, is the same slot before it. -/
theorem final_back {da da' : Cedar} {t : Int} (hf : Final da da' t) {s : Int} {n' : Node}
    (hn : da'.node s = some n') (ho : n'.Check ≥ 0 ∨ s = 0) : da.node s = some n' := by
  obtain ⟨n, hdn⟩ := node_exists_of_len hf.len.symm hn
  by_cases hc : n.Check ≥ 0 ∨ s = 0
  · rcases hf.keep s n hdn hc with h | ⟨_, hpos, m, hm, hm2⟩
    · rw [h] at hn; cases hn; exact hdn
    · rw [hm] at hn; cases hn
      rcases ho with ho | ho <;> omega
  · have h1 : n.Check < 0 := by
      by_contra h; exact hc (Or.inl (by omega))
    have h2 : s ≠ 0 := fun h => hc (Or.inr h)
    obtain ⟨m, hm, hm2⟩ := hf.neg s n hdn h1 h2
    rw [hm] at hn; cases hn
    rcases ho with ho | ho
    · omega
    · exact absurd ho h2

theorem final_root {da da' : Cedar} {t : Int} (hf : Final da da' t) {n : Node}
    (h : da.node 0 = some n) : da'.node 0 = some n := by
  rcases hf.keep 0 n h (Or.inr rfl) with h' | ⟨_, hpos, _⟩
  · exact h'
  · omega

theorem jumpLoop_single {da : Cedar} {f : Int} {b : Byte} {nf nt : Node}
    (hf : da.node f = some nf) (hv : nf.Value < 0)
    (ht : da.node (Int.xor nf.base (ofByte b)) = some nt) (hc : nt.Check = f) :
    jumpLoop da [b] f f = some (Int.xor nf.base (ofByte b), none) := by
  have hv' : ¬ nf.Value ≥ 0 := by omega
  simp [jumpLoop, hf, hv', ht, hc]

/-- A jump after the call gives the result of the jump before it, unless it runs
into a released slot, where it fails. -/
theorem jump_final {da da' : Cedar} {t : Int} (hf : Final da da' t) :
    ∀ (k : List Byte) (f : Int) (r : Int × Option Err), da'.node f = da.node f →
      jumpLoop da k f f = some r →
      (jumpLoop da' k f f = some r ∧ (r.2 = none → da'.node r.1 = da.node r.1)) ∨
        ((∃ y e, jumpLoop da' k f f = some (y, some e)) ∧
          ∃ pre suf x, k = pre ++ suf ∧ pre ≠ [] ∧ jumpLoop da pre f f = some (x, none) ∧
            Rel da t x)
  | [], f, r, hst, h => by
    left
    simp only [jumpLoop, Option.some.injEq] at h ⊢
    subst h
    exact ⟨rfl, fun _ => hst⟩
  | b :: rest, f, r, hst, h => by
    simp only [jumpLoop] at h ⊢
    rw [hst]
    cases hnf : da.node f with
    | none => simp [hnf] at h
    | some nf =>
      simp only [hnf] at h ⊢
      by_cases hv : nf.Value ≥ 0
      · simp only [hv, if_true] at h ⊢
        left
        cases h
        exact ⟨rfl, fun h => by simp at h⟩
      · simp only [hv, if_false] at h ⊢
        cases hnt : da.node (Int.xor nf.base (ofByte b)) with
        | none => simp [hnt] at h
        | some nt =>
          simp only [hnt] at h
          obtain ⟨nt', hnt'⟩ := node_exists_of_len hf.len hnt
          simp only [hnt']
          have hf0 : 0 ≤ f := idx_nonneg hnf
          by_cases hc : nt.Check ≠ f
          · simp only [hc, ne_eq, not_false_eq_true, if_true] at h
            cases h
            left
            have : nt'.Check ≠ f := by
              intro hc'
              have := final_back hf hnt' (Or.inl (by omega))
              rw [hnt] at this
              cases this
              exact hc hc'
            simp [this]
          · simp only [hc, if_false] at h
            have hc0 : nt.Check = f := by simpa using hc
            rcases hf.keep _ nt hnt (Or.inl (by omega)) with hk | ⟨hrel, hpos, m, hm, hm2⟩
            · rw [hnt'] at hk
              cases hk
              simp only [hc, if_false]
              rcases jump_final hf rest _ r (by rw [hnt', hnt]) h with hl | ⟨he, pre, suf, x, h1, h2, h3, h4⟩
              · exact Or.inl hl
              · refine Or.inr ⟨he, b :: pre, suf, x, by rw [h1]; rfl, by simp, ?_, h4⟩
                simp only [jumpLoop, hnf, hv, if_false, hnt, hc]
                exact h3
            · rw [hnt'] at hm
              cases hm
              have : nt'.Check ≠ f := by omega
              simp only [this, ne_eq, not_false_eq_true, if_true]
              refine Or.inr ⟨⟨f, Err.ErrNoPath, rfl⟩, [b], rest, _, rfl, by simp, ?_, hrel⟩
              exact jumpLoop_single hnf (by omega) hnt hc0

/-- The value of a kept node after the call is its value before it, unless its
value slot was released, where `Value` fails. -/
theorem value_final {da da' : Cedar} {t : Int} (hf : Final da da' t) {x : Int}
    {r : Int × Option Err} (hst : da'.node x = da.node x) (h : Value da x = some r) :
    Value da' x = some r ∨
      (Value da' x = some (0, some Err.ErrNoValue) ∧
        ∃ n nb, da.node x = some n ∧ n.Value < 0 ∧ da.node n.base = some nb ∧
          nb.Check = x ∧ Rel da t n.base) := by
  unfold Value at h ⊢
  rw [hst]
  cases hn : da.node x with
  | none => simp [hn] at h
  | some n =>
    simp only [hn] at h ⊢
    by_cases hv : n.Value ≥ 0
    · simp only [hv, if_true] at h ⊢
      exact Or.inl h
    · simp only [hv, if_false] at h ⊢
      cases hnb : da.node n.base with
      | none => simp [hnb] at h
      | some nb =>
        simp only [hnb] at h
        obtain ⟨nb', hnb'⟩ := node_exists_of_len hf.len hnb
        simp only [hnb']
        have hx0 : 0 ≤ x := idx_nonneg hn
        by_cases hc : nb.Check = x ∧ nb.Value ≥ 0
        · rcases hf.keep _ nb hnb (Or.inl (by omega)) with hk | ⟨hrel, hpos, m, hm, hm2⟩
          · rw [hnb'] at hk
            cases hk
            exact Or.inl h
          · rw [hnb'] at hm
            cases hm
            have : ¬ (nb'.Check = x ∧ nb'.Value ≥ 0) := by
              intro hh; omega
            simp only [this, if_false]
            exact Or.inr ⟨trivial, n, nb, rfl, by omega, hnb, hc.1, hrel⟩
        · simp only [hc, if_false] at h
          left
          have : ¬ (nb'.Check = x ∧ nb'.Value ≥ 0) := by
            intro hh
            have := final_back hf hnb' (Or.inl (by omega))
            rw [hnb] at this
            cases this
            exact hc hh
          simp only [this, if_false]
          exact h

/-- `Get` after the call gives the result of `Get` before it, unless it runs into
a released slot, where it fails. -/
theorem get_final {da da' : Cedar} {t : Int} (hf : Final da da' t) {k : List Byte}
    {r : Int × Option Err} (h : Get da k = some r) :
    Get da' k = some r ∨
      ((∃ e, Get da' k = some (0, some e)) ∧
        ((∃ pre suf x, k = pre ++ suf ∧ pre ≠ [] ∧ jumpLoop da pre 0 0 = some (x, none) ∧
            Rel da t x) ∨
          ∃ x n nb, jumpLoop da k 0 0 = some (x, none) ∧ da.node x = some n ∧ n.Value < 0 ∧
            da.node n.base = some nb ∧ nb.Check = x ∧ Rel da t n.base)) := by
  unfold Get Jump at h ⊢
  cases hj : jumpLoop da k 0 0 with
  | none => simp [hj] at h
  | some q =>
    obtain ⟨x, oe⟩ := q
    have hroot : da'.node 0 = da.node 0 := by
      cases h0 : da.node 0 with
      | none =>
        cases h0' : da'.node 0 with
        | none => rfl
        | some m =>
          obtain ⟨m', hm'⟩ := node_exists_of_len hf.len.symm h0'
          rw [h0] at hm'
          cases hm'
      | some n => exact final_root hf h0
    rcases jump_final hf k 0 (x, oe) hroot hj with ⟨hl, hs⟩ | ⟨⟨y, e, he⟩, hw⟩
    · rw [hl]
      cases oe with
      | some err =>
        simp only [hj] at h
        exact Or.inl h
      | none =>
        simp only [hj] at h
        simp only
        rcases value_final hf (hs rfl) h with hv | ⟨hv, n, nb, a1, a2, a3, a4, a5⟩
        · exact Or.inl hv
        · exact Or.inr ⟨⟨_, hv⟩, Or.inr ⟨x, n, nb, rfl, a1, a2, a3, a4, a5⟩⟩
    · rw [he]
      exact Or.inr ⟨⟨e, rfl⟩, Or.inl hw⟩

/-! ### No other key runs through a released slot -/

/-- The label of a node that is the base of its parent is 0. -/
theorem zero_label {da : Cedar} {init : List Byte} {b : Byte} {s : Int} {ns nf : Node}
    (hj : jumpLoop da (init ++ [b]) 0 0 = some (s, none)) (hns : da.node s = some ns)
    (hnf : da.node ns.Check = some nf) (hs : s = nf.base) : b = 0 := by
  obtain ⟨p, nf', nt', _, h2, h3, h4, h5, h6⟩ := jumpLoop_snoc_ok init hj
  rw [hns] at h5
  cases h5
  rw [h6, h2] at hnf
  cases hnf
  rw [hs] at h4
  exact xor_ofByte_eq_self (base_nonneg h3) h4.symm

theorem nonempty_snoc {α : Type} {l : List α} (h : l ≠ []) : ∃ init b, l = init ++ [b] := by
  rcases List.eq_nil_or_concat l with h' | ⟨init, b, h'⟩
  · exact absurd h' h
  · exact ⟨init, b, by rw [h', List.concat_eq_append]⟩

/-- A released slot is the node of a non-empty prefix of the deleted key, or the
value slot of the key. -/
theorem rel_on_key {da : Cedar} (hw : WellFormed da) {k : List Byte} {to_ t s : Int}
    {nt : Node} (hk : jumpLoop da k 0 0 = some (to_, none)) (hnt : da.node to_ = some nt)
    (hcase : DeleteStart da to_ nt t) (hrel : Rel da t s) (hpos : 0 < s) :
    (∃ init b suf, k = init ++ b :: suf ∧ jumpLoop da (init ++ [b]) 0 0 = some (s, none)) ∨
      (nt.Value < 0 ∧ s = nt.base ∧ ∃ nb, da.node s = some nb ∧ nb.Check = to_) := by
  obtain ⟨rest, hc, _, _, hmem⟩ := chain_of_jump hw.root k to_ hk
  have onk : s ∈ to_ :: rest →
      ∃ init b suf, k = init ++ b :: suf ∧ jumpLoop da (init ++ [b]) 0 0 = some (s, none) := by
    intro hs
    obtain ⟨pre, suf, hk', hj⟩ := hmem s hs
    have hne : pre ≠ [] := by
      intro h
      subst h
      have := jumpLoop_nil_ok hj
      omega
    obtain ⟨init, b, rfl⟩ := nonempty_snoc hne
    exact ⟨init, b, suf, by rw [hk']; simp, hj⟩
  rcases hcase with ⟨ht, _⟩ | ⟨ht, hv, nb, hnb, hck⟩
  · subst ht
    exact Or.inl (onk (rel_mem_chain hc hrel))
  · subst ht
    have hv0 : 0 ≤ nt.base := base_nonneg hv
    have ht0 : 0 ≤ to_ := idx_nonneg hnt
    have hvpos : 0 < nt.base := by
      have : nt.base ≠ 0 := by
        intro h0
        rw [h0] at hnb
        have := hw.root nb (by simpa using hnb)
        omega
      omega
    have hc' : ChainUp da nt.base (to_ :: rest) := by
      simp only [ChainUp]
      exact ⟨hvpos, ⟨nb, hnb, hck⟩, hc⟩
    rcases List.mem_cons.mp (rel_mem_chain hc' hrel) with h | h
    · exact Or.inr ⟨hv, h, nb, by rw [h]; exact hnb, hck⟩
    · exact Or.inl (onk h)

/-- The path of a key other than the deleted one, on which `Get` returns a value,
does not run through a released slot. -/
theorem no_rel_on_path {da : Cedar} (hw : WellFormed da) {k k' : List Byte} {to_ t : Int}
    {nt : Node} (hk : jumpLoop da k 0 0 = some (to_, none)) (hnt : da.node to_ = some nt)
    (hcase : DeleteStart da to_ nt t) (hkz : ∀ b ∈ k, b ≠ 0) (hkz' : ∀ b ∈ k', b ≠ 0)
    (hne : k' ≠ k) :
    ∀ (suf pre : List Byte) (x id' : Int) (v : Int), k' = pre ++ suf → pre ≠ [] →
      jumpLoop da pre 0 0 = some (x, none) → Rel da t x →
      jumpLoop da suf x x = some (id', none) → Value da id' = some (v, none) → False := by
  intro suf
  induction suf with
  | nil =>
    intro pre x id' v hk' hpre hj hrel hsuf hval
    have hid := jumpLoop_nil_ok hsuf
    subst hid
    simp only [List.append_nil] at hk'
    subst hk'
    obtain ⟨init, b, hib⟩ := nonempty_snoc hpre
    have hpos : 0 < id' := jump_pos hw.root (hib ▸ hj)
    by_cases hxt : id' = t
    · rcases hcase with ⟨ht, _⟩ | ⟨ht, hv, nb, hnb, hck⟩
      · rw [hxt, ht] at hj
        exact hne (jump_inj hw.root _ _ _ hj hk)
      · have hb0 : b = 0 :=
          zero_label (hib ▸ hj) (by rw [hxt, ht]; exact hnb) (by rw [hck]; exact hnt)
            (by rw [hxt, ht])
        exact hkz' b (by rw [hib]; simp) hb0
    · obtain ⟨s, ns, nf, xt, xf, r1, r2, r3, r4, r5, r6, r7, r8, r9⟩ := rel_inv hrel hxt
      obtain ⟨np, l, a1, a2, _⟩ := child_facts hw r3 (by rw [r4]; omega)
      rw [r4, r5] at a1
      cases a1
      -- the value of `id'` is in its value slot, which is the child `s`
      unfold Value at hval
      have hv' : ¬ nf.Value ≥ 0 := by omega
      simp only [r5, hv', if_false] at hval
      cases hnb : da.node nf.base with
      | none => simp [hnb] at hval
      | some nb =>
        simp only [hnb] at hval
        by_cases hc : nb.Check = id' ∧ nb.Value ≥ 0
        · have hsb : nf.base = s := sole_child hw r3 r4 r5 r6 r7 r8 r9 hnb hc.1
          rcases rel_on_key hw hk hnt hcase r1 r2 with ⟨init2, b2, suf2, e1, e2⟩ | ⟨_, e1, nb2, e2, e3⟩
          · have hb0 : b2 = 0 := zero_label e2 r3 (by rw [r4]; exact r5) hsb.symm
            exact hkz b2 (by rw [e1]; simp) hb0
          · rw [r3] at e2
            cases e2
            rw [r4] at e3
            rw [e3] at hj
            exact hne (jump_inj hw.root _ _ _ hj hk)
        · simp [hc] at hval
  | cons b suf ih =>
    intro pre x id' v hk' hpre hj hrel hsuf hval
    obtain ⟨nf, ny, hnf, hv, hny, hyc, hrest⟩ := jumpLoop_cons_ok hsuf
    by_cases hxt : x = t
    · rcases hcase with ⟨ht, hv0⟩ | ⟨ht, hv0, nb, hnb, hck⟩
      · rw [hxt, ht, hnt] at hnf
        cases hnf
        omega
      · obtain ⟨init, c, hib⟩ := nonempty_snoc hpre
        have hc0 : c = 0 :=
          zero_label (hib ▸ hj) (by rw [hxt, ht]; exact hnb) (by rw [hck]; exact hnt)
            (by rw [hxt, ht])
        exact hkz' c (by rw [hk', hib]; simp) hc0
    · obtain ⟨s, ns, nf', xt, xf, r1, r2, r3, r4, r5, r6, r7, r8, r9⟩ := rel_inv hrel hxt
      rw [hnf] at r5
      cases r5
      have hys : Int.xor nf.base (ofByte b) = s := sole_child hw r3 r4 hnf r6 r7 r8 r9 hny hyc
      have hj' : jumpLoop da (pre ++ [b]) 0 0 = some (s, none) := by
        have h1 := jumpLoop_single hnf hv hny hyc
        rw [hys] at h1
        exact jumpLoop_append_mk pre [b] hj h1 (by simp)
      rw [hys] at hrest
      exact ih (pre ++ [b]) s id' v (by rw [hk']; simp) (by simp) hj' r1 hrest hval

/-- The value slot of a key other than the deleted one is not a released slot. -/
theorem no_rel_value_slot {da : Cedar} (hw : WellFormed da) {k k' : List Byte} {to_ t x : Int}
    {nt n nb : Node} (hk : jumpLoop da k 0 0 = some (to_, none)) (hnt : da.node to_ = some nt)
    (hcase : DeleteStart da to_ nt t) (hkz : ∀ b ∈ k, b ≠ 0) (hne : k' ≠ k)
    (hj : jumpLoop da k' 0 0 = some (x, none)) (hn : da.node x = some n) (hv : n.Value < 0)
    (hnb : da.node n.base = some nb) (hck : nb.Check = x) (hrel : Rel da t n.base) : False := by
  have hx0 : 0 ≤ x := idx_nonneg hn
  have hpos : 0 < n.base := by
    have h0 : 0 ≤ n.base := base_nonneg hv
    have : n.base ≠ 0 := by
      intro h0
      rw [h0] at hnb
      have := hw.root nb (by simpa using hnb)
      omega
    omega
  rcases rel_on_key hw hk hnt hcase hrel hpos with ⟨init, b, suf, e1, e2⟩ | ⟨_, e1, nb2, e2, e3⟩
  · have hb0 : b = 0 := zero_label e2 hnb (by rw [hck]; exact hn) rfl
    exact hkz b (by rw [e1]; simp) hb0
  · rw [hnb] at e2
    cases e2
    rw [hck] at e3
    rw [e3] at hj
    exact hne (jump_inj hw.root _ _ _ hj hk)

/-! ### `Delete` of a present key -/

theorem loopInv_start {da : Cedar} (hw : WellFormed da) : LoopInv da da [] := by
  refine ⟨rfl, fun s n _ h _ => h, ?_, fun s n h hc _ => ⟨n, h, hc⟩, ?_, hw.heads⟩
  · intro s hs; simp at hs
  · intro s hs; simp at hs

/-- The slot array after `Delete` of a present key. -/
theorem delete_final {da da' : Cedar} (hw : WellFormed da) {k : List Byte} {fuel : Nat}
    (hpres : ∃ v, Get da k = some (v, none)) (hd : Delete fuel da k = some (da', none)) :
    ∃ to_ nt t, jumpLoop da k 0 0 = some (to_, none) ∧ da.node to_ = some nt ∧
      DeleteStart da to_ nt t ∧ Final da da' t := by
  obtain ⟨v, hget⟩ := hpres
  unfold Get Jump at hget
  unfold Delete Jump at hd
  cases hj : jumpLoop da k 0 0 with
  | none => simp [hj] at hget
  | some q =>
    obtain ⟨to_, oe⟩ := q
    cases oe with
    | some err => simp [hj] at hget
    | none =>
      simp only [hj] at hget hd
      cases hnt : da.node to_ with
      | none => simp [hnt] at hd
      | some nt =>
        simp only [hnt] at hd
        obtain ⟨rest, hc, hnd, _, hmem⟩ := chain_of_jump hw.root k to_ hj
        unfold Value at hget
        simp only [hnt] at hget
        by_cases hv : nt.Value ≥ 0
        · have hv' : ¬ nt.Value < 0 := by omega
          simp only [hv', if_false, Option.map_eq_some'] at hd
          obtain ⟨d, hdl, hd2⟩ := hd
          simp only [Prod.mk.injEq, and_true] at hd2
          subst hd2
          refine ⟨to_, nt, to_, rfl, hnt, Or.inl ⟨rfl, hv⟩, ?_⟩
          exact deleteLoop_final da to_ rest to_ [] da fuel d hc (by simpa using hnd)
            (loopInv_start hw) (fun _ _ _ => rfl) (fun _ => Rel.first)
            (fun s hs => by simp at hs) hdl
        · have hv' : nt.Value < 0 := by omega
          simp only [hv, if_false] at hget
          simp only [hv', if_true] at hd
          cases hnb : da.node nt.base with
          | none => simp [hnb] at hget
          | some nb =>
            simp only [hnb] at hget
            by_cases hcv : nb.Check = to_ ∧ nb.Value ≥ 0
            · simp only [hnb, Option.map_some', hcv.1, if_true, Option.map_eq_some'] at hd
              obtain ⟨d, hdl, hd2⟩ := hd
              simp only [Prod.mk.injEq, and_true] at hd2
              subst hd2
              have ht0 : 0 ≤ to_ := idx_nonneg hnt
              have hvpos : 0 < nt.base := by
                have h0 : 0 ≤ nt.base := base_nonneg hv'
                have : nt.base ≠ 0 := by
                  intro h0
                  rw [h0] at hnb
                  have := hw.root nb (by simpa using hnb)
                  omega
                omega
              have hc' : ChainUp da nt.base (to_ :: rest) := by
                simp only [ChainUp]
                exact ⟨hvpos, ⟨nb, hnb, hcv.1⟩, hc⟩
              have hnd' : (nt.base :: to_ :: rest).Nodup := by
                refine List.nodup_cons.mpr ⟨?_, hnd⟩
                intro hin
                obtain ⟨pre, suf, hk', hjp⟩ := hmem nt.base hin
                have hne : pre ≠ [] := by
                  intro h
                  subst h
                  have := jumpLoop_nil_ok hjp
                  omega
                obtain ⟨init, b, rfl⟩ := nonempty_snoc hne
                obtain ⟨p, nf, nt', a1, a2, a3, a4, a5, a6⟩ := jumpLoop_snoc_ok init hjp
                rw [hnb] at a5
                cases a5
                rw [hcv.1] at a6
                subst a6
                have := jump_inj hw.root _ _ _ a1 hj
                subst this
                have hl := congrArg List.length hk'
                simp at hl
              refine ⟨to_, nt, nt.base, rfl, hnt, Or.inr ⟨rfl, hv', nb, hnb, hcv.1⟩, ?_⟩
              exact deleteLoop_final da nt.base (to_ :: rest) nt.base [] da fuel d hc'
                (by simpa using hnd') (loopInv_start hw) (fun _ _ _ => rfl)
                (fun _ => Rel.first) (fun s hs => by simp at hs) hdl
            · simp [hcv] at hget

/-- `Delete` of a present key keeps the value of every other key, and a key
without a value stays without one; the keys have no byte 0. -/
theorem delete_frame {da da' : Cedar} (hw : WellFormed da) {k k' : List Byte} {fuel : Nat}
    (hkz : ∀ b ∈ k, b ≠ 0) (hkz' : ∀ b ∈ k', b ≠ 0) (hne : k' ≠ k)
    (hpres : ∃ v, Get da k = some (v, none)) (hd : Delete fuel da k = some (da', none)) :
    (∀ v, Get da k' = some (v, none) → Get da' k' = some (v, none)) ∧
      (∀ e, Get da k' = some (0, some e) → ∃ e', Get da' k' = some (0, some e')) := by
  obtain ⟨to_, nt, t, hj, hnt, hcase, hf⟩ := delete_final hw hpres hd
  constructor
  · intro v hg
    rcases get_final hf hg with h | ⟨_, hbad⟩
    · exact h
    · exfalso
      unfold Get Jump at hg
      cases hj' : jumpLoop da k' 0 0 with
      | none => simp [hj'] at hg
      | some q =>
        obtain ⟨x, oe⟩ := q
        cases oe with
        | some err => simp [hj'] at hg
        | none =>
          simp only [hj'] at hg
          rcases hbad with ⟨pre, suf, y, h1, h2, h3, h4⟩ | ⟨y, n, nb, h1, h2, h3, h4, h5, h6⟩
          · rw [h1] at hj'
            obtain ⟨y', c1, c2⟩ := jumpLoop_append_ok pre suf hj'
            rw [h3] at c1
            cases c1
            exact no_rel_on_path hw hj hnt hcase hkz hkz' hne suf pre y x v h1 h2 h3 h4 c2 hg
          · rw [hj'] at h1
            cases h1
            exact no_rel_value_slot hw hj hnt hcase hkz hne hj' h2 h3 h4 h5 h6
  · intro e hg
    rcases get_final hf hg with h | ⟨h, _⟩
    · exact ⟨e, h⟩
    · exact h

/-! ### The class lists stay linked -/

theorem linksP_of_ok {da : Cedar} (h : linksOk da = true) : LinksP da := by
  unfold linksOk at h
  simp only [Bool.and_eq_true, List.all_eq_true, decide_eq_true_eq] at h
  obtain ⟨⟨⟨⟨⟨⟨hb, a1⟩, a2⟩, a3⟩, a4⟩, a5⟩, a6⟩ := h
  refine ⟨?_, ⟨a1, a2⟩, ⟨a3, a4⟩, ⟨a5, a6⟩⟩
  intro b hbm
  obtain ⟨⟨⟨c1, c2⟩, c3⟩, c4⟩ := hb b hbm
  exact ⟨⟨c1, c2⟩, ⟨c3, c4⟩⟩

theorem idx_exists {α : Type} {xs : List α} {i : Int} (h : InRange xs.length i) :
    ∃ x, idx xs i = some x := by
  obtain ⟨h0, h1⟩ := h
  unfold idx
  have : ¬ i < 0 := by omega
  simp only [this, if_false]
  have hlt : i.toNat < xs.length := by omega
  exact ⟨xs[i.toNat], List.getElem?_eq_getElem hlt⟩

theorem upd_exists {α : Type} {xs : List α} {i : Int} (v : α) (h : InRange xs.length i) :
    ∃ ys, upd xs i v = some ys := by
  obtain ⟨h0, h1⟩ := h
  unfold upd
  have : ¬ i < 0 := by omega
  have h2 : i.toNat < xs.length := by omega
  simp [this, h2]

theorem inRange_of_idx {α : Type} {xs : List α} {i : Int} {x : α} (h : idx xs i = some x) :
    InRange xs.length i := by
  have h0 := idx_nonneg h
  have h1 := idx_lt_length h
  exact ⟨h0, by omega⟩

theorem setBlock_total {da : Cedar} {i : Int} (b : Block) (hl : LinksP da)
    (hi : InRange da.Blocks.length i) (hp : InRange da.Blocks.length b.Prev)
    (hn : InRange da.Blocks.length b.Next) :
    ∃ da', da.setBlock i b = some da' ∧ LinksP da' ∧
      da'.Blocks.length = da.Blocks.length ∧ da'.BheadF = da.BheadF ∧
      da'.BheadC = da.BheadC ∧ da'.BheadO = da.BheadO := by
  obtain ⟨ys, hys⟩ := upd_exists b hi
  refine ⟨{ da with Blocks := ys }, by simp [Cedar.setBlock, hys], ?_, upd_length hys,
    rfl, rfl, rfl⟩
  have hlen : ys.length = da.Blocks.length := upd_length hys
  refine ⟨?_, by simpa [hlen] using hl.2.1, by simpa [hlen] using hl.2.2.1,
    by simpa [hlen] using hl.2.2.2⟩
  intro b' hb'
  simp only [hlen]
  obtain ⟨j, hj, rfl⟩ := List.mem_iff_getElem.mp hb'
  have hjj : idx ys (j : Int) = some ys[j] := by
    unfold idx
    simp [hj]
  by_cases hji : (j : Int) = i
  · rw [← hji] at hys
    rw [idx_upd_self hys] at hjj
    cases hjj
    exact ⟨hp, hn⟩
  · rw [idx_upd_other hys hji] at hjj
    have : ys[j] ∈ da.Blocks := by
      unfold idx at hjj
      simp only [Int.toNat_ofNat] at hjj
      have h0 : ¬ ((j : Int) < 0) := by omega
      simp only [h0, if_false] at hjj
      exact List.mem_iff_getElem?.mpr ⟨_, hjj⟩
    exact hl.1 _ this

theorem setHead_links {da : Cedar} (c : Cls) (v : Int) (hl : LinksP da)
    (hv : InRange da.Blocks.length v) :
    LinksP (da.setHead c v) ∧ (da.setHead c v).Blocks.length = da.Blocks.length := by
  cases c
  · exact ⟨⟨hl.1, hv, hl.2.2.1, hl.2.2.2⟩, rfl⟩
  · exact ⟨⟨hl.1, hl.2.1, hv, hl.2.2.2⟩, rfl⟩
  · exact ⟨⟨hl.1, hl.2.1, hl.2.2.1, hv⟩, rfl⟩

theorem head_inRange {da : Cedar} (hl : LinksP da) (c : Cls) :
    InRange da.Blocks.length (da.head c) := by
  cases c
  · exact hl.2.1
  · exact hl.2.2.1
  · exact hl.2.2.2

theorem block_links {da : Cedar} (hl : LinksP da) {i : Int} {b : Block}
    (h : da.block i = some b) :
    InRange da.Blocks.length b.Prev ∧ InRange da.Blocks.length b.Next :=
  hl.1 b (mem_blocks_iff.mpr ⟨i, h⟩)

theorem popBlock_total {da : Cedar} {bi : Int} (c : Cls) (last : Bool) (hl : LinksP da)
    (hi : InRange da.Blocks.length bi) :
    ∃ da', popBlock da bi c last = some da' ∧ LinksP da' ∧
      da'.Blocks.length = da.Blocks.length := by
  unfold popBlock
  cases last with
  | true =>
    have h0 : InRange da.Blocks.length 0 := ⟨le_refl 0, by have := hi.1; have := hi.2; omega⟩
    exact ⟨_, by simp, (setHead_links c 0 hl h0).1, (setHead_links c 0 hl h0).2⟩
  | false =>
    obtain ⟨b, hb⟩ := idx_exists hi
    have hb' : da.block bi = some b := hb
    obtain ⟨hbp, hbn⟩ := block_links hl hb'
    obtain ⟨p, hp⟩ := idx_exists hbp
    have hp' : da.block b.Prev = some p := hp
    obtain ⟨hpp, _⟩ := block_links hl hp'
    obtain ⟨da1, h1, l1, n1, _⟩ :=
      setBlock_total { p with Next := b.Next } hl hbp hpp hbn
    obtain ⟨n, hn⟩ := idx_exists (n1 ▸ hbn)
    have hn' : da1.block b.Next = some n := hn
    obtain ⟨_, hnn⟩ := block_links l1 hn'
    obtain ⟨da2, h2, l2, n2, _⟩ :=
      setBlock_total { n with Prev := b.Prev } l1 (n1 ▸ hbn) (n1 ▸ hbp) hnn
    simp only [Bool.false_eq_true, if_false, bind, Option.bind_eq_bind, hb',
      Option.some_bind, hp', h1, hn', h2]
    by_cases hh : bi = da2.head c
    · simp only [hh, if_true]
      have := setHead_links c (b.Next) l2 (by rw [n2, n1]; exact hbn)
      exact ⟨_, rfl, this.1, by rw [this.2, n2, n1]⟩
    · simp only [hh, if_false]
      exact ⟨_, rfl, l2, by rw [n2, n1]⟩

theorem pushBlock_total {da : Cedar} {bi : Int} (c : Cls) (empty : Bool) (hl : LinksP da)
    (hi : InRange da.Blocks.length bi) :
    ∃ da', pushBlock da bi c empty = some da' ∧ LinksP da' ∧
      da'.Blocks.length = da.Blocks.length := by
  unfold pushBlock
  obtain ⟨b, hb⟩ := idx_exists hi
  have hb' : da.block bi = some b := hb
  cases empty with
  | true =>
    obtain ⟨da1, h1, l1, n1, _⟩ := setBlock_total { b with Prev := bi, Next := bi } hl hi hi hi
    simp only [if_true, bind, Option.bind_eq_bind, hb', Option.some_bind, h1]
    have := setHead_links c (bi) l1 (by rw [n1]; exact hi)
    exact ⟨_, rfl, this.1, by rw [this.2, n1]⟩
  | false =>
    have hh := head_inRange hl c
    obtain ⟨hb0, hhb⟩ := idx_exists hh
    have hhb' : da.block (da.head c) = some hb0 := hhb
    obtain ⟨htail, _⟩ := block_links hl hhb'
    obtain ⟨da1, h1, l1, n1, f1, c1, o1⟩ :=
      setBlock_total { b with Prev := hb0.Prev, Next := da.head c } hl hi htail hh
    obtain ⟨hb1, hhb1⟩ := idx_exists (n1 ▸ hh)
    have hhb1' : da1.block (da.head c) = some hb1 := hhb1
    obtain ⟨_, hb1n⟩ := block_links l1 hhb1'
    obtain ⟨da2, h2, l2, n2, _⟩ :=
      setBlock_total { hb1 with Prev := bi } l1 (n1 ▸ hh) (n1 ▸ hi) hb1n
    obtain ⟨tb, htb⟩ := idx_exists (n2 ▸ n1 ▸ htail)
    have htb' : da2.block hb0.Prev = some tb := htb
    obtain ⟨htp, _⟩ := block_links l2 htb'
    obtain ⟨da3, h3, l3, n3, _⟩ :=
      setBlock_total { tb with Next := bi } l2 (n2 ▸ n1 ▸ htail) htp (n2 ▸ n1 ▸ hi)
    simp only [Bool.false_eq_true, if_false, bind, Option.bind_eq_bind, hhb',
      Option.some_bind, hb', h1, hhb1', h2, htb', h3]
    have := setHead_links c (bi) l3 (by rw [n3, n2, n1]; exact hi)
    exact ⟨_, rfl, this.1, by rw [this.2, n3, n2, n1]⟩

theorem transferBlock_total {da : Cedar} {bi : Int} (cin cout : Cls) (hl : LinksP da)
    (hi : InRange da.Blocks.length bi) :
    ∃ da', transferBlock da bi cin cout = some da' ∧ LinksP da' ∧
      da'.Blocks.length = da.Blocks.length := by
  unfold transferBlock
  obtain ⟨b, hb⟩ := idx_exists hi
  have hb' : da.block bi = some b := hb
  obtain ⟨da1, h1, l1, n1⟩ := popBlock_total cin (decide (bi = b.Next)) hl hi
  obtain ⟨b1, hb1⟩ := idx_exists (n1 ▸ hi)
  have hb1' : da1.block bi = some b1 := hb1
  obtain ⟨da2, h2, l2, n2⟩ :=
    pushBlock_total cout (decide (da1.head cout = 0 ∧ b1.Num ≠ 0)) l1 (n1 ▸ hi)
  simp only [bind, Option.bind_eq_bind, hb', Option.some_bind, h1, hb1', h2]
  exact ⟨da2, rfl, l2, by rw [n2, n1]⟩

/-! ### The release of a slot succeeds -/

theorem setNode_total (da : Cedar) {i : Int} (n : Node) (hi : InRange da.Array.length i) :
    ∃ da', da.setNode i n = some da' ∧ (LinksP da → LinksP da') ∧
      (SizesOk da → SizesOk da') ∧ da'.Array.length = da.Array.length ∧
      da'.Blocks = da.Blocks ∧ da'.MaxTrial = da.MaxTrial := by
  obtain ⟨ys, hys⟩ := upd_exists n hi
  refine ⟨{ da with Array := ys }, by simp [Cedar.setNode, hys], fun h => h, ?_,
    upd_length hys, rfl, rfl⟩
  intro hs
  exact ⟨by rw [hs.1]; exact (upd_length hys).symm, by
    show ys.length ≤ _
    rw [upd_length hys]; exact hs.2⟩

theorem setCheck_total (da : Cedar) {i : Int} (c : Int) (hi : InRange da.Array.length i) :
    ∃ da', da.setCheck i c = some da' ∧ (LinksP da → LinksP da') ∧
      (SizesOk da → SizesOk da') ∧ da'.Array.length = da.Array.length ∧
      da'.Blocks = da.Blocks ∧ da'.MaxTrial = da.MaxTrial := by
  obtain ⟨n, hn⟩ := idx_exists hi
  have hn' : da.node i = some n := hn
  obtain ⟨da', h, r⟩ := setNode_total da { n with Check := c } hi
  exact ⟨da', by simp [Cedar.setCheck, hn', h], r⟩

theorem setValue_total (da : Cedar) {i : Int} (v : Int) (hi : InRange da.Array.length i) :
    ∃ da', da.setValue i v = some da' ∧ (LinksP da → LinksP da') ∧
      (SizesOk da → SizesOk da') ∧ da'.Array.length = da.Array.length ∧
      da'.Blocks = da.Blocks ∧ da'.MaxTrial = da.MaxTrial := by
  obtain ⟨n, hn⟩ := idx_exists hi
  have hn' : da.node i = some n := hn
  obtain ⟨da', h, r⟩ := setNode_total da { n with Value := v } hi
  exact ⟨da', by simp [Cedar.setValue, hn', h], r⟩

theorem setNinfo_total (da : Cedar) {i : Int} (x : Ninfo) (hi : InRange da.Ninfos.length i) :
    ∃ da', da.setNinfo i x = some da' ∧ (LinksP da → LinksP da') ∧
      (SizesOk da → SizesOk da') := by
  obtain ⟨ys, hys⟩ := upd_exists x hi
  refine ⟨{ da with Ninfos := ys }, by simp [Cedar.setNinfo, hys], fun h => h, ?_⟩
  intro hs
  exact ⟨by
    show ys.length = _
    rw [upd_length hys]; exact hs.1, hs.2⟩

theorem sizesOk_of_sameSlots {d d' : Cedar} (hs : SizesOk d) (h : SameSlots d d')
    (hn : d'.Blocks.length = d.Blocks.length) : SizesOk d' := by
  unfold SizesOk
  rw [h.1, h.2.1, hn]
  exact hs

theorem sizesOk_setBlock {d d' : Cedar} {i : Int} {b : Block} (hs : SizesOk d)
    (h : d.setBlock i b = some d') (hn : d'.Blocks.length = d.Blocks.length) : SizesOk d' := by
  obtain ⟨_, _, a, c⟩ := setBlock_spec h
  unfold SizesOk
  rw [a, c, hn]
  exact hs

theorem block_inRange {da : Cedar} (hs : SizesOk da) {e : Int} {ne : Node}
    (hne : da.node e = some ne) : InRange da.Blocks.length (e / 256) := by
  have h0 := idx_nonneg hne
  have h1 := idx_lt_length hne
  have h2 := hs.2
  constructor
  · omega
  · omega

theorem pushEnode_total {cur : Cedar} {e : Int} {ne : Node} (hl : LinksP cur)
    (hs : SizesOk cur) (hh : HeadsOk cur) (hne : cur.node e = some ne) :
    ∃ cur', pushEnode cur e = some cur' ∧ LinksP cur' ∧ SizesOk cur' := by
  have hbi := block_inRange hs hne
  have hei : InRange cur.Array.length e := inRange_of_idx hne
  obtain ⟨b, hb⟩ := idx_exists hbi
  have hb' : cur.block (e / 256) = some b := hb
  obtain ⟨hbp, hbn⟩ := block_links hl hb'
  -- the state `da2` after the slot is linked and the class of the block updated
  have mid : ∃ da2, (if b.Num + 1 = 1 then
        (cur.setBlock (e / 256) { b with Num := b.Num + 1, Ehead := e }).bind fun d1 =>
          (d1.setNode e { Value := -e, Check := -e }).bind fun d2 =>
            if e / 256 ≠ 0 then transferBlock d2 (e / 256) Cls.F Cls.C else some d2
      else
        (cur.node b.Ehead).bind fun np =>
          (cur.setNode e { Value := -b.Ehead, Check := - -np.Check }).bind fun d1 =>
            (d1.setCheck b.Ehead (-e)).bind fun d2 =>
              (d2.setValue (-np.Check) (-e)).bind fun d3 =>
                (d3.setBlock (e / 256) { b with Num := b.Num + 1 }).bind fun d4 =>
                  (if (b.Num + 1 = 2 ∨ b.Trial = cur.MaxTrial) ∧ e / 256 ≠ 0 then
                      transferBlock d4 (e / 256) Cls.C Cls.O
                    else some d4).bind fun d5 =>
                    (d5.block (e / 256)).bind fun b2 =>
                      d5.setBlock (e / 256) { b2 with Trial := 0 }) = some da2 ∧
      LinksP da2 ∧ SizesOk da2 ∧ da2.Blocks.length = cur.Blocks.length ∧
      da2.Array.length = cur.Array.length := by
    by_cases hnum : b.Num + 1 = 1
    · rw [if_pos hnum]
      obtain ⟨d1, h1, l1, n1, _⟩ :=
        setBlock_total { b with Num := b.Num + 1, Ehead := e } hl hbi hbp hbn
      have s1 := sizesOk_setBlock hs h1 n1
      have a1 : d1.Array.length = cur.Array.length := by rw [(setBlock_spec h1).2.2.1]
      obtain ⟨d2, h2, l2, s2, a2, k2, _⟩ :=
        setNode_total d1 { Value := -e, Check := -e } (a1 ▸ hei)
      rw [h1, Option.some_bind, h2, Option.some_bind]
      by_cases hz : e / 256 ≠ 0
      · rw [if_pos hz]
        have hi2 : InRange d2.Blocks.length (e / 256) := by rw [k2, n1]; exact hbi
        obtain ⟨d3, h3, l3, n3⟩ := transferBlock_total Cls.F Cls.C (l2 l1) hi2
        exact ⟨d3, h3, l3, sizesOk_of_sameSlots (s2 s1) (transferBlock_sameSlots h3) n3,
          by rw [n3, k2, n1], by rw [(transferBlock_sameSlots h3).1, a2, a1]⟩
      · rw [if_neg hz]
        exact ⟨d2, rfl, l2 l1, s2 s1, by rw [k2, n1], by rw [a2, a1]⟩
    · rw [if_neg hnum]
      have hb0 : b.Num ≠ 0 := by omega
      obtain ⟨nh, nn, r1, _, _, r4, _⟩ :=
        ringHeadOk_iff.mp (hh b (mem_blocks_iff.mpr ⟨_, hb'⟩) hb0)
      obtain ⟨d1, h1, l1, s1, a1, k1, m1⟩ :=
        setNode_total cur { Value := -b.Ehead, Check := - -nh.Check } hei
      obtain ⟨d2, h2, l2, s2, a2, k2, m2⟩ :=
        setCheck_total d1 (-e) (a1 ▸ inRange_of_idx r1)
      obtain ⟨d3, h3, l3, s3, a3, k3, m3⟩ :=
        setValue_total d2 (-e) (a2 ▸ a1 ▸ inRange_of_idx r4)
      have kb : d3.Blocks.length = cur.Blocks.length := by rw [k3, k2, k1]
      have l3' := l3 (l2 (l1 hl))
      obtain ⟨d4, h4, l4, n4, _⟩ :=
        setBlock_total { b with Num := b.Num + 1 } l3' (kb ▸ hbi) (kb ▸ hbp) (kb ▸ hbn)
      have s4 := sizesOk_setBlock (s3 (s2 (s1 hs))) h4 n4
      have hi4 : InRange d4.Blocks.length (e / 256) := by rw [n4, kb]; exact hbi
      have step5 : ∃ d5, (if (b.Num + 1 = 2 ∨ b.Trial = cur.MaxTrial) ∧ e / 256 ≠ 0 then
            transferBlock d4 (e / 256) Cls.C Cls.O else some d4) = some d5 ∧ LinksP d5 ∧
          SizesOk d5 ∧ d5.Blocks.length = d4.Blocks.length ∧ d5.Array = d4.Array := by
        by_cases hz : (b.Num + 1 = 2 ∨ b.Trial = cur.MaxTrial) ∧ e / 256 ≠ 0
        · rw [if_pos hz]
          obtain ⟨d5, h5, l5, n5⟩ := transferBlock_total Cls.C Cls.O l4 hi4
          exact ⟨d5, h5, l5, sizesOk_of_sameSlots s4 (transferBlock_sameSlots h5) n5, n5,
            (transferBlock_sameSlots h5).1⟩
        · rw [if_neg hz]
          exact ⟨d4, rfl, l4, s4, rfl, rfl⟩
      obtain ⟨d5, h5, l5, s5, n5, e5⟩ := step5
      have hi5 : InRange d5.Blocks.length (e / 256) := by rw [n5]; exact hi4
      obtain ⟨b2, hb2⟩ := idx_exists hi5
      have hb2' : d5.block (e / 256) = some b2 := hb2
      obtain ⟨hb2p, hb2n⟩ := block_links l5 hb2'
      obtain ⟨d6, h6, l6, n6, _⟩ := setBlock_total { b2 with Trial := 0 } l5 hi5 hb2p hb2n
      refine ⟨d6, ?_, l6, sizesOk_setBlock s5 h6 n6, by rw [n6, n5, n4, kb], ?_⟩
      · rw [r1, Option.some_bind, h1, Option.some_bind, h2, Option.some_bind, h3,
          Option.some_bind, h4, Option.some_bind, h5, Option.some_bind, hb2',
          Option.some_bind, h6]
      · rw [(setBlock_spec h6).2.2.1, e5, (setBlock_spec h4).2.2.1, a3, a2, a1]
  obtain ⟨da2, h2, l2, s2, n2, a2⟩ := mid
  have hi2 : InRange da2.Blocks.length (e / 256) := by rw [n2]; exact hbi
  obtain ⟨b3, hb3⟩ := idx_exists hi2
  have hb3' : da2.block (e / 256) = some b3 := hb3
  obtain ⟨hb3p, hb3n⟩ := block_links l2 hb3'
  obtain ⟨da3, h3, l3, n3, _⟩ := setBlock_total { b3 with Reject := 257 } l2 hi2 hb3p hb3n
  have s3 := sizesOk_setBlock s2 h3 n3
  have hni : InRange da3.Ninfos.length e := by
    rw [s3.1, (setBlock_spec h3).2.2.1, a2]
    exact hei
  obtain ⟨da4, h4, l4, s4⟩ := setNinfo_total da3 { Sibling := 0, Child := 0 } hni
  refine ⟨da4, ?_, l4 l3, s4 s3⟩
  unfold pushEnode
  rw [hb', Option.some_bind, h2, Option.some_bind, hb3', Option.some_bind, h3,
    Option.some_bind, h4]

/-! ### The walk of `popSibling` along a child ring -/

theorem ringFrom_length {da : Cedar} {base : Int} :
    ∀ (fuel : Nat) (c : Byte) (l : List Byte), ringFrom da base fuel c = some l →
      l.length ≤ fuel
  | 0, c, l, h => by
    by_cases hc : c = 0
    · simp [ringFrom, hc] at h; subst h; simp
    · simp [ringFrom, hc] at h
  | fuel + 1, c, l, h => by
    by_cases hc : c = 0
    · simp [ringFrom, hc] at h; subst h; simp
    · cases hx : da.ninfo (Int.xor base (ofByte c)) with
      | none => simp [ringFrom, hc, hx] at h
      | some x =>
        rw [ringFrom_succ da base fuel hc hx] at h
        simp only [Option.map_eq_some'] at h
        obtain ⟨l', hl', rfl⟩ := h
        have := ringFrom_length fuel x.Sibling l' hl'
        simp only [List.length_cons]
        omega

theorem readLoc_sibling {cur : Cedar} {i : Int} {x : Ninfo} (h : cur.ninfo i = some x) :
    cur.readLoc (Loc.sibling i) = some x.Sibling := by
  simp [Cedar.readLoc, h]

theorem readLoc_child {cur : Cedar} {i : Int} {x : Ninfo} (h : cur.ninfo i = some x) :
    cur.readLoc (Loc.child i) = some x.Child := by
  simp [Cedar.readLoc, h]

theorem popSiblingWalk_found {cur : Cedar} {base : Int} {label : Byte} {fuel : Nat} {l : Loc}
    (h : cur.readLoc l = some label) : popSiblingWalk cur base label (fuel + 1) l = some l := by
  simp [popSiblingWalk, h]

theorem popSiblingWalk_next {cur : Cedar} {base : Int} {label c : Byte} {fuel : Nat} {l : Loc}
    (h : cur.readLoc l = some c) (hc : c ≠ label) :
    popSiblingWalk cur base label (fuel + 1) l =
      popSiblingWalk cur base label fuel (Loc.sibling (Int.xor base (ofByte c))) := by
  simp [popSiblingWalk, h, hc]

/-- The walk of `popSibling` finds a label of the ring, when the labels of the ring
are those of the state in which the ring was read. -/
theorem walk_ring {da cur : Cedar} {base : Int} {label : Byte} :
    ∀ (fuelR : Nat) (c : Byte) (l' : List Byte), ringFrom da base fuelR c = some l' →
      label ∈ l' →
      (∀ c' ∈ l', cur.ninfo (Int.xor base (ofByte c')) = da.ninfo (Int.xor base (ofByte c'))) →
      ∀ (fuelW : Nat) (loc : Loc), l'.length ≤ fuelW → cur.readLoc loc = some c →
        ∃ l, popSiblingWalk cur base label fuelW loc = some l ∧ cur.readLoc l = some label
  | 0, c, l', h, hm, _, _, _, _, _ => by
    by_cases hc : c = 0
    · simp [ringFrom, hc] at h; subst h; simp at hm
    · simp [ringFrom, hc] at h
  | fuelR + 1, c, l', h, hm, hag, fuelW, loc, hlen, hread => by
    by_cases hc : c = 0
    · simp [ringFrom, hc] at h; subst h; simp at hm
    · cases hx : da.ninfo (Int.xor base (ofByte c)) with
      | none => simp [ringFrom, hc, hx] at h
      | some x =>
        rw [ringFrom_succ da base fuelR hc hx] at h
        simp only [Option.map_eq_some'] at h
        obtain ⟨l'', hl'', rfl⟩ := h
        cases fuelW with
        | zero => simp at hlen
        | succ fuelW =>
          by_cases hcl : c = label
          · subst hcl
            exact ⟨loc, popSiblingWalk_found hread, hread⟩
          · rw [popSiblingWalk_next hread hcl]
            have hcx : cur.ninfo (Int.xor base (ofByte c)) = some x := by
              rw [hag c (List.mem_cons_self _ _)]; exact hx
            have hm' : label ∈ l'' := by
              rcases List.mem_cons.mp hm with h | h
              · exact absurd h.symm hcl
              · exact h
            exact walk_ring fuelR x.Sibling l'' hl'' hm'
              (fun c' hc' => hag c' (List.mem_cons_of_mem _ hc')) fuelW _
              (by simp only [List.length_cons] at hlen; omega) (readLoc_sibling hcx)

/-- The walk of `popSibling` from the first label of a parent finds every label of
its ring. -/
theorem walk_of_ring {da cur : Cedar} {p : Int} {nf : Node} {l : List Byte} {label : Byte}
    (hnf : da.node p = some nf) (hv : nf.Value < 0) (hr : ring da p = some l)
    (hm : label ∈ l) (hp : cur.ninfo p = da.ninfo p)
    (hag : ∀ c' ∈ l, cur.ninfo (Int.xor nf.base (ofByte c')) =
      da.ninfo (Int.xor nf.base (ofByte c'))) :
    ∃ loc, popSiblingWalk cur nf.base label 257 (Loc.child p) = some loc ∧
      cur.readLoc loc = some label := by
  have hb := base_nonneg hv
  unfold ring at hr
  simp only [hnf] at hr
  cases hxf : da.ninfo p with
  | none => simp [hxf] at hr
  | some xf =>
    simp only [hxf] at hr
    have hrc : cur.readLoc (Loc.child p) = some xf.Child := readLoc_child (by rw [hp]; exact hxf)
    by_cases hc0 : xf.Child = 0
    · simp only [hc0, if_true] at hr
      cases hnb : da.node nf.base with
      | none =>
        simp only [hnb, Option.some.injEq] at hr
        subst hr; simp at hm
      | some nb =>
        simp only [hnb] at hr
        by_cases hck : nb.Check = p
        · simp only [hck, if_true, Option.bind_eq_some, Option.map_eq_some'] at hr
          obtain ⟨x0, hx0, l', hl', rfl⟩ := hr
          by_cases hl0 : label = 0
          · refine ⟨Loc.child p, popSiblingWalk_found (by rw [hrc, hc0, hl0]), by
              rw [hrc, hc0, hl0]⟩
          · have hr0 : cur.readLoc (Loc.child p) = some (0 : Byte) := by rw [hrc, hc0]
            rw [show (257 : Nat) = 256 + 1 from rfl,
              popSiblingWalk_next hr0 (Ne.symm hl0), xor_zero_byte hb]
            have hm' : label ∈ l' := by
              rcases List.mem_cons.mp hm with h | h
              · exact absurd h hl0
              · exact h
            have hcx : cur.ninfo nf.base = some x0 := by
              have := hag 0 (List.mem_cons_self _ _)
              rw [xor_zero_byte hb] at this
              rw [this]; exact hx0
            exact walk_ring 256 x0.Sibling l' hl' hm'
              (fun c' hc' => hag c' (List.mem_cons_of_mem _ hc')) 256 _
              (ringFrom_length _ _ _ hl') (readLoc_sibling hcx)
        · simp only [hck, if_false, Option.some.injEq] at hr
          subst hr; simp at hm
    · simp only [hc0, if_false] at hr
      exact walk_ring 256 xf.Child l hr hm hag 257 _
        (by have := ringFrom_length _ _ _ hr; omega) hrc

theorem writeLoc_total {cur : Cedar} {l : Loc} {c : Byte} (v : Byte)
    (h : cur.readLoc l = some c) :
    ∃ cur', cur.writeLoc l v = some cur' ∧ (LinksP cur → LinksP cur') ∧
      (SizesOk cur → SizesOk cur') := by
  cases l with
  | child i =>
    simp only [Cedar.readLoc, Option.map_eq_some'] at h
    obtain ⟨x, hx, _⟩ := h
    obtain ⟨cur', h1, h2, h3⟩ := setNinfo_total cur { x with Child := v } (inRange_of_idx hx)
    exact ⟨cur', by simp [Cedar.writeLoc, Cedar.setChildOf, hx, h1], h2, h3⟩
  | sibling i =>
    simp only [Cedar.readLoc, Option.map_eq_some'] at h
    obtain ⟨x, hx, _⟩ := h
    obtain ⟨cur', h1, h2, h3⟩ := setNinfo_total cur { x with Sibling := v } (inRange_of_idx hx)
    exact ⟨cur', by simp [Cedar.writeLoc, Cedar.setSibling, hx, h1], h2, h3⟩

theorem ninfo_exists {cur : Cedar} (hs : SizesOk cur) {s : Int} {n : Node}
    (h : cur.node s = some n) : ∃ x, cur.ninfo s = some x := by
  have := inRange_of_idx h
  exact idx_exists (by rw [hs.1]; exact this)

/-- `popSibling` succeeds when the walk finds the label. -/
theorem popSibling_total {cur : Cedar} {p base : Int} {label : Byte} {loc : Loc} {x : Ninfo}
    (hw : popSiblingWalk cur base label 257 (Loc.child p) = some loc)
    (hr : cur.readLoc loc = some label)
    (hx : cur.ninfo (Int.xor base (ofByte label)) = some x) :
    ∃ cur', popSibling cur p base label = some cur' ∧ (LinksP cur → LinksP cur') ∧
      (SizesOk cur → SizesOk cur') := by
  obtain ⟨cur', h1, h2, h3⟩ := writeLoc_total x.Sibling hr
  refine ⟨cur', ?_, h2, h3⟩
  unfold popSibling
  simp only [bind, Option.bind_eq_bind, hw, Option.some_bind, hr, hx, h1]

/-! ### The loop of `Delete` ends -/

theorem setChildOf_total {cur : Cedar} {i : Int} {x : Ninfo} (v : Byte)
    (h : cur.ninfo i = some x) :
    ∃ cur', cur.setChildOf i v = some cur' ∧ (LinksP cur → LinksP cur') ∧
      (SizesOk cur → SizesOk cur') := by
  obtain ⟨cur', h1, h2, h3⟩ := setNinfo_total cur { x with Child := v } (inRange_of_idx h)
  exact ⟨cur', by simp [Cedar.setChildOf, h, h1], h2, h3⟩

theorem ringOk_children {da : Cedar} (hk : WellFormed da) {p : Int} {np : Node} {l : List Byte}
    (hnp : da.node p = some np) (hv : np.Value < 0) (ho : np.Check ≥ 0 ∨ p = 0)
    (hr : ring da p = some l) :
    ∀ c ∈ l, ∃ nc, da.node (Int.xor np.base (ofByte c)) = some nc ∧ nc.Check = p := by
  have h0 := idx_nonneg hnp
  have h1 := idx_lt_length hnp
  have h := hk.rings p.toNat h1
  rw [Int.toNat_of_nonneg h0] at h
  unfold ringOk ringOkAt at h
  simp only [hnp, hv, ho, and_self, if_true, hr, List.all_eq_true] at h
  intro c hc
  have := h c hc
  cases hn : da.node (Int.xor np.base (ofByte c)) with
  | none => simp [hn] at this
  | some nc =>
    simp only [hn, decide_eq_true_eq] at this
    exact ⟨nc, rfl, this⟩

theorem deleteLoop_returns (da : Cedar) (hw : WellFormed da) :
    ∀ (rest : List Int) (to_ : Int) (done : List Int) (cur : Cedar) (fuel : Nat),
      ChainUp da to_ rest → (done ++ to_ :: rest).Nodup → LoopInv da cur done →
      (0 < to_ → ∀ s, s ∉ done → cur.ninfo s = da.ninfo s) →
      (∀ d ∈ done, ∃ nd, da.node d = some nd ∧ (nd.Check = to_ ∨ nd.Check ∈ done)) →
      LinksP cur → SizesOk cur → rest.length ≤ fuel →
      ∃ da', deleteLoop fuel cur to_ = some da' := by
  intro rest
  induction rest with
  | nil =>
    intro to_ done cur fuel hc _ _ _ _ _ _ _
    simp only [ChainUp] at hc
    subst hc
    cases fuel <;> exact ⟨cur, by simp [deleteLoop]⟩
  | cons p rest ih =>
    intro to_ done cur fuel hc hnd hi hni hdone hl hs hfuel
    simp only [ChainUp] at hc
    obtain ⟨hpos, ⟨nt, hnt, hck⟩, hc'⟩ := hc
    have hp0 : 0 ≤ p := chainUp_nonneg hc'
    have hnd' := List.nodup_append.mp hnd
    have hto : to_ ∉ done := fun h => hnd'.2.2 h (List.mem_cons_self _ _)
    have hpd : p ∉ done := fun h =>
      hnd'.2.2 h (List.mem_cons_of_mem _ (List.mem_cons_self _ _))
    have hpt : p ≠ to_ := by
      intro h
      have := (List.nodup_cons.mp hnd'.2.1).1
      exact this (h ▸ List.mem_cons_self _ _)
    have hcn : cur.node to_ = some nt := hi.keep to_ nt hto hnt (Or.inl (by omega))
    obtain ⟨np, l, a1, a2, a3, a4, a5, a6⟩ := child_facts hw hnt (by omega)
    rw [hck] at a1 a5
    have hpo : np.Check ≥ 0 ∨ p = 0 := by
      cases rest with
      | nil => simp only [ChainUp] at hc'; exact Or.inr hc'
      | cons q r =>
        simp only [ChainUp] at hc'
        obtain ⟨_, ⟨np', hnp', hq⟩, hc''⟩ := hc'
        have hq0 : 0 ≤ q := chainUp_nonneg hc''
        rw [a1] at hnp'
        cases hnp'
        exact Or.inl (by omega)
    have hcp : cur.node p = some np := hi.keep p np hpd a1 hpo
    obtain ⟨xt, hxt⟩ := ninfo_exists hs hcn
    obtain ⟨xf, hxf⟩ := ninfo_exists hs hcp
    have hxfd : cur.ninfo p = da.ninfo p := hni hpos p hpd
    have hto_eq : Int.xor np.base (ofByte (toByte (Int.xor to_ np.base))) = to_ :=
      xor_label (base_nonneg a2) (by omega) a3 a4
    -- the branch that removes the label from the ring and releases `to_`
    have pop : ∃ da', (popSibling cur p np.base (toByte (Int.xor to_ np.base))).bind
        (fun da1 => pushEnode da1 to_) = some da' := by
      have hch := ringOk_children hw a1 a2 hpo a5
      have hag : ∀ c' ∈ l, cur.ninfo (Int.xor np.base (ofByte c')) =
          da.ninfo (Int.xor np.base (ofByte c')) := by
        intro c' hc'
        apply hni hpos
        intro hin
        obtain ⟨nc, hnc, hcc⟩ := hch c' hc'
        obtain ⟨nd, hnd1, hnd2⟩ := hdone _ hin
        rw [hnc] at hnd1
        cases hnd1
        rcases hnd2 with h | h
        · exact hpt (by rw [← hcc, h])
        · exact hpd (by rw [← hcc]; exact h)
      obtain ⟨loc, w1, w2⟩ := walk_of_ring a1 a2 a5 a6 hxfd hag
      obtain ⟨c1, p1, p2, p3⟩ := popSibling_total w1 w2 (by rw [hto_eq]; exact hxt)
      obtain ⟨b1, b2⟩ := popSibling_spec p1
      have hi1 := loopInv_congr hi b1 b2
      obtain ⟨c2, q1, _, _⟩ := pushEnode_total (p2 hl) (p3 hs) hi1.heads
        (by rw [node_congr b1]; exact hcn)
      exact ⟨c2, by rw [p1, Option.some_bind, q1]⟩
    cases fuel with
    | zero => simp at hfuel
    | succ fuel =>
      simp only [deleteLoop, hpos, gt_iff_lt, if_true, hcn, hck, hcp, hxt]
      by_cases hsib : xt.Sibling ≠ 0
      · simp only [hsib, ne_eq, not_false_eq_true, if_true]
        exact pop
      · simp only [hsib, if_false, hxf, Option.map_some']
        by_cases hch : xf.Child ≠ toByte (Int.xor to_ np.base)
        · simp only [hch, ne_eq, not_false_eq_true, decide_True]
          exact pop
        · simp only [hch, decide_False]
          obtain ⟨c1, q1, l1, s1⟩ := pushEnode_total hl hs hi.heads hcn
          obtain ⟨st, hh1, hnn⟩ := pushEnode_spec hi.heads hpos hcn (by omega) q1
          have hi1 := loopInv_step hi st hpos hh1
          simp only [q1]
          have hc2 : ∃ c2, (if p = 0 then c1.setChildOf p 0 else some c1) = some c2 ∧
              c2.Array = c1.Array ∧ c2.Blocks = c1.Blocks ∧ (0 < p → c2 = c1) ∧
              LinksP c2 ∧ SizesOk c2 := by
            by_cases hp : p = 0
            · rw [if_pos hp]
              have hn1 : ∃ n1, c1.node p = some n1 := node_exists_of_len st.len hcp
              obtain ⟨n1, hn1⟩ := hn1
              obtain ⟨x1, hx1⟩ := ninfo_exists s1 hn1
              obtain ⟨c2, r1, r2, r3⟩ := setChildOf_total 0 hx1
              obtain ⟨_, b1, b2⟩ := setChildOf_spec r1
              exact ⟨c2, r1, b1, b2, fun h => by omega, r2 l1, r3 s1⟩
            · rw [if_neg hp]
              exact ⟨c1, rfl, rfl, rfl, fun _ => rfl, l1, s1⟩
          obtain ⟨c2, e1, e2, e3, e4, l2, s2⟩ := hc2
          simp only [e1]
          have hi2 := loopInv_congr hi1 e2 e3
          apply ih p (to_ :: done) c2 fuel hc' ?_ hi2 ?_ ?_ l2 s2 (by simp at hfuel; omega)
          · have := List.nodup_middle.mp hnd
            simpa using this
          · intro hp s hs'
            simp only [List.mem_cons, not_or] at hs'
            rw [e4 hp, hnn s hs'.1]
            exact hni hpos s hs'.2
          · intro d hd
            rcases List.mem_cons.mp hd with h | h
            · subst h
              exact ⟨nt, hnt, Or.inl hck⟩
            · obtain ⟨nd, g1, g2⟩ := hdone d h
              refine ⟨nd, g1, Or.inr ?_⟩
              rcases g2 with g | g
              · rw [g]; exact List.mem_cons_self _ _
              · exact List.mem_cons_of_mem _ g

/-- `Delete` of a present key returns `nil`, within `len(key) + 1` iterations. -/
theorem delete_returns {da : Cedar} (hw : WellFormed da) {k : List Byte} {fuel : Nat}
    (hpres : ∃ v, Get da k = some (v, none)) (hfuel : k.length + 1 ≤ fuel) :
    ∃ da', Delete fuel da k = some (da', none) := by
  obtain ⟨v, hget⟩ := hpres
  unfold Get Jump at hget
  unfold Delete Jump
  have hl := linksP_of_ok hw.links
  cases hj : jumpLoop da k 0 0 with
  | none => simp [hj] at hget
  | some q =>
    obtain ⟨to_, oe⟩ := q
    cases oe with
    | some err => simp [hj] at hget
    | none =>
      simp only [hj] at hget ⊢
      cases hnt : da.node to_ with
      | none => simp [Value, hnt] at hget
      | some nt =>
        simp only []
        obtain ⟨rest, hc, hnd, hlen, hmem⟩ := chain_of_jump hw.root k to_ hj
        unfold Value at hget
        simp only [hnt] at hget
        by_cases hv : nt.Value ≥ 0
        · have hv' : ¬ nt.Value < 0 := by omega
          simp only [hv', if_false]
          obtain ⟨d, hd⟩ := deleteLoop_returns da hw rest to_ [] da fuel hc (by simpa using hnd)
            (loopInv_start hw) (fun _ _ _ => rfl) (fun d hd => by simp at hd) hl hw.sizes
            (by omega)
          exact ⟨d, by simp [hd]⟩
        · have hv' : nt.Value < 0 := by omega
          simp only [hv, if_false] at hget
          simp only [hv', if_true]
          cases hnb : da.node nt.base with
          | none => simp [hnb] at hget
          | some nb =>
            simp only [hnb] at hget
            by_cases hcv : nb.Check = to_ ∧ nb.Value ≥ 0
            · simp only [Option.map_some', hcv.1, if_true]
              have ht0 : 0 ≤ to_ := idx_nonneg hnt
              have hvpos : 0 < nt.base := by
                have h0 : 0 ≤ nt.base := base_nonneg hv'
                have : nt.base ≠ 0 := by
                  intro h0
                  rw [h0] at hnb
                  have := hw.root nb (by simpa using hnb)
                  omega
                omega
              have hc' : ChainUp da nt.base (to_ :: rest) := by
                simp only [ChainUp]
                exact ⟨hvpos, ⟨nb, hnb, hcv.1⟩, hc⟩
              have hnd' : (nt.base :: to_ :: rest).Nodup := by
                refine List.nodup_cons.mpr ⟨?_, hnd⟩
                intro hin
                obtain ⟨pre, suf, hk', hjp⟩ := hmem nt.base hin
                have hne : pre ≠ [] := by
                  intro h
                  subst h
                  have := jumpLoop_nil_ok hjp
                  omega
                obtain ⟨init, b, rfl⟩ := nonempty_snoc hne
                obtain ⟨p, nf, nt', a1, a2, a3, a4, a5, a6⟩ := jumpLoop_snoc_ok init hjp
                rw [hnb] at a5
                cases a5
                rw [hcv.1] at a6
                subst a6
                have := jump_inj hw.root _ _ _ a1 hj
                subst this
                have hl := congrArg List.length hk'
                simp at hl
              obtain ⟨d, hd⟩ := deleteLoop_returns da hw (to_ :: rest) nt.base [] da fuel hc'
                (by simpa using hnd') (loopInv_start hw) (fun _ _ _ => rfl)
                (fun d hd => by simp at hd) hl hw.sizes (by simp [hlen]; omega)
              exact ⟨d, by simp [hd]⟩
            · simp [hcv] at hget


/-! ### One-pass checks of the slot array -/

theorem allFrom_spec (f : Int → Node → Bool) :
    ∀ (l : List Node) (i : Nat), allFrom f i l = true →
      ∀ (j : Nat) (n : Node), l[j]? = some n → f ((i + j : Nat) : Int) n = true := by
  intro l
  induction l with
  | nil => intro i _ j n hj; simp at hj
  | cons a rest ih =>
    intro i h j n hj
    simp only [allFrom, Bool.and_eq_true] at h
    cases j with
    | zero =>
      simp only [List.getElem?_cons_zero, Option.some.injEq] at hj
      subst hj
      simpa using h.1
    | succ j =>
      simp only [List.getElem?_cons_succ] at hj
      have := ih (i + 1) h.2 j n hj
      have e : i + 1 + j = i + (j + 1) := by omega
      rw [e] at this
      exact this

theorem node_natCast (da : Cedar) (s : Nat) : da.node (s : Int) = da.Array[s]? := by
  unfold Cedar.node idx
  have h : ¬ ((s : Int) < 0) := by omega
  rw [if_neg h, Int.toNat_ofNat]

/-- Invariants 1 and 2 at every slot, from one pass over the slot array. -/
theorem children_of_all {da : Cedar} (h : allFrom (childOkAt da) 0 da.Array = true) :
    ∀ s : Nat, s < da.Array.length → childOk da (s : Int) = true := by
  intro s _
  unfold childOk
  cases hn : da.node (s : Int) with
  | none => rfl
  | some ns =>
    rw [node_natCast] at hn
    have := allFrom_spec (childOkAt da) da.Array 0 h s ns hn
    simpa using this

/-- Invariant 2, the other way round, at every slot, from one pass over the slot
array. -/
theorem rings_of_all {da : Cedar} (h : allFrom (ringOkAt da) 0 da.Array = true) :
    ∀ p : Nat, p < da.Array.length → ringOk da (p : Int) = true := by
  intro p _
  unfold ringOk
  cases hn : da.node (p : Int) with
  | none => rfl
  | some np =>
    rw [node_natCast] at hn
    have := allFrom_spec (ringOkAt da) da.Array 0 h p np hn
    simpa using this

/-! ### A walk of `popSibling` that never ends -/

/-- A walk of `popSibling` that stands at a place whose label is not the one looked
for and leads back to the same place never returns. -/
theorem popSiblingWalk_fixed {da : Cedar} {base : Int} {label c : Byte} {l : Loc}
    (hr : da.readLoc l = some c) (hc : c ≠ label)
    (hl : Loc.sibling (Int.xor base (ofByte c)) = l) :
    ∀ fuel : Nat, popSiblingWalk da base label fuel l = none := by
  intro fuel
  induction fuel with
  | zero => rfl
  | succ n ih =>
    rw [popSiblingWalk_next hr hc, hl]
    exact ih

/-- An iteration of the loop of `Delete` that calls `popSibling` does not return when
`popSibling` does not. -/
theorem deleteLoop_stuck {da : Cedar} {to_ : Int} {nt nf : Node} {xt xf : Ninfo}
    (fuel : Nat) (hpos : to_ > 0) (hnt : da.node to_ = some nt)
    (hnf : da.node nt.Check = some nf) (hxt : da.ninfo to_ = some xt)
    (hxf : da.ninfo nt.Check = some xf)
    (hbr : xt.Sibling ≠ 0 ∨ xf.Child ≠ toByte (Int.xor to_ nf.base))
    (hpop : popSibling da nt.Check nf.base (toByte (Int.xor to_ nf.base)) = none) :
    deleteLoop (fuel + 1) da to_ = none := by
  unfold deleteLoop
  rw [if_pos hpos, hnt]
  simp only [hnf, hxt, hxf, Option.map_some']
  by_cases hs : xt.Sibling ≠ 0
  · rw [if_pos hs]
    simp only [hpop, Option.none_bind]
  · rw [if_neg hs]
    have hc : xf.Child ≠ toByte (Int.xor to_ nf.base) := by
      rcases hbr with h | h
      · exact absurd h hs
      · exact h
    simp only [ne_eq, hc, not_false_eq_true, decide_True, hpop, Option.none_bind]

/-! ### Machine arithmetic -/

theorem wrapAdd_eq_wrapAddW (x y : Int) : wrapAdd x y = wrapAddW 64 x y := rfl

theorem valueLimit_eq_maxInt : ValueLimit = maxInt 64 := rfl

/-- The wrapped sum of a value in `[0, maxInt w)` and a `w`-bit delta: the sum itself
when it is below `2 ^ (w - 1)`, and a negative number otherwise. -/
theorem wrapAddW_cases (w : Nat) (hw : 1 ≤ w) (v d : Int) (hv0 : 0 ≤ v)
    (hv1 : v < maxInt w) (hd0 : -2 ^ (w - 1) ≤ d) (hd1 : d < 2 ^ (w - 1)) :
    (v + d < 2 ^ (w - 1) ∧ wrapAddW w v d = v + d) ∨
      (2 ^ (w - 1) ≤ v + d ∧ wrapAddW w v d < 0) := by
  obtain ⟨k, rfl⟩ : ∃ k, w = k + 1 := ⟨w - 1, by omega⟩
  have hM : (0 : Int) < 2 ^ k := by positivity
  have h2 : (2 : Int) ^ (k + 1) = 2 * 2 ^ k := by rw [pow_succ]; ring
  unfold maxInt at hv1
  simp only [Nat.add_sub_cancel] at *
  unfold wrapAddW
  simp only [Nat.add_sub_cancel, h2]
  generalize (2 : Int) ^ k = M at *
  by_cases hlt : v + d < M
  · left
    refine ⟨hlt, ?_⟩
    rw [Int.emod_eq_of_lt (by omega) (by omega)]
    omega
  · right
    refine ⟨by omega, ?_⟩
    have e : v + d + M = (v + d - M) + 2 * M := by ring
    rw [e, Int.add_emod_self, Int.emod_eq_of_lt (by omega) (by omega)]
    omega

/-! ### `Key` at a value slot -/

/-- The XOR of a slot id with itself is the label 0. -/
theorem toByte_xor_self (t : Int) : toByte (Int.xor t t) = 0 := by
  have h : Int.xor t t = 0 := by
    cases t with
    | ofNat n => show Int.xor (Int.ofNat n) (Int.ofNat n) = 0
                 simp [Int.xor]
    | negSucc n => show Int.xor (Int.negSucc n) (Int.negSucc n) = 0
                   simp [Int.xor]
  rw [h]
  rfl

/-- One iteration of the loop of `Key` at a value slot `t` of the parent `p`: the
label 0 is not appended, and the loop goes on at `p`. -/
theorem keyLoop_value_slot {da : Cedar} {t : Int} {n np : Node} (fuel : Nat)
    (acc : List Byte) (ht : t > 0) (hn : da.node t = some n) (hc : n.Check ≥ 0)
    (hp : da.node n.Check = some np) (hb : t = np.base) :
    keyLoop da (fuel + 1) t acc = keyLoop da fuel n.Check acc := by
  conv => lhs; unfold keyLoop
  have hc' : ¬ n.Check < 0 := by omega
  simp only [ht, if_true, hn, hc', if_false, hp]
  rw [← hb, toByte_xor_self]
  simp

/-! ### Slots in range -/

theorem xor_div_two_pow (a b : Nat) : ∀ k : Nat, (a ^^^ b) / 2 ^ k = a / 2 ^ k ^^^ b / 2 ^ k
  | 0 => by simp
  | k + 1 => by
    rw [pow_succ, ← Nat.div_div_eq_div_mul, ← Nat.div_div_eq_div_mul,
      ← Nat.div_div_eq_div_mul, xor_div_two_pow a b k, Nat.xor_div_two]

/-- The XOR of a slot id with a byte stays in the block of 256 slots of the id. -/
theorem xor_byte_lt {a b m : Nat} (ha : a < 256 * m) (hb : b < 256) : a ^^^ b < 256 * m := by
  have h := xor_div_two_pow a b 8
  have hb0 : b / 2 ^ 8 = 0 := by
    rw [Nat.div_eq_zero_iff (by norm_num)]
    simpa using hb
  rw [hb0, Nat.xor_zero] at h
  have e : (2 : Nat) ^ 8 = 256 := by norm_num
  rw [e] at h
  have h1 : a / 256 < m := by omega
  omega

theorem node_some_of_lt {da : Cedar} {i : Int} (h0 : 0 ≤ i) (h1 : i < da.Array.length) :
    ∃ n, da.node i = some n := by
  unfold Cedar.node idx
  rw [if_neg (by omega)]
  have hlt : i.toNat < da.Array.length := by omega
  exact ⟨da.Array[i.toNat], List.getElem?_eq_getElem hlt⟩

/-- A state whose array is made of whole blocks and whose bases are ids of slots
reads slots of the array only. -/
theorem closed_of_aligned {da : Cedar} (len : Nat) (hlen : da.Array.length = len)
    (hpos : 0 < len) (hblk : len % 256 = 0)
    (h : allFrom (alignedAt len) 0 da.Array = true) : Closed da := by
  refine ⟨node_some_of_lt (le_refl 0) (by omega), ?_⟩
  intro s n hs hv b
  have hs0 := idx_nonneg hs
  obtain ⟨k, rfl⟩ := Int.eq_ofNat_of_zero_le hs0
  rw [node_natCast] at hs
  have ha := allFrom_spec (alignedAt len) da.Array 0 h k n hs
  simp only [alignedAt, decide_eq_true_eq] at ha
  have hb := ha hv
  have hb0 : 0 ≤ n.base := by unfold Node.base; omega
  obtain ⟨a, ea⟩ := Int.eq_ofNat_of_zero_le hb0
  rw [ea] at hb ⊢
  have hal : a < 256 * (len / 256) := by omega
  have hx := xor_byte_lt hal b.isLt
  show ∃ n', da.node (Int.xor (a : Int) ((b.val : Nat) : Int)) = some n'
  rw [xor_ofNat]
  apply node_some_of_lt
  · omega
  · rw [hlen]
    have : a ^^^ b.val < len := by omega
    exact_mod_cast this

/-! ### `PrefixMatch` -/

/-- The result of a jump along a non-empty path does not depend on the initial value
of the result `to`. -/
theorem jumpLoop_cons_init (da : Cedar) (b : Byte) (rest : List Byte) (f t0 t1 : Int) :
    jumpLoop da (b :: rest) f t0 = jumpLoop da (b :: rest) f t1 := by
  simp only [jumpLoop]

/-- A jump along `pre ++ suf`, with `suf` not empty, is the jump along `suf` from the
node that the jump along `pre` reaches, whatever the second jump returns. -/
theorem jumpLoop_append_eq {da : Cedar} :
    ∀ (pre suf : List Byte) {f x : Int},
      jumpLoop da pre f f = some (x, none) → suf ≠ [] →
      jumpLoop da (pre ++ suf) f f = jumpLoop da suf x x
  | [], suf, f, x, h1, _ => by
    have := jumpLoop_nil_ok h1
    subst this
    rfl
  | c :: pre, suf, f, x, h1, hs => by
    obtain ⟨nf, nt, hf, hv, ht, hc, hr⟩ := jumpLoop_cons_ok h1
    have hv' : ¬ nf.Value ≥ 0 := by omega
    have ih := jumpLoop_append_eq pre suf hr hs
    simp only [List.cons_append, jumpLoop, hf, hv', if_false, ht, hc, ne_eq,
      not_true_eq_false]
    exact ih

/-- A jump that fails keeps failing along every longer path. -/
theorem jumpLoop_err_append {da : Cedar} :
    ∀ (k more : List Byte) {f t0 x : Int} {e : Err},
      jumpLoop da k f t0 = some (x, some e) →
      ∃ y e', jumpLoop da (k ++ more) f t0 = some (y, some e')
  | [], more, f, t0, x, e, h => by simp [jumpLoop] at h
  | c :: k, more, f, t0, x, e, h => by
    simp only [List.cons_append, jumpLoop] at h ⊢
    cases hf : da.node f with
    | none => simp [hf] at h
    | some nf =>
      simp only [hf] at h ⊢
      by_cases hv : nf.Value ≥ 0
      · simp [hv]
      · simp only [hv, if_false] at h ⊢
        cases ht : da.node (Int.xor nf.base (ofByte c)) with
        | none => simp [ht] at h
        | some nt =>
          simp only [ht] at h ⊢
          by_cases hc : nt.Check ≠ f
          · simp [hc]
          · simp only [hc, if_false] at h ⊢
            exact jumpLoop_err_append k more h

/-- The statement `num--` does not wrap around above the least `int`. -/
theorem decr_eq {num : Int} (h0 : -(2 : Int) ^ 63 < num) (h1 : num < (2 : Int) ^ 63) :
    decr num = num - 1 := by
  unfold decr wrapAdd
  norm_num at h0 h1 ⊢
  omega

/-- The loop of `PrefixMatch` with a counter that cannot reach 0: the ids of
`matchWalk` are appended. -/
theorem prefixMatchLoop_unlimited (da : Cedar) :
    ∀ (rest : List Byte) (from_ num : Int) (ids : List Int),
      num ≤ 0 → -(2 : Int) ^ 63 + rest.length ≤ num →
      prefixMatchLoop da rest from_ num ids =
        (matchWalk da rest from_).map fun l => ids ++ l
  | [], from_, num, ids, _, _ => by simp [prefixMatchLoop, matchWalk]
  | b :: rest, from_, num, ids, h0, h1 => by
    simp only [List.length_cons, Nat.cast_add, Nat.cast_one] at h1
    have hd : decr num = num - 1 := decr_eq (by omega) (by norm_num; omega)
    have hne : ¬ (num - 1 = 0) := by omega
    unfold prefixMatchLoop matchWalk
    cases hj : Jump da [b] from_ with
    | none => rfl
    | some r =>
      obtain ⟨to_, e⟩ := r
      cases e with
      | some e => simp
      | none =>
        simp only []
        cases hv : Value da to_ with
        | none => rfl
        | some r2 =>
          obtain ⟨v, e2⟩ := r2
          cases e2 with
          | some e2 =>
            simp only []
            exact prefixMatchLoop_unlimited da rest to_ num ids h0 (by omega)
          | none =>
            simp only [hd, hne, if_false]
            rw [prefixMatchLoop_unlimited da rest to_ (num - 1) (ids ++ [to_]) (by omega)
              (by omega)]
            cases matchWalk da rest to_ <;> simp

/-- The loop of `PrefixMatch` with a positive counter: the first `num` ids of
`matchWalk` are appended. -/
theorem prefixMatchLoop_limited (da : Cedar) :
    ∀ (rest : List Byte) (from_ num : Int) (ids all : List Int),
      0 < num → num < (2 : Int) ^ 63 → matchWalk da rest from_ = some all →
      prefixMatchLoop da rest from_ num ids = some (ids ++ all.take num.toNat)
  | [], from_, num, ids, all, _, _, h => by
    simp only [matchWalk, Option.some.injEq] at h
    subst h
    simp [prefixMatchLoop]
  | b :: rest, from_, num, ids, all, h0, h1, h => by
    have hd : decr num = num - 1 := decr_eq (by omega) h1
    unfold prefixMatchLoop
    unfold matchWalk at h
    cases hj : Jump da [b] from_ with
    | none => simp [hj] at h
    | some r =>
      obtain ⟨to_, e⟩ := r
      cases e with
      | some e =>
        simp only [hj, Option.some.injEq] at h
        subst h
        simp
      | none =>
        simp only [hj] at h ⊢
        cases hv : Value da to_ with
        | none => simp [hv] at h
        | some r2 =>
          obtain ⟨v, e2⟩ := r2
          cases e2 with
          | some e2 =>
            simp only [hv] at h ⊢
            exact prefixMatchLoop_limited da rest to_ num ids all h0 h1 h
          | none =>
            simp only [hv] at h ⊢
            cases hw : matchWalk da rest to_ with
            | none => simp [hw] at h
            | some all' =>
              simp only [hw, Option.map_some', Option.some.injEq] at h
              subst h
              obtain ⟨k, hk⟩ : ∃ k : Nat, num.toNat = k + 1 := ⟨num.toNat - 1, by omega⟩
              rw [hd, hk, List.take_succ_cons]
              by_cases h1' : num - 1 = 0
              · have hk0 : k = 0 := by omega
                simp [h1', hk0]
              · rw [if_neg h1']
                rw [prefixMatchLoop_limited da rest to_ (num - 1) (ids ++ [to_]) all'
                  (by omega) (by omega) hw]
                have : (num - 1).toNat = k := by omega
                rw [this]
                simp

theorem take_snoc_append (pre rest : List Byte) (b : Byte) :
    (pre ++ b :: rest).take (pre.length + 1) = pre ++ [b] := by
  have e : pre ++ b :: rest = (pre ++ [b]) ++ rest := by simp
  rw [e]
  exact List.take_left' (by simp)

theorem take_snoc_more (pre rest : List Byte) (b : Byte) (i : Nat) (hi : pre.length + 1 ≤ i) :
    (pre ++ b :: rest).take i = (pre ++ [b]) ++ rest.take (i - (pre.length + 1)) := by
  have e : pre ++ b :: rest = (pre ++ [b]) ++ rest := by simp
  rw [e, List.take_append_eq_append_take, List.take_of_length_le (by simpa using hi)]
  simp

/-- The jump along the path so far and one more byte is a jump of one byte from the
node reached so far. -/
theorem jump_snoc {da : Cedar} {pre : List Byte} {from_ : Int} (b : Byte)
    (h : jumpLoop da pre 0 0 = some (from_, none)) :
    Jump da (pre ++ [b]) 0 = Jump da [b] from_ := by
  unfold Jump
  rw [jumpLoop_append_eq pre [b] h (by simp)]
  exact jumpLoop_cons_init da b [] from_ from_ 0

theorem matchesOf_fail (da : Cedar) (q : List Byte) :
    ∀ l : List Nat, (∀ i ∈ l, matchAt da q i = some none) → matchesOf da q l = some []
  | [], _ => rfl
  | i :: l, h => by
    unfold matchesOf
    rw [h i (List.mem_cons_self _ _)]
    exact matchesOf_fail da q l fun j hj => h j (List.mem_cons_of_mem _ hj)

/-- The ids of the loop of `PrefixMatch` from the node of the prefix `pre` are the
matches of the longer prefixes of `pre ++ rest`, in increasing length. -/
theorem matchWalk_spec (da : Cedar) :
    ∀ (rest pre : List Byte) (from_ : Int), jumpLoop da pre 0 0 = some (from_, none) →
      matchWalk da rest from_ =
        matchesOf da (pre ++ rest) (List.range' (pre.length + 1) rest.length)
  | [], pre, from_, _ => by simp [matchWalk, matchesOf]
  | b :: rest, pre, from_, h => by
    have hj := jump_snoc b h
    have hr : List.range' (pre.length + 1) (b :: rest).length =
        (pre.length + 1) :: List.range' (pre.length + 1 + 1) rest.length := by
      simp [List.range'_succ]
    rw [hr]
    unfold matchWalk matchesOf matchAt
    rw [take_snoc_append, hj]
    cases hjb : Jump da [b] from_ with
    | none => rfl
    | some r =>
      obtain ⟨to_, e⟩ := r
      cases e with
      | some e =>
        simp only []
        symm
        apply matchesOf_fail
        intro i hi
        have hi' : pre.length + 1 ≤ i := by
          have := (List.mem_range'_1.mp hi).1
          omega
        unfold matchAt
        rw [take_snoc_more pre rest b i hi']
        have hje : jumpLoop da (pre ++ [b]) 0 0 = some (to_, some e) := by
          have := hj
          unfold Jump at this
          rw [this]
          exact hjb
        obtain ⟨y, e', he⟩ := jumpLoop_err_append (pre ++ [b])
          (rest.take (i - (pre.length + 1))) hje
        unfold Jump
        rw [he]
      | none =>
        have hjn : jumpLoop da (pre ++ [b]) 0 0 = some (to_, none) := by
          have := hj
          unfold Jump at this
          rw [this]
          exact hjb
        have ih := matchWalk_spec da rest (pre ++ [b]) to_ hjn
        have e1 : pre ++ [b] ++ rest = pre ++ b :: rest := by simp
        have e2 : (pre ++ [b]).length = pre.length + 1 := by simp
        rw [e1, e2] at ih
        simp only []
        cases hv : Value da to_ with
        | none => rfl
        | some r2 =>
          obtain ⟨v, e2⟩ := r2
          cases e2 with
          | some e2 => simp only []; exact ih
          | none => simp only []; rw [ih]

/-- `PrefixMatch(q, 0)` is the list of its description, for a query shorter than
`2 ^ 63` bytes (the length of a Go slice is an `int`). -/
theorem prefixMatch_spec (da : Cedar) (q : List Byte) (hlen : (q.length : Int) < 2 ^ 63) :
    PrefixMatch da q 0 = prefixMatchSpec da q := by
  unfold PrefixMatch prefixMatchSpec
  rw [prefixMatchLoop_unlimited da q 0 0 [] (le_refl 0) (by omega)]
  have h := matchWalk_spec da q [] 0 rfl
  simp only [List.nil_append, List.length_nil, Nat.zero_add] at h
  rw [h]
  cases matchesOf da q (List.range' 1 q.length) <;> simp

/-- `Value` returns in a state that reads slots of the array only. -/
theorem value_total {da : Cedar} (hc : Closed da) {id : Int} {n : Node}
    (hn : da.node id = some n) : ∃ r, Value da id = some r := by
  unfold Value
  rw [hn]
  by_cases hv : n.Value ≥ 0
  · simp [hv]
  · simp only [hv, if_false]
    have hb0 : 0 ≤ n.base := by unfold Node.base; omega
    obtain ⟨nb, hnb⟩ := hc.2 id n hn (by omega) 0
    rw [xor_zero_byte hb0] at hnb
    rw [hnb]
    by_cases h2 : nb.Check = id ∧ nb.Value ≥ 0
    · simp [h2]
    · simp [h2]

/-- A jump of one byte returns in a state that reads slots of the array only; when
it succeeds, it reaches a slot of the array. -/
theorem jump_byte_total {da : Cedar} (hc : Closed da) {from_ : Int} {n : Node}
    (hn : da.node from_ = some n) (b : Byte) :
    (∃ x e, Jump da [b] from_ = some (x, some e)) ∨
      ∃ to_ nt, Jump da [b] from_ = some (to_, none) ∧ da.node to_ = some nt := by
  unfold Jump
  simp only [jumpLoop, hn]
  by_cases hv : n.Value ≥ 0
  · left
    simp [hv]
  · simp only [hv, if_false]
    obtain ⟨nt, hnt⟩ := hc.2 from_ n hn (by omega) b
    rw [hnt]
    by_cases hck : nt.Check ≠ from_
    · left
      simp [hck]
    · right
      simp only [hck, if_false]
      exact ⟨_, nt, rfl, hnt⟩

/-- The loop of `PrefixMatch` returns in a state that reads slots of the array
only. -/
theorem matchWalk_total {da : Cedar} (hc : Closed da) :
    ∀ (rest : List Byte) (from_ : Int) (n : Node), da.node from_ = some n →
      ∃ l, matchWalk da rest from_ = some l
  | [], _, _, _ => ⟨[], rfl⟩
  | b :: rest, from_, n, hn => by
    unfold matchWalk
    rcases jump_byte_total hc hn b with ⟨x, e, hj⟩ | ⟨to_, nt, hj, hnt⟩
    · rw [hj]
      exact ⟨[], rfl⟩
    · rw [hj]
      simp only []
      obtain ⟨r, hr⟩ := value_total hc hnt
      obtain ⟨l, hl⟩ := matchWalk_total hc rest to_ nt hnt
      rw [hr]
      obtain ⟨v, e⟩ := r
      cases e with
      | none => simp [hl]
      | some e => simp [hl]

/-- `PrefixMatch(q, 0)` returns in a state that reads slots of the array only. -/
theorem prefixMatch_total {da : Cedar} (hc : Closed da) (q : List Byte)
    (hlen : (q.length : Int) < 2 ^ 63) : ∃ ids, PrefixMatch da q 0 = some ids := by
  obtain ⟨n0, h0⟩ := hc.1
  obtain ⟨l, hl⟩ := matchWalk_total hc q 0 n0 h0
  unfold PrefixMatch
  rw [prefixMatchLoop_unlimited da q 0 0 [] (le_refl 0) (by omega), hl]
  exact ⟨_, rfl⟩

/-- A match of a listed length is in the list of matches. -/
theorem matchesOf_mem {da : Cedar} {q : List Byte} {id : Int} :
    ∀ (l : List Nat) (ids : List Int) (i : Nat), i ∈ l → matchAt da q i = some (some id) →
      matchesOf da q l = some ids → id ∈ ids
  | [], _, _, hi, _, _ => by simp at hi
  | j :: l, ids, i, hi, hm, h => by
    unfold matchesOf at h
    rcases List.mem_cons.mp hi with rfl | hi'
    · rw [hm] at h
      cases hr : matchesOf da q l with
      | none => simp [hr] at h
      | some l' =>
        simp only [hr, Option.map_some', Option.some.injEq] at h
        subst h
        exact List.mem_cons_self _ _
    · cases hj : matchAt da q j with
      | none => simp [hj] at h
      | some o =>
        cases o with
        | none =>
          simp only [hj] at h
          exact matchesOf_mem l ids i hi' hm h
        | some id' =>
          simp only [hj] at h
          cases hr : matchesOf da q l with
          | none => simp [hr] at h
          | some l' =>
            simp only [hr, Option.map_some', Option.some.injEq] at h
            subst h
            exact List.mem_cons_of_mem _ (matchesOf_mem l l' i hi' hm hr)

/-- A match is the id of a jump that succeeds, and `Value` succeeds there. -/
theorem matchAt_some {da : Cedar} {q : List Byte} {i : Nat} {id : Int}
    (h : matchAt da q i = some (some id)) :
    Jump da (q.take i) 0 = some (id, none) ∧ ∃ v, Value da id = some (v, none) := by
  unfold matchAt at h
  cases hj : Jump da (q.take i) 0 with
  | none => simp [hj] at h
  | some r =>
    obtain ⟨x, e⟩ := r
    cases e with
    | some e => simp [hj] at h
    | none =>
      simp only [hj] at h
      cases hv : Value da x with
      | none => simp [hv] at h
      | some r2 =>
        obtain ⟨v, e2⟩ := r2
        cases e2 with
        | some e2 => simp [hv] at h
        | none =>
          simp only [hv, Option.some.injEq] at h
          subst h
          exact ⟨rfl, v, hv⟩

/-- Every id of the list of matches is the match of a listed length. -/
theorem matchesOf_origin {da : Cedar} {q : List Byte} {id : Int} :
    ∀ (l : List Nat) (ids : List Int), matchesOf da q l = some ids → id ∈ ids →
      ∃ i ∈ l, matchAt da q i = some (some id)
  | [], ids, h, hm => by
    simp only [matchesOf, Option.some.injEq] at h
    subst h
    simp at hm
  | j :: l, ids, h, hm => by
    unfold matchesOf at h
    cases hj : matchAt da q j with
    | none => simp [hj] at h
    | some o =>
      cases o with
      | none =>
        simp only [hj] at h
        obtain ⟨i, hi, hmi⟩ := matchesOf_origin l ids h hm
        exact ⟨i, List.mem_cons_of_mem _ hi, hmi⟩
      | some id' =>
        simp only [hj] at h
        cases hr : matchesOf da q l with
        | none => simp [hr] at h
        | some l' =>
          simp only [hr, Option.map_some', Option.some.injEq] at h
          subst h
          rcases List.mem_cons.mp hm with rfl | hm'
          · exact ⟨j, List.mem_cons_self _ _, hj⟩
          · obtain ⟨i, hi, hmi⟩ := matchesOf_origin l l' hr hm'
            exact ⟨i, List.mem_cons_of_mem _ hi, hmi⟩

/-- The matches of distinct lengths are distinct ids, when the root is no child. -/
theorem matchesOf_nodup {da : Cedar} (hroot : RootIsNoChild da) {q : List Byte} :
    ∀ (l : List Nat) (ids : List Int), l.Nodup → (∀ i ∈ l, i ≤ q.length) →
      matchesOf da q l = some ids → ids.Nodup
  | [], ids, _, _, h => by
    simp only [matchesOf, Option.some.injEq] at h
    subst h
    exact List.nodup_nil
  | j :: l, ids, hnd, hle, h => by
    have hnd' := (List.nodup_cons.mp hnd)
    have hle' : ∀ i ∈ l, i ≤ q.length := fun i hi => hle i (List.mem_cons_of_mem _ hi)
    unfold matchesOf at h
    cases hj : matchAt da q j with
    | none => simp [hj] at h
    | some o =>
      cases o with
      | none =>
        simp only [hj] at h
        exact matchesOf_nodup hroot l ids hnd'.2 hle' h
      | some id' =>
        simp only [hj] at h
        cases hr : matchesOf da q l with
        | none => simp [hr] at h
        | some l' =>
          simp only [hr, Option.map_some', Option.some.injEq] at h
          subst h
          refine List.nodup_cons.mpr ⟨?_, matchesOf_nodup hroot l l' hnd'.2 hle' hr⟩
          intro hmem
          obtain ⟨i, hi, hmi⟩ := matchesOf_origin l l' hr hmem
          have h1 := (matchAt_some hj).1
          have h2 := (matchAt_some hmi).1
          have he := jump_inj hroot (q.take j) (q.take i) id' h1 h2
          have hl := congrArg List.length he
          simp only [List.length_take] at hl
          have hjl := hle j (List.mem_cons_self _ _)
          have hil := hle' i hi
          have : j = i := by omega
          subst this
          exact hnd'.1 hi

/-! ### `Status` -/

/-- The loop of `Status` over the slots from `i` on counts them in one pass. -/
theorem statusLoop_count (da : Cedar) :
    ∀ (l : List Node) (i : Nat) (keys nodes : Int), da.Array.drop i = l →
      statusLoop da l.length (i : Int) keys nodes = some (countSlots l keys nodes)
  | [], i, keys, nodes, _ => rfl
  | n :: rest, i, keys, nodes, h => by
    have hn : da.node (i : Int) = some n := by
      rw [node_natCast]
      have := congrArg (fun l => l[0]?) h
      simpa using this
    have hr : da.Array.drop (i + 1) = rest := by
      have := congrArg (List.drop 1) h
      simpa using this
    have ih := fun k nd => statusLoop_count da rest (i + 1) k nd hr
    simp only [List.length_cons, statusLoop, hn, countSlots]
    by_cases hc : n.Check ≥ 0
    · simp only [hc, if_true]
      exact_mod_cast ih _ _
    · simp only [hc, if_false]
      exact_mod_cast ih _ _

/-- `Status` of a state whose `Size` is the length of its array. -/
theorem status_count {da : Cedar} (h : da.Size.toNat = da.Array.length) :
    Status da = some ((countSlots da.Array 0 0).1, (countSlots da.Array 0 0).2,
      da.Size, da.Capacity) := by
  unfold Status
  rw [h]
  have := statusLoop_count da da.Array 0 0 0 (by simp)
  simp only [Nat.cast_zero] at this
  rw [this]
  rfl

/-! ### `Update` of a present key -/

/-- The lookup `follow` returns an existing child as it is and leaves the state as
it is. -/
theorem follow_existing {da : Cedar} {from_ : Int} {b : Byte} {nf nt : Node}
    (hf : da.node from_ = some nf) (hv : nf.Value < 0)
    (ht : da.node (Int.xor nf.base (ofByte b)) = some nt) (hc : nt.Check = from_) :
    follow da from_ b = some (da, Int.xor nf.base (ofByte b)) := by
  have h0 : 0 ≤ from_ := idx_nonneg hf
  have hb : ¬ nf.base < 0 := by unfold Node.base; omega
  simp [follow, hf, hb, ht, hc]
  intro h
  omega

/-- The value that `Value` returns is not negative. -/
theorem value_nonneg {da : Cedar} {id v : Int} (h : Value da id = some (v, none)) :
    0 ≤ v := by
  unfold Value at h
  cases hn : da.node id with
  | none => simp [hn] at h
  | some n =>
    simp only [hn] at h
    by_cases hv : n.Value ≥ 0
    · simp only [hv, if_true, Option.some.injEq, Prod.mk.injEq, and_true] at h
      omega
    · simp only [hv, if_false] at h
      cases hb : da.node n.base with
      | none => simp [hb] at h
      | some nt =>
        simp only [hb] at h
        by_cases h2 : nt.Check = id ∧ nt.Value ≥ 0
        · simp only [h2, and_self, if_true, Option.some.injEq, Prod.mk.injEq, and_true] at h
          omega
        · simp [h2] at h

/-- The lookup `get` of a key whose path exists and whose node has a value changes
nothing: it returns the state as it is and the slot that holds the value. -/
theorem get_present {da : Cedar} :
    ∀ (key : List Byte) (f id v : Int), jumpLoop da key f f = some (id, none) →
      Value da id = some (v, none) →
      ∃ p n, get da key f = some (da, p) ∧ da.node p = some n ∧ n.Value = v
  | [], f, id, v, hj, hv => by
    have := jumpLoop_nil_ok hj
    subst this
    unfold Value at hv
    unfold get
    cases hn : da.node id with
    | none => simp [hn] at hv
    | some n =>
      simp only [hn] at hv ⊢
      by_cases hval : n.Value ≥ 0
      · simp only [hval, if_true, Option.some.injEq, Prod.mk.injEq, and_true] at hv
        have hlt : ¬ n.Value < 0 := by omega
        simp only [hlt, if_false]
        exact ⟨id, n, rfl, hn, hv⟩
      · simp only [hval, if_false] at hv
        have hlt : n.Value < 0 := by omega
        simp only [hlt, if_true]
        cases hb : da.node n.base with
        | none => simp [hb] at hv
        | some nt =>
          simp only [hb] at hv
          by_cases h2 : nt.Check = id ∧ nt.Value ≥ 0
          · simp only [h2, and_self, if_true, Option.some.injEq, Prod.mk.injEq,
              and_true] at hv
            have hb0 : 0 ≤ n.base := by unfold Node.base; omega
            have hz := xor_zero_byte hb0
            have hb' : da.node (Int.xor n.base (ofByte 0)) = some nt := by rw [hz]; exact hb
            rw [follow_existing hn hlt hb' h2.1, hz]
            exact ⟨n.base, nt, rfl, hb, hv⟩
          · simp [h2] at hv
  | b :: rest, f, id, v, hj, hv => by
    obtain ⟨nf, nt, hf, hval, ht, hc, hr⟩ := jumpLoop_cons_ok hj
    obtain ⟨p, n, hg, hn, hnv⟩ := get_present rest _ id v hr hv
    unfold get
    have hval' : ¬ (nf.Value ≥ 0 ∧ nf.Value ≠ ValueLimit) := by omega
    simp only [hf, hval', if_false, follow_existing hf hval ht hc]
    exact ⟨p, n, hg, hn, hnv⟩

/-- `Update` of a present key: the lookup leaves the state as it is, and the slot
of the key takes `delta` when it holds `ValueLimit`, is left alone with
`ErrInvalidValue` when the wrapped sum fails the range test, and takes the wrapped
sum otherwise. -/
theorem update_present {da : Cedar} {key : List Byte} {v : Int}
    (hget : Get da key = some (v, none)) (delta : Int) :
    ∃ p n, get da key 0 = some (da, p) ∧ da.node p = some n ∧ n.Value = v ∧
      Update da key delta =
        if v = ValueLimit then (da.setValue p delta).map fun d => (d, none)
        else if wrapAdd v delta < 0 ∨ wrapAdd v delta ≥ ValueLimit then
          some (da, some Err.ErrInvalidValue)
        else (da.setValue p (wrapAdd v delta)).map fun d => (d, none) := by
  unfold Get at hget
  cases hj : Jump da key 0 with
  | none => simp [hj] at hget
  | some r =>
    obtain ⟨id, e⟩ := r
    cases e with
    | some e => simp [hj] at hget
    | none =>
      simp only [hj] at hget
      obtain ⟨p, n, hg, hn, hnv⟩ := get_present key 0 id v hj hget
      refine ⟨p, n, hg, hn, hnv, ?_⟩
      unfold Update
      simp only [hg, hn, hnv]

/-- A failed `Update` of a present key leaves the state as it is. -/
theorem update_present_invalid {da da' : Cedar} {key : List Byte} {v delta : Int}
    (hget : Get da key = some (v, none))
    (h : Update da key delta = some (da', some Err.ErrInvalidValue)) : da' = da := by
  obtain ⟨p, n, _, _, _, hu⟩ := update_present hget delta
  rw [hu] at h
  by_cases h1 : v = ValueLimit
  · simp only [h1, if_true] at h
    cases hs : da.setValue p delta with
    | none => simp [hs] at h
    | some d => simp [hs] at h
  · simp only [h1, if_false] at h
    by_cases h2 : wrapAdd v delta < 0 ∨ wrapAdd v delta ≥ ValueLimit
    · simp only [h2, if_true, Option.some.injEq, Prod.mk.injEq, and_true] at h
      exact h.symm
    · simp only [h2, if_false] at h
      cases hs : da.setValue p (wrapAdd v delta) with
      | none => simp [hs] at h
      | some d => simp [hs] at h

/-- The wrapped sum of a value in `[0, ValueLimit)` and a 64-bit delta: the sum
itself when it is below `2 ^ 63`, and a negative number otherwise. -/
theorem wrapAdd_cases (v d : Int) (hv0 : 0 ≤ v) (hv1 : v < ValueLimit)
    (hd0 : -2 ^ 63 ≤ d) (hd1 : d < 2 ^ 63) :
    (v + d < 2 ^ 63 ∧ wrapAdd v d = v + d) ∨ (2 ^ 63 ≤ v + d ∧ wrapAdd v d < 0) :=
  wrapAddW_cases 64 (by decide) v d hv0 hv1 hd0 hd1

/-- The range test of `Update` on the wrapped sum is the test on the mathematical
sum. -/
theorem wrapAdd_test (v d : Int) (hv0 : 0 ≤ v) (hv1 : v < ValueLimit)
    (hd0 : -2 ^ 63 ≤ d) (hd1 : d < 2 ^ 63) :
    ((wrapAdd v d < 0 ∨ wrapAdd v d ≥ ValueLimit) ↔ ¬ (0 ≤ v + d ∧ v + d < ValueLimit)) ∧
      (¬ (wrapAdd v d < 0 ∨ wrapAdd v d ≥ ValueLimit) → wrapAdd v d = v + d) := by
  have hm : ValueLimit = 2 ^ 63 - 1 := rfl
  rcases wrapAdd_cases v d hv0 hv1 hd0 hd1 with ⟨h1, h2⟩ | ⟨h1, h2⟩
  · rw [h2]
    refine ⟨?_, fun _ => rfl⟩
    constructor
    · intro h; omega
    · intro h; omega
  · refine ⟨?_, fun h => absurd (Or.inl h2) h⟩
    constructor
    · intro _; omega
    · intro _; exact Or.inl h2
/-! ### A sample state -/

theorem samplePrefix_root : RootIsNoChild samplePrefix := by
  unfold RootIsNoChild; decide

theorem samplePrefix_heads : HeadsOk samplePrefix := by
  unfold HeadsOk; decide

theorem samplePrefix_children :
    allFrom (childOkAt samplePrefix) 0 samplePrefix.Array = true := by
  decide!

theorem samplePrefix_rings :
    allFrom (ringOkAt samplePrefix) 0 samplePrefix.Array = true := by
  decide!

theorem samplePrefix_links : linksOk samplePrefix = true := by
  decide

theorem samplePrefix_sizes : SizesOk samplePrefix := by
  unfold SizesOk; decide

theorem samplePrefix_wellFormed : WellFormed samplePrefix :=
  ⟨samplePrefix_root, samplePrefix_heads, children_of_all samplePrefix_children,
    rings_of_all samplePrefix_rings,
    samplePrefix_links, samplePrefix_sizes⟩

theorem samplePrefix_get : Get samplePrefix [97, 98] = some (1, none) := by
  decide


theorem samplePrefix_closed : Closed samplePrefix :=
  closed_of_aligned 512 (by decide) (by decide) (by decide) (by decide!)
/-! ### The claims -/

/-- C1 (failing input): on the state left by `Update("a", -1000000)` on a fresh trie,
which `Update` accepts with `nil`, `Insert("ab", 1)` does not return: the lookup
indexes the slot array past its end, and so does `Get("ab")`. -/
theorem C1_insert_after_negative_update :
    (Update New [97] (-1000000)).map
        (fun r => (r.2, Insert r.1 [97, 98] 1, Get r.1 [97, 98])) =
      some (none, none, none) := by
  decide

/-- C2 (failing input): on a fresh trie `Get("a")` fails with `ErrNoPath`; after
`Insert("a\x00", 1)` returned `nil`, `Get("a")` returns `(1, nil)`, although the key
`"a"` differs from the inserted one. -/
theorem C2_insert_changes_other_key :
    Get New [97] = some (0, some Err.ErrNoPath) ∧
      (Insert New [97, 0] 1).map (fun r => (r.2, Get r.1 [97])) =
        some (none, some (1, none)) := by
  decide

/-- C5 (failing input): after `Insert("abc", 1)` on a fresh trie the key `"ab"` has
not been added (`Get("ab")` fails with `ErrNoValue`), yet `Delete("ab")` returns `nil`,
changes the state and makes `Get("abc")` fail. -/
theorem C5_delete_of_prefix_returns_nil :
    (Insert New [97, 98, 99] 1).map (fun r => (Get r.1 [97, 98], Get r.1 [97, 98, 99])) =
        some (some (0, some Err.ErrNoValue), some (1, none)) ∧
      (Insert New [97, 98, 99] 1).bind
          (fun r => (Delete 3 r.1 [97, 98]).map
            (fun q => (q.2, decide (q.1 = r.1), Get q.1 [97, 98, 99]))) =
        some (none, false, some (0, some Err.ErrNoPath)) := by
  decide

/-- C6 (failing input): `Update("a", -5)` on a fresh trie, where `"a"` is not
present, returns `nil` and stores the value `-5` in the slot of `"a"`. -/
theorem C6_update_stores_negative_value :
    (Update New [97] (-5)).map (fun r => (r.2, r.1.node 96)) =
      some (none, some { Value := -5, Check := 0 }) := by
  decide

/-- C7 (failing input): `Update("a", ValueLimit)` on a fresh trie returns `nil`
and `Get("a")` then returns `(ValueLimit, nil)`; `Update("a", -1)` returns `nil`, but
`Get("a")` fails with `ErrNoValue` instead of returning `ValueLimit - 1`. -/
theorem C7_update_of_sentinel_value :
    (Update New [97] ValueLimit).map (fun r => (r.2, Get r.1 [97])) =
        some (none, some (ValueLimit, none)) ∧
      (Update New [97] ValueLimit).bind
          (fun r => (Update r.1 [97] (-1)).map (fun q => (q.2, Get q.1 [97]))) =
        some (none, some (0, some Err.ErrNoValue)) := by
  decide

/-- C9: `Insert(key, value)` returns `ErrInvalidValue` with final state `da'` if and
only if `value < 0` or `value ≥ ValueLimit` and `da'` is the state before the call. -/
theorem C9_insert_invalid_value_iff (da da' : Cedar) (key : List Byte) (value : Int) :
    Insert da key value = some (da', some Err.ErrInvalidValue) ↔
      ((value < 0 ∨ value ≥ ValueLimit) ∧ da' = da) := by
  unfold Insert
  by_cases h : value < 0 ∨ value ≥ ValueLimit
  · simp only [h, if_true, true_and]
    constructor
    · intro e
      simp only [Option.some.injEq, Prod.mk.injEq, and_true] at e
      exact e.symm
    · intro e
      rw [e]
  · simp only [h, if_false, false_and, iff_false]
    cases hg : get da key 0 with
    | none => simp
    | some r =>
      obtain ⟨da1, p⟩ := r
      cases hs : da1.setValue p value with
      | none => simp [hs]
      | some d => simp [hs]

/-- C8 (failing input): after `Insert("a", 3)` on a fresh trie, `Update("a\x00", -10)`
returns `ErrInvalidValue`, yet the state after the call differs from the state
before it, and `Get("a\x00")`, which failed with `ErrNoPath`, now returns `(3, nil)`:
the lookup has reserved a value slot for `"a"`, moved the value 3 into it and taken
that slot, the child of `"a"` with the label 0, for the slot of `"a\x00"`. -/
theorem C8_failed_update_changes_state :
    (Update sampleA [97, 0] (-10)).map (fun r => (r.2, decide (r.1 = sampleA))) =
        some (some Err.ErrInvalidValue, false) ∧
      Get sampleA [97, 0] = some (0, some Err.ErrNoPath) ∧
      (Update sampleA [97, 0] (-10)).bind (fun r => Get r.1 [97, 0]) = some (3, none) := by
  decide

/-- C10 (counterexample): after `Insert("a\x00", 1)` on a fresh trie,
`Jump("a\x00", 0)` returns `(256, nil)` and `Key(256)` returns `("a", nil)`, not the
key that was jumped along. -/
theorem C10_key_drops_zero_byte :
    (Insert New [97, 0] 1).map (fun r => (Jump r.1 [97, 0] 0, Key r.1 2 256)) =
      some (some (256, none), some ([97], none)) := by
  decide

/-- C10 (amended): in every trie state whose root slot has a negative check, for
every non-empty key `k` without byte 0: if `Jump(k, 0)` returns `(id, nil)` then
`Key(id)` returns `(k, nil)` (the loop of `Key` ends within `len(k)` iterations). -/
theorem C10_key_undoes_jump (da : Cedar) (k : List Byte) (id : Int) (fuel : Nat)
    (hroot : RootIsNoChild da) (hne : k ≠ []) (hnz : ∀ b ∈ k, b ≠ 0)
    (hj : Jump da k 0 = some (id, none)) (hf : k.length ≤ fuel) :
    Key da fuel id = some (k, none) := by
  unfold Key
  rw [keyLoop_of_jumpLoop hroot k id hj hnz fuel [] hf]
  have : ¬ (k.reverse.length = 0) := by
    simp only [List.length_reverse]
    intro h0
    exact hne (List.length_eq_zero.mp h0)
  simp [this, hne]

/-- C10 (witness): the key `"abc"` on the state after `Insert("abc", 1)`. -/
theorem C10_key_undoes_jump_witness : Key sampleABC 3 257 = some ([97, 98, 99], none) :=
  C10_key_undoes_jump sampleABC [97, 98, 99] 257 3 (by unfold RootIsNoChild; decide)
    (by decide) (by decide) (by decide) (by decide)

/-- C3 (failing input): `Insert("abc", 1)`, `Delete("ab")`, `Insert("pq", 1)` and
`Insert("sta", 1)` on a fresh trie all return `nil`.  In the state they leave,
`Get("stc")` returns `(1, nil)`, but `Delete("stc")` does not return: the walk of
`popSibling` along the child ring of `"st"` never meets the label `c`. -/
theorem C3_delete_of_adopted_orphan :
    ((Delete 3 sampleABC [97, 98]).map fun r => r.2) = some none ∧
      (((Delete 3 sampleABC [97, 98]).bind fun r => Insert r.1 [112, 113] 1).map
        fun r => r.2) = some none ∧
      ((((Delete 3 sampleABC [97, 98]).bind fun r => Insert r.1 [112, 113] 1).bind
        fun r => Insert r.1 [115, 116, 97] 1).map fun r => r.2) = some none ∧
      Get sampleOrphan [115, 116, 99] = some (1, none) ∧
      ∀ fuel : Nat, Delete fuel sampleOrphan [115, 116, 99] = none := by
  refine ⟨by decide, by decide, by decide, by decide, ?_⟩
  intro fuel
  cases fuel with
  | zero => decide
  | succ n =>
    have hj : Jump sampleOrphan [115, 116, 99] 0 = some (257, none) := by decide
    have hnt : sampleOrphan.node 257 = some ⟨1, 256⟩ := by decide
    have hnf : sampleOrphan.node 256 = some ⟨-355, 114⟩ := by decide
    have hxt : sampleOrphan.ninfo 257 = some ⟨0, 0⟩ := by decide
    have hxf : sampleOrphan.ninfo 256 = some ⟨0, 97⟩ := by decide
    have h1 : sampleOrphan.readLoc (Loc.child 256) = some 97 := by decide
    have h2 : sampleOrphan.readLoc (Loc.sibling 259) = some 0 := by decide
    have h3 : sampleOrphan.readLoc (Loc.sibling 354) = some 0 := by decide
    have e1 : Loc.sibling (Int.xor 354 (ofByte 97)) = Loc.sibling 259 := by decide
    have e2 : Loc.sibling (Int.xor 354 (ofByte 0)) = Loc.sibling 354 := by decide
    have hw : popSiblingWalk sampleOrphan 354 99 257 (Loc.child 256) = none := by
      rw [show (257 : Nat) = 255 + 1 + 1 from rfl, popSiblingWalk_next h1 (by decide), e1,
        popSiblingWalk_next h2 (by decide), e2]
      exact popSiblingWalk_fixed h3 (by decide) e2 255
    have hp : popSibling sampleOrphan 256 354 99 = none := by
      unfold popSibling
      rw [hw]
      rfl
    have hl : deleteLoop (n + 1) sampleOrphan 257 = none :=
      deleteLoop_stuck n (by decide) hnt hnf hxt hxf (Or.inr (by decide)) hp
    unfold Delete
    rw [hj]
    simp only [hnt]
    show (deleteLoop (n + 1) sampleOrphan 257).map _ = none
    rw [hl]
    rfl

/-- C4 (counterexample): after `Insert("ab", 1)` on a fresh trie `Get("a")` fails
with `ErrNoValue`; `Delete("ab")` returns `nil`, and `Get("a")` then fails with
`ErrNoPath`, a different error. -/
theorem C4_delete_changes_error_of_prefix :
    Get sampleAB [97, 98] = some (1, none) ∧
      Get sampleAB [97] = some (0, some Err.ErrNoValue) ∧
      (Delete 3 sampleAB [97, 98]).map (fun r => (r.2, Get r.1 [97])) =
        some (none, some (0, some Err.ErrNoPath)) := by
  decide

/-- C4 (amended): in every trie state that satisfies the invariants of the data
model (`WellFormed`), for every present key `k` and every other key `k'`, both
without byte 0: `Delete(k)` returns `nil` (within `len(k) + 1` iterations of its
loop), `Get(k')` then returns the value it returned before the call, and a `Get(k')`
that failed before the call still fails (with `ErrNoPath` or `ErrNoValue`, not
always the same of the two). -/
theorem C4_delete_keeps_other_keys (da : Cedar) (k k' : List Byte) (fuel : Nat)
    (hw : WellFormed da) (hkz : ∀ b ∈ k, b ≠ 0) (hkz' : ∀ b ∈ k', b ≠ 0) (hne : k' ≠ k)
    (hpres : ∃ v, Get da k = some (v, none)) (hfuel : k.length + 1 ≤ fuel) :
    ∃ da', Delete fuel da k = some (da', none) ∧
      (∀ v, Get da k' = some (v, none) → Get da' k' = some (v, none)) ∧
      (∀ e, Get da k' = some (0, some e) → ∃ e', Get da' k' = some (0, some e')) := by
  obtain ⟨da', hd⟩ := delete_returns hw hpres hfuel
  exact ⟨da', hd, delete_frame hw hkz hkz' hne hpres hd⟩

/-- C4 (witness): `Delete("ab")` on the state with the keys `"ab"` and `"abc"` keeps
`Get("abc")`. -/
theorem C4_delete_keeps_other_keys_witness :
    ∃ da', Delete 3 samplePrefix [97, 98] = some (da', none) ∧
      (∀ v, Get samplePrefix [97, 98, 99] = some (v, none) →
        Get da' [97, 98, 99] = some (v, none)) ∧
      (∀ e, Get samplePrefix [97, 98, 99] = some (0, some e) →
        ∃ e', Get da' [97, 98, 99] = some (0, some e')) :=
  C4_delete_keeps_other_keys samplePrefix [97, 98] [97, 98, 99] 3
    samplePrefix_wellFormed (by decide) (by decide) (by decide) ⟨1, samplePrefix_get⟩
    (by decide)

/-- C20: the range test of `Update` is exact under wraparound.  In every trie
state, for every present key (`Get(key)` returns the stored value `v`) with
`v < ValueLimit` and every 64-bit delta `d`: the test `v+d < 0 || v+d >= ValueLimit`
on the wrapped sum is true exactly when the mathematical sum `v + d` is outside
`[0, ValueLimit)`; then `Update(key, d)` returns `ErrInvalidValue` and leaves the
state as it is; otherwise `Update` returns `nil` and the slot of the key holds the
mathematical sum `v + d`, so that an overflowing sum is never stored.  The test is
exact for every width `w ≥ 1` of the Go `int` (`ValueLimit = maxInt w`). -/
theorem C20_update_range_test_exact (da : Cedar) (key : List Byte) (v d : Int)
    (hget : Get da key = some (v, none)) (hv1 : v < ValueLimit)
    (hd0 : -2 ^ 63 ≤ d) (hd1 : d < 2 ^ 63) :
    ((wrapAdd v d < 0 ∨ wrapAdd v d ≥ ValueLimit) ↔
        ¬ (0 ≤ v + d ∧ v + d < ValueLimit)) ∧
      (¬ (0 ≤ v + d ∧ v + d < ValueLimit) →
        Update da key d = some (da, some Err.ErrInvalidValue)) ∧
      ((0 ≤ v + d ∧ v + d < ValueLimit) →
        ∃ p n da', get da key 0 = some (da, p) ∧ da.node p = some n ∧ n.Value = v ∧
          Update da key d = some (da', none) ∧
          da'.node p = some { n with Value := v + d }) ∧
      (∀ (w : Nat) (v' d' : Int), 1 ≤ w → 0 ≤ v' → v' < maxInt w →
        -2 ^ (w - 1) ≤ d' → d' < 2 ^ (w - 1) →
        ((wrapAddW w v' d' < 0 ∨ wrapAddW w v' d' ≥ maxInt w) ↔
            ¬ (0 ≤ v' + d' ∧ v' + d' < maxInt w)) ∧
          (¬ (wrapAddW w v' d' < 0 ∨ wrapAddW w v' d' ≥ maxInt w) →
            wrapAddW w v' d' = v' + d')) := by
  have hv0 : 0 ≤ v := by
    unfold Get at hget
    cases hj : Jump da key 0 with
    | none => simp [hj] at hget
    | some r =>
      obtain ⟨id, e⟩ := r
      cases e with
      | some e => simp [hj] at hget
      | none =>
        simp only [hj] at hget
        exact value_nonneg hget
  obtain ⟨ht, hs⟩ := wrapAdd_test v d hv0 hv1 hd0 hd1
  obtain ⟨p, n, hg, hn, hnv, hu⟩ := update_present hget d
  have hne : ¬ v = ValueLimit := by omega
  rw [if_neg hne] at hu
  refine ⟨ht, ?_, ?_, ?_⟩
  · intro hout
    rw [hu, if_pos (ht.mpr hout)]
  · intro hin
    have hnt : ¬ (wrapAdd v d < 0 ∨ wrapAdd v d ≥ ValueLimit) := fun h => ht.mp h hin
    rw [if_neg hnt, hs hnt] at hu
    have hp0 : 0 ≤ p := idx_nonneg hn
    have hp1 : p.toNat < da.Array.length := idx_lt_length hn
    have hr : InRange da.Array.length p := ⟨hp0, by omega⟩
    obtain ⟨da', hset, _⟩ := setValue_total da (v + d) hr
    obtain ⟨⟨n1, hn1, hn2⟩, _⟩ := setValue_spec hset
    rw [hn] at hn1
    cases hn1
    refine ⟨p, n, da', hg, hn, hnv, ?_, hn2⟩
    rw [hu, hset]
    rfl
  · intro w v' d' hw h0 h1 h2 h3
    have hm : maxInt w = 2 ^ (w - 1) - 1 := rfl
    rcases wrapAddW_cases w hw v' d' h0 h1 h2 h3 with ⟨a1, a2⟩ | ⟨a1, a2⟩
    · rw [a2]
      refine ⟨?_, fun _ => rfl⟩
      constructor
      · intro h; omega
      · intro h; omega
    · refine ⟨?_, fun h => absurd (Or.inl a2) h⟩
      constructor
      · intro _; omega
      · intro _; exact Or.inl a2

/-- C20 (witness): in the state after `Insert("a", 3)` the delta `2 ^ 63 - 3` makes
the sum overflow; `Update("a", 2 ^ 63 - 3)` returns `ErrInvalidValue` and leaves the
state as it is. -/
theorem C20_update_range_test_exact_witness :
    Update sampleA [97] (2 ^ 63 - 3) = some (sampleA, some Err.ErrInvalidValue) :=
  (C20_update_range_test_exact sampleA [97] 3 (2 ^ 63 - 3) (by decide) (by decide)
    (by decide) (by decide)).2.1 (by decide)

/-- C18: `Key` of a value slot is the key of its parent.  In every trie state, for
every occupied slot `t > 0` whose label under its parent `p = check[t]` is 0
(`t == base(p)`), `Key(t)` makes one more iteration of its loop than `Key(p)` and
returns exactly what `Key(p)` returns, the bytes or the error; when `p` is the root
that is `ErrInvalidKey`. -/
theorem C18_key_of_value_slot (da : Cedar) (t : Int) (n np : Node) (fuel : Nat)
    (ht : t > 0) (hn : da.node t = some n) (hc : n.Check ≥ 0)
    (hp : da.node n.Check = some np) (hb : t = np.base) :
    Key da (fuel + 1) t = Key da fuel n.Check ∧
      (n.Check = 0 → Key da (fuel + 1) t = some ([], some Err.ErrInvalidKey)) := by
  have h : Key da (fuel + 1) t = Key da fuel n.Check := by
    unfold Key
    rw [keyLoop_value_slot fuel [] ht hn hc hp hb]
  refine ⟨h, ?_⟩
  intro h0
  rw [h, h0]
  cases fuel <;> simp [Key, keyLoop]

/-- C18 (witness): in the state after `Insert("ab", 1)` and `Insert("abc", 2)` the
slot 257 is the value slot of the node 256 of `"ab"`; `Key(257)` is `Key(256)`. -/
theorem C18_key_of_value_slot_witness :
    Key samplePrefix 3 257 = Key samplePrefix 2 256 :=
  (C18_key_of_value_slot samplePrefix 257 ⟨1, 256⟩ ⟨-258, 96⟩ 2 (by decide) (by decide)
    (by decide) (by decide) (by decide)).1

/-- C19 (failing input): in the state after `Insert("abc", 1)`, `Jump("ab", 0)`
returns `(256, nil)` and so does `Jump("ab" ++ "", 0)`, but `Jump("", 256)` returns
`(0, nil)`: the result `to` of `Jump` is the root when the path is empty, whatever
`from` is. -/
theorem C19_jump_of_empty_path :
    Jump sampleABC [97, 98] 0 = some (256, none) ∧
      Jump sampleABC ([97, 98] ++ []) 0 = some (256, none) ∧
      Jump sampleABC [] 256 = some (0, none) := by
  decide

/-- C13 (counterexample): `Insert("", 5)` on a fresh trie returns `nil`; then
`Get("")` returns `(5, nil)` and `Jump("", 0)` returns the root `0`, but
`PrefixMatch("a", 0)` is empty: the stored prefix `""` of the query is not found. -/
theorem C13_prefix_match_misses_empty_key :
    (Insert New [] 5).map (fun r => r.2) = some none ∧
      Get sampleEmptyKey [] = some (5, none) ∧
      Jump sampleEmptyKey [] 0 = some (0, none) ∧
      PrefixMatch sampleEmptyKey [97] 0 = some [] := by
  decide

/-- C13 (amended): in every trie state, for every query `q` (shorter than `2 ^ 63`
bytes, as every Go slice is) and every non-empty prefix `p` of `q` for which
`Get(p)` succeeds, the id `Jump(p, 0)` occurs in `PrefixMatch(q, 0)`, whenever
`PrefixMatch` returns; it returns in every state that reads slots of the array
only (`Closed`). -/
theorem C13_prefix_match_finds_prefixes (da : Cedar) (q p : List Byte) (v : Int)
    (hlen : (q.length : Int) < 2 ^ 63) (hne : p ≠ []) (hp : p <+: q)
    (hget : Get da p = some (v, none)) :
    ∃ id, Jump da p 0 = some (id, none) ∧
      (∀ ids, PrefixMatch da q 0 = some ids → id ∈ ids) ∧
      (Closed da → ∃ ids, PrefixMatch da q 0 = some ids ∧ id ∈ ids) := by
  unfold Get at hget
  cases hj : Jump da p 0 with
  | none => simp [hj] at hget
  | some r =>
    obtain ⟨id, e⟩ := r
    cases e with
    | some e => simp [hj] at hget
    | none =>
      simp only [hj] at hget
      have htake : q.take p.length = p := (List.prefix_iff_eq_take.mp hp).symm
      have hm : matchAt da q p.length = some (some id) := by
        unfold matchAt
        rw [htake, hj]
        simp only [hget]
      have hpos : 0 < p.length := List.length_pos.mpr hne
      have hle : p.length ≤ q.length := hp.length_le
      have hi : p.length ∈ List.range' 1 q.length := by
        rw [List.mem_range'_1]
        omega
      have hmem : ∀ ids, PrefixMatch da q 0 = some ids → id ∈ ids := by
        intro ids h
        rw [prefixMatch_spec da q hlen] at h
        exact matchesOf_mem _ ids p.length hi hm h
      refine ⟨id, rfl, hmem, ?_⟩
      intro hc
      obtain ⟨ids, h⟩ := prefixMatch_total hc q hlen
      exact ⟨ids, h, hmem ids h⟩

/-- C13 (witness): in the state after `Insert("ab", 1)` and `Insert("abc", 2)` the
prefix `"ab"` of the query `"abcd"` is found. -/
theorem C13_prefix_match_finds_prefixes_witness :
    ∃ id ids, Jump samplePrefix [97, 98] 0 = some (id, none) ∧
      PrefixMatch samplePrefix [97, 98, 99, 100] 0 = some ids ∧ id ∈ ids := by
  obtain ⟨id, hj, _, hc⟩ := C13_prefix_match_finds_prefixes samplePrefix
    [97, 98, 99, 100] [97, 98] 1 (by decide) (by decide) (by decide) (by decide)
  obtain ⟨ids, h1, h2⟩ := hc samplePrefix_closed
  exact ⟨id, ids, hj, h1, h2⟩

/-- C14 (counterexample): in the state `sampleRootLoop`, whose root is its own child
under the label 1, `PrefixMatch("\x01\x01", 0)` returns the root twice. -/
theorem C14_prefix_match_repeats_root :
    PrefixMatch sampleRootLoop [1, 1] 0 = some [0, 0] := by
  decide

/-- C14 (amended): in every trie state, for every query `q` (shorter than `2 ^ 63`
bytes), `PrefixMatch(q, 0)` is exactly the list, in increasing `i`, of the ids
`Jump(q[0:i], 0)` for those `i` in `1..len(q)` where the jump succeeds and `Value`
of the reached id succeeds; every returned id is the node of a non-empty prefix of
`q` that carries a value.  In a state whose root is no child (its check is
negative) no id occurs twice.  `PrefixMatch` returns in every state that reads
slots of the array only (`Closed`). -/
theorem C14_prefix_match_list (da : Cedar) (q : List Byte)
    (hlen : (q.length : Int) < 2 ^ 63) :
    PrefixMatch da q 0 = prefixMatchSpec da q ∧
      (∀ ids, PrefixMatch da q 0 = some ids → ∀ id ∈ ids, ∃ i, 1 ≤ i ∧ i ≤ q.length ∧
        Jump da (q.take i) 0 = some (id, none) ∧ ∃ v, Value da id = some (v, none)) ∧
      (RootIsNoChild da → ∀ ids, PrefixMatch da q 0 = some ids → ids.Nodup) ∧
      (Closed da → ∃ ids, PrefixMatch da q 0 = some ids) := by
  have hs := prefixMatch_spec da q hlen
  refine ⟨hs, ?_, ?_, fun hc => prefixMatch_total hc q hlen⟩
  · intro ids h id hid
    rw [hs] at h
    obtain ⟨i, hi, hm⟩ := matchesOf_origin _ ids h hid
    rw [List.mem_range'_1] at hi
    obtain ⟨h1, v, h2⟩ := matchAt_some hm
    exact ⟨i, hi.1, by omega, h1, v, h2⟩
  · intro hroot ids h
    rw [hs] at h
    refine matchesOf_nodup hroot _ ids (List.nodup_range' _ _) ?_ h
    intro i hi
    rw [List.mem_range'_1] at hi
    omega

/-- C14 (witness): the query `"abcd"` in the state after `Insert("ab", 1)` and
`Insert("abc", 2)`: the matches are the nodes 256 of `"ab"` and 354 of `"abc"`. -/
theorem C14_prefix_match_list_witness :
    PrefixMatch samplePrefix [97, 98, 99, 100] 0 = some [256, 354] ∧
      prefixMatchSpec samplePrefix [97, 98, 99, 100] = some [256, 354] := by
  have h := (C14_prefix_match_list samplePrefix [97, 98, 99, 100] (by decide)).1
  have h2 : PrefixMatch samplePrefix [97, 98, 99, 100] 0 = some [256, 354] := by decide
  exact ⟨h2, h ▸ h2⟩

/-- C15: the limit of `PrefixMatch` only truncates.  In every trie state, for every
query `q` (shorter than `2 ^ 63` bytes) and every `num > 0` (an `int`, below
`2 ^ 63`), when `PrefixMatch(q, 0)` returns the list `all`, `PrefixMatch(q, num)`
returns the first `min(num, len(all))` elements of `all`, at most `num` elements. -/
theorem C15_prefix_match_limit (da : Cedar) (q : List Byte) (num : Int) (all : List Int)
    (hlen : (q.length : Int) < 2 ^ 63) (h0 : 0 < num) (h1 : num < 2 ^ 63)
    (hall : PrefixMatch da q 0 = some all) :
    PrefixMatch da q num = some (all.take (min num.toNat all.length)) ∧
      ((all.take (min num.toNat all.length)).length : Int) ≤ num := by
  unfold PrefixMatch at hall ⊢
  rw [prefixMatchLoop_unlimited da q 0 0 [] (le_refl 0) (by omega)] at hall
  cases hw : matchWalk da q 0 with
  | none => simp [hw] at hall
  | some l =>
    simp only [hw, Option.map_some', List.nil_append, Option.some.injEq] at hall
    subst hall
    rw [prefixMatchLoop_limited da q 0 num [] l h0 h1 hw]
    have e : List.take (min num.toNat l.length) l = List.take num.toNat l := by
      rcases Nat.le_total num.toNat l.length with h | h
      · rw [Nat.min_eq_left h]
      · rw [Nat.min_eq_right h, List.take_length, List.take_of_length_le h]
    rw [e]
    refine ⟨by simp, ?_⟩
    have := List.length_take_le num.toNat l
    omega

/-- C15 (witness): the query `"abcd"` with the limit 1 in the state after
`Insert("ab", 1)` and `Insert("abc", 2)`. -/
theorem C15_prefix_match_limit_witness :
    PrefixMatch samplePrefix [97, 98, 99, 100] 1 = some [256] :=
  (C15_prefix_match_limit samplePrefix [97, 98, 99, 100] 1 [256, 354] (by decide)
    (by decide) (by decide) (by decide)).1

/-- C17 (failing input): on a fresh trie the root has no child (`child[0]` is 0), its
base is 1 and the slot 1 is empty (its check is `-2`, not the root); `begin(0)`
returns the slot 1 all the same, because `begin` tests `base > 0` only. -/
theorem C17_begin_lands_on_empty_slot :
    New.ninfo 0 = some ⟨0, 0⟩ ∧ New.node 0 = some ⟨-2, -1⟩ ∧
      New.node 1 = some ⟨-255, -2⟩ ∧ ∀ fuel : Nat, begin New fuel 0 = some 1 := by
  refine ⟨by decide, by decide, by decide, ?_⟩
  intro fuel
  cases fuel <;> rfl

/-- C12 (failing input): on a fresh trie, where no key is stored, `PrefixPredict("", 0)`
returns the id 1 of an empty slot, and `Value(1)` fails with `ErrNoValue`.  The same
holds after `Insert("a", 3)` and `Delete("a")`, which both return `nil`. -/
theorem C12_prefix_predict_of_empty_trie :
    (∀ fuel : Nat, PrefixPredict New (fuel + 1) [] 0 = some [1]) ∧
      Value New 1 = some (0, some Err.ErrNoValue) ∧
      (Insert New [97] 3).map (fun r => r.2) = some none ∧
      (Delete 2 sampleA [97]).map (fun r => r.2) = some none ∧
      PrefixPredict sampleDeleted 1 [] 0 = some [1] ∧
      Value sampleDeleted 1 = some (0, some Err.ErrNoValue) := by
  refine ⟨fun fuel => rfl, by decide, by decide, by decide, by decide, by decide⟩

/-- C11 (failing input): for the empty set of keys `PrefixPredict("", 0)` on the
fresh trie returns one id, not none.  For the keys `"a"` and `"a\x00"`, inserted
with the values 1 and 2, it returns the single id 256, whose key is `"a"`. -/
theorem C11_prefix_predict_counts_keys :
    insertAll New [] = some New ∧
      PrefixPredict New 1 [] 0 = some [1] ∧
      (insertAll New [([97], 1), ([97, 0], 2)]).bind (fun d => PrefixPredict d 3 [] 0) =
        some [256] ∧
      (insertAll New [([97], 1), ([97, 0], 2)]).bind (fun d => Key d 3 256) =
        some ([97], none) := by
  decide

/-- C16 (failing input): `Insert("a", 7)` and `Insert("a\x00b", 8)` on a fresh trie
return `nil`.  Then `Delete("a")` returns `nil`, `Delete("a\x00b")` returns
`ErrNoPath`, and `Status()` reports 2 keys and 2 occupied slots, where the fresh
trie has none. -/
theorem C16_status_after_delete_all :
    (Insert New [97] 7).map (fun r => r.2) = some none ∧
      ((Insert New [97] 7).bind fun r => Insert r.1 [97, 0, 98] 8).map (fun r => r.2) =
        some none ∧
      (Delete 5 sampleAlias [97]).map (fun r => r.2) = some none ∧
      ((Delete 5 sampleAlias [97]).bind fun r => Delete 5 r.1 [97, 0, 98]).map
        (fun r => r.2) = some (some Err.ErrNoPath) ∧
      Status sampleAliasDeleted = some (2, 2, 512, 512) ∧
      Status New = some (0, 0, 256, 256) := by
  refine ⟨by decide, by decide, by decide, by decide, ?_, ?_⟩
  · rw [status_count (by decide)]
    decide
  · rw [status_count (by decide)]
    decide

end CedarTrie
